import Mathlib

/-!
Terrain builder (`src/src/builder.cpp`)

A shallow embedding of the terrain builder: the tile cache (`tile`, `tilemap`),
the match engine (`rule_matches`, `apply_rule`, `build_terrains`), the rule store
(`add_rule`) and the per-cell render list builder (`tile::rebuild_cache`,
`get_terrain_at`), followed by the properties proved about them.

Conventions of the embedding.
* C++ `int` values are `Int`; `unsigned int` values are `Nat` reduced modulo `2^32`
  where the source relies on wrap-around (`get_noise`, the probability cast).
* `std::vector` is `List`; `std::map` and `std::multimap` are key-ordered association
  lists; `std::set<std::string>` is a list used through membership and insertion only.
* Indexing the tile array (`tilemap::operator[]`) is fallible: a failed `assert` or an
  index outside the array is `none`, and every function that indexes returns an
  `Option`.
* Types and functions declared outside `builder.cpp` (the game map, terrain codes,
  `map_location`, `animated`, the string utilities) are either fields of `externals` /
  `gamemap`, or small models documented where they are defined.
-/

namespace terrain_builder

/-! ## Data model -/

/-- A grid location (`map_location`): a pair of C++ `int` coordinates. -/
structure map_location where
  x : Int
  y : Int
deriving DecidableEq, Repr

/-- Modelled from the spec: `map_location::legacy_sum` is defined outside the given
sources (only calls to it are in `builder.cpp`); the data model describes location
arithmetic as vector addition ("translate by constraint offset"). -/
def map_location.legacy_sum (a b : map_location) : map_location :=
  ⟨a.x + b.x, a.y + b.y⟩

/-- Modelled from the spec: `map_location::legacy_difference` is defined outside the
given sources; the data model describes location arithmetic as vector subtraction. -/
def map_location.legacy_difference (a b : map_location) : map_location :=
  ⟨a.x - b.x, a.y - b.y⟩

/-- A terrain code (`t_translation::t_terrain`, declared outside the sources): an
ordered code, here a natural number, the order being the one `std::map` iterates in. -/
abbrev t_terrain := Nat

/-- A terrain match specification (`t_translation::t_match`, declared outside the
sources); `builder.cpp` reads only its `terrain` list and hands the whole value to
`terrain_matches`. -/
structure t_match where
  terrain : List t_terrain
deriving DecidableEq, Repr

/-- An image locator (`image::locator`), as built by `load_images`: either
`locator(filename, modif)` or `locator(filename, loc, center_x, center_y, modif)`. -/
structure locator where
  filename : String
  modifications : String
  loc : Option (map_location × Int × Int)
deriving DecidableEq, Repr

/-- An animation (`animated<image::locator>`): its frames `(duration, locator)`, whether
`start_animation` was called, and the time set by `set_animation_time`. -/
structure animated where
  frames : List (Int × locator)
  started : Bool
  animation_time : Int
deriving DecidableEq, Repr

/-- Modelled from the spec: `animated::get_animation_duration` is defined outside the
given sources; the total duration is the sum of the frames' durations. -/
def animated.get_animation_duration (a : animated) : Int :=
  (a.frames.map Prod.fst).sum

/-- The default-constructed animation (`image()` in the `rule_image_variant`
constructor). -/
def animated.empty : animated := ⟨[], false, 0⟩

/-- An image variant (`rule_image_variant`). -/
structure rule_image_variant where
  image_string : String
  image : animated
  tods : List String
  probability : Int
deriving DecidableEq, Repr

/-- An image reference (`rule_image`). -/
structure rule_image where
  layer : Int
  basex : Int
  basey : Int
  variants : List rule_image_variant
  global_image : Bool
  center_x : Int
  center_y : Int
deriving DecidableEq, Repr

/-- An entry of a tile's raw image list (`tile::rule_image_rand`): the image reference
and the seed stored with it. -/
structure rule_image_rand where
  ri : rule_image
  rand : Nat
deriving DecidableEq, Repr

/-- A position constraint (`terrain_constraint`). -/
structure terrain_constraint where
  loc : map_location
  terrain_types_match : t_match
  set_flag : List String
  no_flag : List String
  has_flag : List String
  images : List rule_image
deriving DecidableEq, Repr

/-- The constraints of a rule (`constraint_set`, a `std::map` keyed by relative
location): an association list in key order. -/
abbrev constraint_set := List (map_location × terrain_constraint)

/-- A compiled rule (`building_rule`). -/
structure building_rule where
  constraints : constraint_set
  location_constraints : map_location
  probability : Int
  local_ : Bool
deriving DecidableEq, Repr

/-- The rule store (`building_ruleset`, a `std::multimap<int, building_rule>`): an
association list in ascending key order. -/
abbrev building_ruleset := List (Int × building_rule)

/-- The per-cell cache record (`tile`). -/
structure tile where
  flags : List String
  images : List rule_image_rand
  images_foreground : List animated
  images_background : List animated
  last_tod : String
  sorted_images : Bool
deriving DecidableEq, Repr

/-- The grid cache (`tilemap`): the dimensions `x_`, `y_` and the tile array. -/
structure tilemap where
  tiles_ : List tile
  x_ : Int
  y_ : Int
deriving DecidableEq, Repr

/-- The game map (`gamemap`), an external collaborator read through `map()`. -/
structure gamemap where
  w : Int
  h : Int
  get_terrain : map_location → t_terrain
  minimap_image : t_terrain → String
  minimap_image_overlay : t_terrain → String
  is_combined : t_terrain → Bool

/-- Functions and constants used by `builder.cpp` that are defined outside the given
sources and that the spec does not describe; the embedding is parametric in them.
`to_int s d` is `config::attribute_value::to_int(d)` on the value `s`, `TILEWIDTH` is
the constant of that name, `building_rule_default` holds the values that the
constructor `building_rule()` gives to the members other than the constraint map,
`make_match s` is `t_translation::t_match(s, t_translation::WILDCARD)`, and
`null_location` is the default-constructed `map_location()`. -/
structure externals where
  valid : map_location → Bool
  terrain_matches : t_terrain → t_match → Bool
  is_background : rule_image → Bool
  precached_file_exists : String → Bool
  image_exists_ : String → Bool
  parenthetical_split : String → List String
  split : String → Char → List String
  atoi : String → Int
  need_update : animated → Bool
  update_last_draw_time : animated → animated
  to_int : String → Int → Int
  TILEWIDTH : Int
  building_rule_default : building_rule
  make_match : String → t_match
  null_location : map_location

/-! ## The tile cache -/

/-- The constructor `tile::tile()`. -/
def tile.mk0 : tile :=
  { flags := [], images := [], images_foreground := [], images_background := [],
    last_tod := "invalid_tod", sorted_images := false }

/-- The method `tile::clear`. -/
def tile.clear (_t : tile) : tile :=
  { flags := [], images := [], sorted_images := false, images_foreground := [],
    images_background := [], last_tod := "invalid_tod" }

/-- The method `tilemap::reset`: clears every tile. -/
def tilemap.reset (tm : tilemap) : tilemap :=
  { tm with tiles_ := tm.tiles_.map tile.clear }

/-- The method `tilemap::reload`: a fresh array of `(x + 4) * (y + 4)` tiles. -/
def tilemap.reload (_tm : tilemap) (x y : Int) : tilemap :=
  tilemap.reset { x_ := x, y_ := y, tiles_ := List.replicate ((x + 4) * (y + 4)).toNat tile.mk0 }

/-- The method `tilemap::on_map`. -/
def tilemap.on_map (tm : tilemap) (loc : map_location) : Bool :=
  if loc.x < -2 ∨ loc.y < -2 ∨ loc.x > tm.x_ + 1 ∨ loc.y > tm.y_ + 1 then false else true

/-- The index expression of `tilemap::operator[]`. -/
def tilemap.index (tm : tilemap) (loc : map_location) : Int :=
  (loc.x + 2) + (loc.y + 2) * (tm.x_ + 4)

/-- Reading through `tilemap::operator[]`: `none` when the `assert` fails or the index
is outside the tile array. -/
def tilemap.at (tm : tilemap) (loc : map_location) : Option tile :=
  if tm.on_map loc then
    if 0 ≤ tm.index loc then tm.tiles_[(tm.index loc).toNat]? else none
  else none

/-- Writing through the reference returned by `tilemap::operator[]`. -/
def tilemap.set (tm : tilemap) (loc : map_location) (t : tile) : tilemap :=
  { tm with tiles_ := tm.tiles_.set (tm.index loc).toNat t }

/-- The class invariant of `tilemap` established by `reload`: the array holds
`(x_ + 4) * (y_ + 4)` tiles. -/
def tilemap.wf (tm : tilemap) : Prop :=
  tm.tiles_.length = ((tm.x_ + 4) * (tm.y_ + 4)).toNat

instance (tm : tilemap) : Decidable tm.wf := by
  unfold tilemap.wf; infer_instance

/-! ## The match engine -/

/-- Conversion of a C++ `int` to `unsigned int` (reduction modulo `2^32`). -/
def to_unsigned (i : Int) : Nat := (i % 4294967296).toNat

/-- The static function `get_noise`; `index` is the `unsigned int` parameter, all
arithmetic is `unsigned int` arithmetic. -/
def get_noise (loc : map_location) (index : Nat) : Nat :=
  let a := Nat.xor (to_unsigned (loc.x + 92872973)) 918273
  let b := Nat.xor (to_unsigned (loc.y + 1672517)) 128123
  let c := Nat.xor ((index + 127390) % 4294967296) 13923787
  let abc := (a * b * c + a * b + b * c + a * c + a + b + c) % 4294967296
  (abc * abc) % 4294967296

/-- One iteration of the constraint loop of `rule_matches`: `some false` is
`return false`, `some true` lets the loop go on, `none` is a failed tile access.
`type_checked` is the key of the constraint the iterator points to (`none` for
`end()`); keys of a `std::map` are unique, so comparing keys compares iterators. -/
def constraint_matches (ext : externals) (map : gamemap) (tm : tilemap) (loc : map_location)
    (type_checked : Option map_location) (cons : map_location × terrain_constraint) :
    Option Bool :=
  let tloc := loc.legacy_sum cons.2.loc
  if !tm.on_map tloc then some false
  else if (some cons.1 != type_checked) &&
      !ext.terrain_matches (map.get_terrain tloc) cons.2.terrain_types_match then some false
  else
    match tm.at tloc with
    | none => none
    | some btile =>
      if cons.2.no_flag.any (fun f => btile.flags.contains f) then some false
      else if cons.2.has_flag.any (fun f => !btile.flags.contains f) then some false
      else some true

/-- The constraint loop of `rule_matches`. -/
def rule_matches_loop (ext : externals) (map : gamemap) (tm : tilemap) (loc : map_location)
    (type_checked : Option map_location) : constraint_set → Option Bool
  | [] => some true
  | cons :: rest =>
    match constraint_matches ext map tm loc type_checked cons with
    | none => none
    | some false => some false
    | some true => rule_matches_loop ext map tm loc type_checked rest

/-- The method `terrain_builder::rule_matches`. -/
def rule_matches (ext : externals) (map : gamemap) (tm : tilemap) (rule : building_rule)
    (loc : map_location) (rule_index : Int) (type_checked : Option map_location) :
    Option Bool :=
  if ext.valid rule.location_constraints && rule.location_constraints != loc then some false
  else if rule.probability != -1 &&
      decide (get_noise loc (to_unsigned rule_index) % 100 > to_unsigned rule.probability)
    then some false
  else rule_matches_loop ext map tm loc type_checked rule.constraints

/-- Insertion into a tile's flag set (`std::set::insert`). -/
def flags_insert (flags : List String) (flag : String) : List String :=
  if flags.contains flag then flags else flags ++ [flag]

/-- The body of the constraint loop of `apply_rule` once the tile is at hand: the
images are pushed back with the seed, then the flags are inserted. -/
def apply_constraint (btile : tile) (constraint : terrain_constraint) (rand_seed : Nat) :
    tile :=
  let btile1 := { btile with
    images := constraint.images.foldl (fun imgs img => imgs ++ [rule_image_rand.mk img rand_seed])
      btile.images }
  { btile1 with flags := constraint.set_flag.foldl flags_insert btile1.flags }

/-- The constraint loop of `apply_rule`; an unaddressable location ends the whole
function (`return`), a failed tile access is `none`. -/
def apply_rule_loop (loc : map_location) (rand_seed : Nat) :
    constraint_set → tilemap → Option tilemap
  | [], tm => some tm
  | constraint :: rest, tm =>
    let tloc := loc.legacy_sum constraint.2.loc
    if !tm.on_map tloc then some tm
    else
      match tm.at tloc with
      | none => none
      | some btile =>
        apply_rule_loop loc rand_seed rest (tm.set tloc (apply_constraint btile constraint.2 rand_seed))

/-- The method `terrain_builder::apply_rule`. -/
def apply_rule (tm : tilemap) (rule : building_rule) (loc : map_location) (rule_index : Int) :
    Option tilemap :=
  apply_rule_loop loc (get_noise loc (to_unsigned rule_index)) rule.constraints tm

/-! ## The per-cell render list builder -/

/-- Modelled from the spec: `operator<` of `rule_image_rand` is declared outside the
given sources (`builder.hpp`); the raw list is ordered by `(layer, base-y)`, layer
first. -/
def rule_image_rand.lt (a b : rule_image_rand) : Bool :=
  decide (a.ri.layer < b.ri.layer) ||
    (decide (a.ri.layer = b.ri.layer) && decide (a.ri.basey < b.ri.basey))

/-- The order `std::stable_sort` sorts by: `a` may stand before `b` when `b < a` is
false. -/
def rule_image_rand.le (a b : rule_image_rand) : Prop := b.lt a = false

instance : DecidableRel rule_image_rand.le := fun a b => by
  unfold rule_image_rand.le; infer_instance

/-- The call `std::stable_sort(images.begin(), images.end())`: a stable sort by
`operator<`, here insertion sort (an element is placed before the first element that
is not smaller than it, so equal elements keep their order). -/
def stable_sort (images : List rule_image_rand) : List rule_image_rand :=
  images.insertionSort rule_image_rand.le

/-- The variant loop of `tile::rebuild_cache` for one raw entry: the result is the
variant at which the loop reaches `break`, or `none` when the loop runs to its end. -/
def variant_walk (tod : String) : Int → List rule_image_variant → Option rule_image_variant
  | _, [] => none
  | rnd, variant :: rest =>
    if !variant.tods.isEmpty && !variant.tods.contains tod then variant_walk tod rnd rest
    else if rnd > variant.probability then variant_walk tod (rnd - variant.probability) rest
    else some variant

/-- The body of the image loop of `tile::rebuild_cache` for one raw entry. The phase
`ri.rand % duration` is an `unsigned int` remainder; a zero duration (undefined
behaviour in the source) is `none`. -/
def rebuild_cache_entry (ext : externals) (tod : String) (t : tile) (ri : rule_image_rand) :
    Option tile :=
  let rnd : Int := ((ri.rand % 100 + 1 : Nat) : Int)
  match variant_walk tod rnd ri.ri.variants with
  | none => some t
  | some variant =>
    let duration := to_unsigned variant.image.get_animation_duration
    if duration = 0 then none
    else
      let img : animated := { variant.image with animation_time := ((ri.rand % duration : Nat) : Int) }
      if ext.is_background ri.ri then
        some { t with images_background := t.images_background ++ [img] }
      else
        some { t with images_foreground := t.images_foreground ++ [img] }

/-- The image loop of `tile::rebuild_cache`. -/
def rebuild_cache_loop (ext : externals) (tod : String) : List rule_image_rand → tile → Option tile
  | [], t => some t
  | ri :: rest, t =>
    match rebuild_cache_entry ext tod t ri with
    | none => none
    | some t1 => rebuild_cache_loop ext tod rest t1

/-- The first part of `tile::rebuild_cache`: the derived lists are cleared and the raw
list is sorted unless it is marked sorted. -/
def tile.sort_images (t : tile) : tile :=
  let t1 := { t with images_background := [], images_foreground := [] }
  if !t1.sorted_images then
    { t1 with images := stable_sort t1.images, sorted_images := true }
  else t1

/-- The method `tile::rebuild_cache` (called without a log). -/
def tile.rebuild_cache (ext : externals) (t : tile) (tod : String) : Option tile :=
  rebuild_cache_loop ext tod t.sort_images.images t.sort_images

/-- The index `terrain_by_type_` (a `std::map` from terrain code to the list of
locations), in key order. -/
abbrev terrain_by_type_map := List (t_terrain × List map_location)

/-- The state of a `terrain_builder`: the map it reads, its tile cache, its index and
the rule store `building_rules_`. -/
structure builder where
  map_ : gamemap
  tile_map_ : tilemap
  terrain_by_type_ : terrain_by_type_map
  building_rules_ : building_ruleset

/-- The pass kind (`TERRAIN_TYPE`). -/
inductive TERRAIN_TYPE where
  | BACKGROUND
  | FOREGROUND
deriving DecidableEq, Repr

/-- The method `terrain_builder::get_terrain_at`: the result is the returned pointer
(`none` for `NULL`) and the state after the call. -/
def get_terrain_at (ext : externals) (b : builder) (loc : map_location) (tod : String)
    (terrain_type : TERRAIN_TYPE) : Option (Option (List animated) × builder) :=
  if !b.tile_map_.on_map loc then some (none, b)
  else
    match b.tile_map_.at loc with
    | none => none
    | some tile_at =>
      let rebuilt : Option tile :=
        if tod != tile_at.last_tod then
          (tile_at.rebuild_cache ext tod).map (fun t => { t with last_tod := tod })
        else some tile_at
      match rebuilt with
      | none => none
      | some tile_at1 =>
        let b1 := { b with tile_map_ := b.tile_map_.set loc tile_at1 }
        let img_list :=
          if terrain_type = TERRAIN_TYPE.BACKGROUND then tile_at1.images_background
          else tile_at1.images_foreground
        if !img_list.isEmpty then some (some img_list, b1) else some (none, b1)

/-- The method `terrain_builder::update_animation`. -/
def update_animation (ext : externals) (b : builder) (loc : map_location) :
    Option (Bool × builder) :=
  if !b.tile_map_.on_map loc then some (false, b)
  else
    match b.tile_map_.at loc with
    | none => none
    | some btile =>
      let changed := btile.images_background.any ext.need_update ||
        btile.images_foreground.any ext.need_update
      let btile1 := { btile with
        images_background := btile.images_background.map ext.update_last_draw_time,
        images_foreground := btile.images_foreground.map ext.update_last_draw_time }
      some (changed, { b with tile_map_ := b.tile_map_.set loc btile1 })

/-- The animation built by `rebuild_terrain` for one file: a single frame of 100,
started at time 0. -/
def minimap_animation (filename : String) : animated :=
  { frames := [(100, { filename := "terrain/" ++ filename ++ ".png", modifications := "",
                       loc := none })],
    started := true, animation_time := 0 }

/-- The method `terrain_builder::rebuild_terrain`. -/
def rebuild_terrain (b : builder) (loc : map_location) : Option builder :=
  if b.tile_map_.on_map loc then
    match b.tile_map_.at loc with
    | none => none
    | some btile =>
      let t := b.map_.get_terrain loc
      let btile1 := { btile with images_foreground := [], images_background := [] }
      let btile2 := { btile1 with
        images_background := btile1.images_background ++ [minimap_animation (b.map_.minimap_image t)] }
      let btile3 :=
        if b.map_.is_combined t then
          { btile2 with images_background :=
              btile2.images_background ++ [minimap_animation (b.map_.minimap_image_overlay t)] }
        else btile2
      some { b with tile_map_ := b.tile_map_.set loc btile3 }
  else some b

/-- The method `terrain_builder::get_tile`: the returned pointer (`none` for `NULL`),
the state being untouched. -/
def get_tile (b : builder) (loc : map_location) : Option (Option tile) :=
  if b.tile_map_.on_map loc then
    match b.tile_map_.at loc with
    | none => none
    | some t => some (some t)
  else some none

/-! ## The rule store -/

/-- The static function `image_exists` (its warning has no effect on the result). -/
def image_exists (ext : externals) (name : String) : Bool :=
  let precached := !decide ("..".toList <:+: name.toList)
  if precached then
    if ext.precached_file_exists name then true else false
  else if ext.image_exists_ name then true else false

/-- The body of the frame loop of `load_images`. The outer `none` is undefined
behaviour (`items.front()` on an empty vector), `some none` is `return false`, and
`some (some f)` is the frame description pushed back. -/
def load_frame (ext : externals) (constraint_loc : map_location) (ri : rule_image)
    (frame : String) : Option (Option (Int × locator)) :=
  let items := ext.split frame ':'
  match items.head? with
  | none => none
  | some str =>
    let has_tilde := str.toList.contains '~'
    let filename := "terrain/" ++
      (if has_tilde then String.mk (str.toList.takeWhile (fun c => c != '~')) else str)
    if !image_exists ext filename then some none
    else
      let modif :=
        if has_tilde then String.mk ((str.toList.dropWhile (fun c => c != '~')).drop 1) else ""
      let time : Int := if items.length > 1 then ext.atoi (items.getLast?.getD "") else 100
      let locator : locator :=
        if ri.global_image then
          { filename := filename, modifications := modif,
            loc := some (constraint_loc, ri.center_x, ri.center_y) }
        else { filename := filename, modifications := modif, loc := none }
      some (some (time, locator))

/-- A loop whose body may fail (`none`), leave the function with `return false`
(`some none`) or produce the new value of the element (`some (some a)`); elements
after a `return false` are not visited. -/
def load_all {α β : Type} (f : α → Option (Option β)) : List α → Option (Option (List β))
  | [] => some (some [])
  | a :: rest =>
    match f a with
    | none => none
    | some none => some none
    | some (some a1) =>
      match load_all f rest with
      | none => none
      | some none => some none
      | some (some rest1) => some (some (a1 :: rest1))

/-- The body of the variant loop of `load_images`. -/
def load_variant (ext : externals) (constraint_loc : map_location) (ri : rule_image)
    (variant : rule_image_variant) : Option (Option rule_image_variant) :=
  match load_all (load_frame ext constraint_loc ri) (ext.parenthetical_split variant.image_string) with
  | none => none
  | some none => some none
  | some (some frame_info_vector) =>
    if frame_info_vector.isEmpty then some none
    else
      some (some { variant with
        image := { frames := frame_info_vector, started := true, animation_time := 0 } })

/-- The body of the image loop of `load_images`. -/
def load_image (ext : externals) (constraint_loc : map_location) (ri : rule_image) :
    Option (Option rule_image) :=
  match load_all (load_variant ext constraint_loc ri) ri.variants with
  | none => none
  | some none => some none
  | some (some variants) => some (some { ri with variants := variants })

/-- The body of the constraint loop of `load_images`. -/
def load_constraint (ext : externals) (constraint : map_location × terrain_constraint) :
    Option (Option (map_location × terrain_constraint)) :=
  match load_all (load_image ext constraint.2.loc) constraint.2.images with
  | none => none
  | some none => some none
  | some (some images) => some (some (constraint.1, { constraint.2 with images := images }))

/-- The method `terrain_builder::load_images`: `some none` is `return false`,
`some (some rule)` is `return true` with the rule as modified in place. -/
def load_images (ext : externals) (rule : building_rule) : Option (Option building_rule) :=
  if rule.constraints.isEmpty then some none
  else
    match load_all (load_constraint ext) rule.constraints with
    | none => none
    | some none => some none
    | some (some constraints) => some (some { rule with constraints := constraints })

/-- Modelled from the spec: `std::multimap::insert` on `building_ruleset` (the type is
declared outside the given sources); keys ascend and ties keep insertion order, so the
entry goes after every entry whose key is not greater. -/
def multimap_insert : building_ruleset → Int × building_rule → building_ruleset
  | [], e => [e]
  | (k, r) :: rest, e =>
    if e.1 < k then e :: (k, r) :: rest else (k, r) :: multimap_insert rest e

/-- The method `terrain_builder::add_rule`. -/
def add_rule (ext : externals) (rules : building_ruleset) (rule : building_rule)
    (precedence : Int) : Option building_ruleset :=
  match load_images ext rule with
  | none => none
  | some none => some rules
  | some (some rule1) => some (multimap_insert rules (precedence, rule1))

/-- A sequence of `add_rule` calls, each given as `(rule, precedence)`. -/
def add_rules (ext : externals) : building_ruleset → List (building_rule × Int) →
    Option building_ruleset
  | rules, [] => some rules
  | rules, (rule, precedence) :: rest =>
    match add_rule ext rules rule precedence with
    | none => none
    | some rules1 => add_rules ext rules1 rest

/-! ## Building the terrain -/

/-- The statement `terrain_by_type_[t].push_back(loc)`. -/
def terrain_by_type_push_back : terrain_by_type_map → t_terrain → map_location →
    terrain_by_type_map
  | [], t, loc => [(t, [loc])]
  | (k, v) :: rest, t, loc =>
    if t < k then (t, [loc]) :: (k, v) :: rest
    else if t = k then (k, v ++ [loc]) :: rest
    else (k, v) :: terrain_by_type_push_back rest t loc

/-- The expression `terrain_by_type_[t]` read for a key (a missing key reads as the
empty vector `operator[]` would create). -/
def terrain_by_type_lookup (m : terrain_by_type_map) (t : t_terrain) : List map_location :=
  match m.find? (fun e => e.1 == t) with
  | some e => e.2
  | none => []

/-- The values `lo, lo + 1, ..., hi` of a loop `for (int i = lo; i <= hi; ++i)`. -/
def int_range (lo hi : Int) : List Int :=
  (List.range (hi + 1 - lo).toNat).map (fun i => lo + (i : Int))

/-- The first loop nest of `build_terrains`: fills the index `terrain_by_type_`. -/
def build_terrain_by_type (map : gamemap) (tbt : terrain_by_type_map) : terrain_by_type_map :=
  (int_range (-2) map.w).foldl
    (fun acc x => (int_range (-2) map.h).foldl
      (fun acc1 y => terrain_by_type_push_back acc1 (map.get_terrain ⟨x, y⟩) ⟨x, y⟩) acc)
    tbt

/-- The constant `INT_MAX`. -/
def INT_MAX : Nat := 2147483647

/-- The loop over `terrain_by_type_` for one constraint: the result is
`(constraint_size, matching_types)` when the loop is left. -/
def matching_scan (ext : externals) (m : t_match) (min_size : Nat) :
    terrain_by_type_map → Nat → List t_terrain → Nat × List t_terrain
  | [], constraint_size, matching_types => (constraint_size, matching_types)
  | (t, locs) :: rest, constraint_size, matching_types =>
    if ext.terrain_matches t m then
      let constraint_size1 := constraint_size + locs.length
      if constraint_size1 ≥ min_size then (constraint_size1, matching_types)
      else matching_scan ext m min_size rest constraint_size1 (matching_types ++ [t])
    else matching_scan ext m min_size rest constraint_size matching_types

/-- The variables `min_size`, `min_types` and `min_constraint` of `build_terrains`
(`none` for `rule.constraints.end()`). -/
structure min_state where
  min_size : Nat
  min_types : List t_terrain
  min_constraint : Option (map_location × terrain_constraint)
deriving DecidableEq, Repr

/-- The loop of `build_terrains` that looks for the constraint with the fewest
candidate cells. -/
def find_min_constraint (ext : externals) (tbt : terrain_by_type_map) :
    constraint_set → min_state → min_state
  | [], st => st
  | constraint :: rest, st =>
    let scan := matching_scan ext constraint.2.terrain_types_match st.min_size tbt 0 []
    if scan.1 < st.min_size then
      let st1 : min_state :=
        { min_size := scan.1, min_types := scan.2, min_constraint := some constraint }
      if st1.min_size = 0 then st1 else find_min_constraint ext tbt rest st1
    else find_min_constraint ext tbt rest st

/-- The record of the rule applications of a pass, in order: `(rule_index, loc)` for
every call of `apply_rule`. It is not a variable of the source. -/
abbrev apply_log := List (Int × map_location)

/-- The loop of `build_terrains` over the locations of one terrain code. -/
def try_locations (ext : externals) (map : gamemap) (rule : building_rule) (rule_index : Int)
    (min_constraint : map_location × terrain_constraint) :
    List map_location → tilemap × apply_log → Option (tilemap × apply_log)
  | [], s => some s
  | itor :: rest, s =>
    let loc := itor.legacy_difference min_constraint.2.loc
    match rule_matches ext map s.1 rule loc rule_index (some min_constraint.1) with
    | none => none
    | some false => try_locations ext map rule rule_index min_constraint rest s
    | some true =>
      match apply_rule s.1 rule loc rule_index with
      | none => none
      | some tm1 =>
        try_locations ext map rule rule_index min_constraint rest (tm1, s.2 ++ [(rule_index, loc)])

/-- The loop of `build_terrains` over `min_types`. -/
def try_types (ext : externals) (map : gamemap) (tbt : terrain_by_type_map)
    (rule : building_rule) (rule_index : Int)
    (min_constraint : map_location × terrain_constraint) :
    List t_terrain → tilemap × apply_log → Option (tilemap × apply_log)
  | [], s => some s
  | t :: rest, s =>
    match try_locations ext map rule rule_index min_constraint (terrain_by_type_lookup tbt t) s with
    | none => none
    | some s1 => try_types ext map tbt rule rule_index min_constraint rest s1

/-- The body of the rule loop of `build_terrains` for one rule. -/
def build_rule (ext : externals) (map : gamemap) (tbt : terrain_by_type_map)
    (rule : building_rule) (rule_index : Int) (s : tilemap × apply_log) :
    Option (tilemap × apply_log) :=
  let st := find_min_constraint ext tbt rule.constraints
    { min_size := INT_MAX, min_types := [], min_constraint := none }
  match st.min_constraint with
  | none => some s
  | some min_constraint => try_types ext map tbt rule rule_index min_constraint st.min_types s

/-- The rule loop of `build_terrains`, `rule_index` being the counter incremented at
the end of every iteration. -/
def build_rules (ext : externals) (map : gamemap) (tbt : terrain_by_type_map) :
    building_ruleset → Int → tilemap × apply_log → Option (tilemap × apply_log)
  | [], _, s => some s
  | r :: rest, rule_index, s =>
    match build_rule ext map tbt r.2 rule_index s with
    | none => none
    | some s1 => build_rules ext map tbt rest (rule_index + 1) s1

/-- The method `terrain_builder::build_terrains`, together with the record of the rule
applications it made. -/
def build_terrains_log (ext : externals) (b : builder) : Option (builder × apply_log) :=
  let tbt := build_terrain_by_type b.map_ b.terrain_by_type_
  match build_rules ext b.map_ tbt b.building_rules_ 0 (b.tile_map_, []) with
  | none => none
  | some s => some ({ b with terrain_by_type_ := tbt, tile_map_ := s.1 }, s.2)

/-- The method `terrain_builder::build_terrains`. -/
def build_terrains (ext : externals) (b : builder) : Option builder :=
  (build_terrains_log ext b).map Prod.fst

/-- The method `terrain_builder::rebuild_all`. -/
def rebuild_all (ext : externals) (b : builder) : Option builder :=
  build_terrains ext { b with tile_map_ := b.tile_map_.reset, terrain_by_type_ := [] }

/-- The method `terrain_builder::reload_map`. -/
def reload_map (ext : externals) (b : builder) : Option builder :=
  build_terrains ext
    { b with tile_map_ := b.tile_map_.reload b.map_.w b.map_.h, terrain_by_type_ := [] }

/-! ## Auxiliary predicates and sample data -/

/-- The requirement that a match places on one constraint `c` of a rule tested at
anchor `loc`: the translated location is addressable, its terrain is accepted unless
`c` is the constraint already checked, and the flags of the tile there agree with
`no_flag` and `has_flag`. -/
def constraint_ok (ext : externals) (map : gamemap) (tm : tilemap) (loc : map_location)
    (type_checked : Option map_location) (c : map_location × terrain_constraint) : Prop :=
  tm.on_map (loc.legacy_sum c.2.loc) = true ∧
  (some c.1 ≠ type_checked →
    ext.terrain_matches (map.get_terrain (loc.legacy_sum c.2.loc)) c.2.terrain_types_match = true) ∧
  ∃ t, tm.at (loc.legacy_sum c.2.loc) = some t ∧
    (∀ f ∈ c.2.no_flag, f ∉ t.flags) ∧ (∀ f ∈ c.2.has_flag, f ∈ t.flags)

/-- A concrete choice of the external functions, used to evaluate the definitions on
examples: a location is valid when its coordinates are non-negative, a terrain matches
a specification that lists it, images of negative layer are background images, every
file exists, strings are split into a single piece, the attribute values `-50` and
`80` convert to those integers and every other value to the default, tiles are 72
pixels wide, the default-constructed rule has probability 0, the type `*` is the
match specification that lists terrain 7 and every other type an empty one, and the
default-constructed location is `(-1000, -1000)`. -/
def sample_externals : externals :=
  { valid := fun l => decide (0 ≤ l.x) && decide (0 ≤ l.y),
    terrain_matches := fun t m => m.terrain.contains t,
    is_background := fun ri => decide (ri.layer < 0),
    precached_file_exists := fun _ => true,
    image_exists_ := fun _ => true,
    parenthetical_split := fun s => [s],
    split := fun s _ => [s],
    atoi := fun _ => 100,
    need_update := fun _ => false,
    update_last_draw_time := fun a => a,
    to_int := fun s d => if s = "-50" then -50 else if s = "80" then 80 else d,
    TILEWIDTH := 72,
    building_rule_default :=
      { constraints := [], location_constraints := ⟨-1000, -1000⟩, probability := 0,
        local_ := false },
    make_match := fun s => if s = "*" then ⟨[7]⟩ else ⟨[]⟩,
    null_location := ⟨-1000, -1000⟩ }

/-- A 1x1 game map whose every location, border included, holds terrain code 7. -/
def sample_map : gamemap :=
  { w := 1, h := 1, get_terrain := fun _ => 7, minimap_image := fun _ => "grass",
    minimap_image_overlay := fun _ => "forest", is_combined := fun _ => false }

/-- The tile map of a 1x1 grid right after `reload(1, 1)`. -/
def sample_tilemap : tilemap := tilemap.reload ⟨[], 0, 0⟩ 1 1

/-- An image reference with a single default variant whose animation has one frame. -/
def sample_image (layer : Int) (name : String) : rule_image :=
  { layer := layer, basex := 36, basey := 36,
    variants := [{ image_string := name,
                   image := { frames := [(100, ⟨"terrain/" ++ name, "", none⟩)],
                              started := true, animation_time := 0 },
                   tods := [], probability := 100 }],
    global_image := false, center_x := -1, center_y := -1 }

/-- A rule with one constraint at offset `(0, 0)` that accepts terrain 7, requires the
flag `base` to be absent, sets it, and carries one image. -/
def sample_rule : building_rule :=
  { constraints := [(⟨0, 0⟩, { loc := ⟨0, 0⟩, terrain_types_match := ⟨[7]⟩,
                               set_flag := ["base"], no_flag := ["base"], has_flag := [],
                               images := [sample_image (-1000) "off-map.png"] })],
    location_constraints := ⟨-1000, -1000⟩, probability := -1, local_ := false }

/-- A variant applies to a time-of-day label when it declares no labels or declares
that one. -/
def rule_image_variant.applicable (tod : String) (v : rule_image_variant) : Bool :=
  v.tods.isEmpty || v.tods.contains tod

/-- The sum of the weights of the variants of `vs` that apply to `tod`. -/
def applicable_weight (tod : String) (vs : List rule_image_variant) : Int :=
  ((vs.filter (rule_image_variant.applicable tod)).map (fun v => v.probability)).sum

/-- The selection as the spec words it: the first position `k` whose variant applies to
`tod` and for which `r` is at most the sum of the weights of the applicable variants up
to and including `k`. -/
def first_selected_index (tod : String) (r : Int) (vs : List rule_image_variant) : Option Nat :=
  (List.range vs.length).find? (fun k =>
    match vs[k]? with
    | some v => v.applicable tod && decide (r ≤ applicable_weight tod (vs.take (k + 1)))
    | none => false)

/-- The variant the spec selects: the one at `first_selected_index`. -/
def first_selected (tod : String) (r : Int) (vs : List rule_image_variant) :
    Option rule_image_variant :=
  (first_selected_index tod r vs).bind (fun k => vs[k]?)

/-- A variant with the given name, time-of-day labels and weight (not yet loaded). -/
def sample_variant (name : String) (tods : List String) (probability : Int) :
    rule_image_variant :=
  { image_string := name, image := animated.empty, tods := tods, probability := probability }

/-- An image reference whose three variants apply to every time of day and have the
weights 80, 10 and 10. -/
def sample_weighted_image : rule_image :=
  { layer := 0, basex := 36, basey := 36,
    variants := [sample_variant "a.png" [] 80, sample_variant "b.png" [] 10,
                 sample_variant "c.png" [] 10],
    global_image := false, center_x := -1, center_y := -1 }

/-- A tile not yet sorted whose raw list holds, in this order, an image of layer 1 and
two images of layer 0 with the same base. -/
def sample_unsorted_tile : tile :=
  { flags := [], sorted_images := false,
    images := [⟨sample_image 1 "a.png", 0⟩, ⟨sample_image 0 "b.png", 1⟩,
               ⟨sample_image 0 "c.png", 2⟩],
    images_foreground := [], images_background := [], last_tod := "invalid_tod" }

/-- The entries that a sequence of `add_rule` calls stores: for every call whose rule
`load_images` accepts, the precedence with the loaded rule, in call order. -/
def accepted_rules (ext : externals) (calls : List (building_rule × Int)) :
    List (Int × building_rule) :=
  calls.filterMap (fun call =>
    match load_images ext call.1 with
    | some (some rule1) => some (call.2, rule1)
    | _ => none)

/-- The rule loop of `build_terrains` written over the positions of the stored rules:
the rules are taken in list order, the rule at position `n` with rule index `n`. -/
def build_rules_by_position (ext : externals) (map : gamemap) (tbt : terrain_by_type_map)
    (rules : building_ruleset) (s : tilemap × apply_log) : Option (tilemap × apply_log) :=
  rules.enum.foldlM (fun s1 nr => build_rule ext map tbt nr.2.2 (nr.1 : Int) s1) s

/-- The sample rule with a match probability of 50. -/
def sample_rule_half : building_rule := { sample_rule with probability := 50 }

/-- A builder on the 1x1 sample map with a freshly reloaded tile map, an empty index
and the sample rule at precedence 0. -/
def sample_builder : builder :=
  { map_ := sample_map, tile_map_ := sample_tilemap, terrain_by_type_ := [],
    building_rules_ := [(0, sample_rule)] }

/-- A rule with one constraint at offset `(0, 0)` that accepts terrain 7 and sets the
flag `F`. -/
def sample_rule_sets : building_rule :=
  { constraints := [(⟨0, 0⟩, { loc := ⟨0, 0⟩, terrain_types_match := ⟨[7]⟩,
                               set_flag := ["F"], no_flag := [], has_flag := [],
                               images := [] })],
    location_constraints := ⟨0, 0⟩, probability := -1, local_ := false }

/-- A rule with one constraint at offset `(0, 0)` that accepts terrain 7 and requires
the flag `F`. -/
def sample_rule_needs : building_rule :=
  { constraints := [(⟨0, 0⟩, { loc := ⟨0, 0⟩, terrain_types_match := ⟨[7]⟩,
                               set_flag := [], no_flag := [], has_flag := ["F"],
                               images := [] })],
    location_constraints := ⟨-1000, -1000⟩, probability := -1, local_ := false }

/-- The sample builder with the two rules above at the same precedence, the rule that
sets `F` first; the first rule is restricted to the anchor `(0, 0)`. -/
def sample_builder_coupled : builder :=
  { sample_builder with building_rules_ := [(3, sample_rule_sets), (3, sample_rule_needs)] }

/-- The anchors that `build_terrains` tests for a rule once the minimal constraint and
its terrain codes are known: every indexed location of every code of `min_types`,
minus the offset of the minimal constraint, in the order of the two loops. -/
def candidate_anchors (tbt : terrain_by_type_map)
    (min_constraint : map_location × terrain_constraint) (min_types : List t_terrain) :
    List map_location :=
  (min_types.flatMap (terrain_by_type_lookup tbt)).map
    (fun itor => itor.legacy_difference min_constraint.2.loc)

/-- The anchors accepted by the optimised search of `build_terrains` for one rule on a
fixed tile map: the candidates of the minimal constraint at which `rule_matches`, told
to skip the terrain check of that constraint, returns true. -/
def optimised_accepts (ext : externals) (map : gamemap) (tbt : terrain_by_type_map)
    (tm : tilemap) (rule : building_rule) (rule_index : Int) : List map_location :=
  let st := find_min_constraint ext tbt rule.constraints
    { min_size := INT_MAX, min_types := [], min_constraint := none }
  match st.min_constraint with
  | none => []
  | some min_constraint =>
    (candidate_anchors tbt min_constraint st.min_types).filter
      (fun a => rule_matches ext map tm rule a rule_index (some min_constraint.1) == some true)

/-- The reference search: an anchor is accepted when `rule_matches` returns true with
no terrain check skipped (`type_checked` is `end()`). -/
def reference_accepts (ext : externals) (map : gamemap) (tm : tilemap) (rule : building_rule)
    (rule_index : Int) (a : map_location) : Bool :=
  rule_matches ext map tm rule a rule_index none == some true

/-- The method `terrain_builder::flush_local_rules`, on the rule store: the loop erases
every entry whose rule is local and steps over the others. -/
def flush_local_rules : building_ruleset → building_ruleset
  | [] => []
  | i :: rest =>
    if i.2.local_ then flush_local_rules rest else i :: flush_local_rules rest

/-- The list that `get_terrain_at` hands out for a tile and a pass kind: the background
or the foreground list, `none` (`NULL`) when that list is empty. -/
def image_list_result (t : tile) (terrain_type : TERRAIN_TYPE) : Option (List animated) :=
  let img_list :=
    if terrain_type = TERRAIN_TYPE.BACKGROUND then t.images_background
    else t.images_foreground
  if !img_list.isEmpty then some img_list else none

/-- A rule like the sample rule but local (loaded with a map). -/
def sample_rule_local : building_rule := { sample_rule with local_ := true }

/-- A node of the declarative rule description (`config`, declared outside the
sources): its attributes and its child nodes, each under its key, in order. -/
inductive config where
  | mk (values : List (String × String)) (children : List (String × config)) : config

/-- The attributes of a node. -/
def config.values : config → List (String × String)
  | .mk values _ => values

/-- The children of a node. -/
def config.children : config → List (String × config)
  | .mk _ children => children

/-- The expression `cfg[key]`: the value of the attribute, empty when it is absent. -/
def config.get (cfg : config) (key : String) : String :=
  match cfg.values.find? (fun e => e.1 == key) with
  | some e => e.2
  | none => ""

/-- The expression `cfg.child_range(key)`: the children under `key`, in order. -/
def config.child_range (cfg : config) (key : String) : List config :=
  (cfg.children.filter (fun e => e.1 == key)).map (fun e => e.2)

/-- The constructor `rule_image_variant(image_string, tod, prob)`: the animation is
empty and the labels are the pieces of a non-empty `tod`. -/
def rule_image_variant.make (ext : externals) (image_string tod : String) (prob : Int) :
    rule_image_variant :=
  { image_string := image_string, image := animated.empty,
    tods := if !tod.isEmpty then ext.split tod ',' else [],
    probability := prob }

/-- Modelled from the spec: the call `rule_image_variant(name)` relies on the default
arguments of the constructor, which are declared in `builder.hpp` outside the given
sources; the default variant is unconditional (no time-of-day label) and has the
default weight 100. -/
def rule_image_variant.make_default (ext : externals) (image_string : String) :
    rule_image_variant :=
  rule_image_variant.make ext image_string "" 100

/-- The body of the `image` loop of `add_images_from_config`: the image reference built
from one `image` node, with the configured variants followed by the default one. -/
def image_from_config (ext : externals) (global : Bool) (dx dy : Int) (img : config) :
    rule_image :=
  let layer := ext.to_int (img.get "layer") 0
  let base : Int × Int :=
    if (img.get "base").isEmpty then
      (Int.tdiv ext.TILEWIDTH 2 + dx, Int.tdiv ext.TILEWIDTH 2 + dy)
    else
      let base := ext.split (img.get "base") ','
      if base.length ≥ 2 then (ext.atoi (base.getD 0 ""), ext.atoi (base.getD 1 "")) else (0, 0)
  let center : Int × Int :=
    if !(img.get "center").isEmpty then
      let center := ext.split (img.get "center") ','
      if center.length ≥ 2 then (ext.atoi (center.getD 0 ""), ext.atoi (center.getD 1 ""))
      else (-1, -1)
    else (-1, -1)
  let ri : rule_image :=
    { layer := layer, basex := base.1 - dx, basey := base.2 - dy, variants := [],
      global_image := global, center_x := center.1, center_y := center.2 }
  let ri1 := (img.child_range "variant").foldl
    (fun (r : rule_image) variant =>
      { r with variants := r.variants ++
          [rule_image_variant.make ext (variant.get "name") (variant.get "tod")
            (ext.to_int (variant.get "probability") 100)] })
    ri
  { ri1 with variants := ri1.variants ++ [rule_image_variant.make_default ext (img.get "name")] }

/-- The method `terrain_builder::add_images_from_config`; `dx` and `dy` are 0 when the
caller leaves them out. -/
def add_images_from_config (ext : externals) (images : List rule_image) (cfg : config)
    (global : Bool) (dx dy : Int) : List rule_image :=
  (cfg.child_range "image").foldl
    (fun imgs img => imgs ++ [image_from_config ext global dx dy img]) images

/-- An `image` node named `main.png` with one configured variant `alt.png` of weight
`-50`. -/
def sample_image_config : config :=
  .mk [] [("image", .mk [("name", "main.png"), ("layer", "0")]
    [("variant", .mk [("name", "alt.png"), ("probability", "-50")] [])])]

/-- An `image` node named `main.png` with one configured variant `alt.png` of weight
80. -/
def sample_image_config_weighted : config :=
  .mk [] [("image", .mk [("name", "main.png"), ("layer", "0")]
    [("variant", .mk [("name", "alt.png"), ("probability", "80")] [])])]

/-- The time-of-day labels and the weight of each variant, the only data the variant
loop of `tile::rebuild_cache` tests. -/
def variant_keys (vs : List rule_image_variant) : List (List String × Int) :=
  vs.map (fun v => (v.tods, v.probability))

/-! ## Rotation of rules -/

/-- The search `s.find(token)` of `std::string`: the position of the first occurrence
of `token` in `s`, `none` for `npos`. -/
def string_find : List Char → List Char → Option Nat
  | [], token => if token.isEmpty then some 0 else none
  | c :: rest, token =>
    if token.isPrefixOf (c :: rest) then some 0
    else (string_find rest token).map (fun pos => pos + 1)

/-- The loop `while((pos = s.find(token)) != npos) s.replace(pos, token.size(),
replacement)`, run for at most `fuel` replacements; `none` when the occurrences are not
exhausted by then. -/
def replace_loop (token replacement : List Char) : Nat → List Char → Option (List Char)
  | 0, s =>
    match string_find s token with
    | none => some s
    | some _ => none
  | fuel + 1, s =>
    match string_find s token with
    | none => some s
    | some pos =>
      replace_loop token replacement fuel
        (s.take pos ++ replacement ++ s.drop (pos + token.length))

/-- The string overload of `terrain_builder::replace_token`; an empty token returns at
once. -/
def replace_token (fuel : Nat) (s token replacement : String) : Option String :=
  if token.isEmpty then some s
  else (replace_loop token.toList replacement.toList fuel s.toList).map String.mk

/-- A loop that applies a step which may fail to return to every element of a list. -/
def map_all {α : Type} (f : α → Option α) : List α → Option (List α)
  | [] => some []
  | a :: rest =>
    match f a with
    | none => none
    | some a1 =>
      match map_all f rest with
      | none => none
      | some rest1 => some (a1 :: rest1)

/-- Modelled from the spec: the overload of `replace_token` for a `rule_image_variant`
is defined in `builder.hpp`, outside the given sources; token substitution rewrites the
rule-local string of the variant, its image path specification. -/
def replace_token_variant (fuel : Nat) (variant : rule_image_variant)
    (token replacement : String) : Option rule_image_variant :=
  (replace_token fuel variant.image_string token replacement).map
    (fun s => { variant with image_string := s })

/-- The overload of `replace_token` for a `rule_image`. -/
def replace_token_image (fuel : Nat) (image : rule_image) (token replacement : String) :
    Option rule_image :=
  (map_all (fun v => replace_token_variant fuel v token replacement) image.variants).map
    (fun vs => { image with variants := vs })

/-- The overload of `replace_token` for a `rule_imagelist`. -/
def replace_token_imagelist (fuel : Nat) (list : List rule_image)
    (token replacement : String) : Option (List rule_image) :=
  map_all (fun image => replace_token_image fuel image token replacement) list

/-- The body of the constraint loop of the overload of `replace_token` for a
`building_rule`: the three flag lists, then the images. -/
def replace_token_constraint (fuel : Nat) (token replacement : String)
    (cons : map_location × terrain_constraint) :
    Option (map_location × terrain_constraint) :=
  match map_all (fun flag => replace_token fuel flag token replacement) cons.2.set_flag with
  | none => none
  | some set_flag =>
    match map_all (fun flag => replace_token fuel flag token replacement) cons.2.no_flag with
    | none => none
    | some no_flag =>
      match map_all (fun flag => replace_token fuel flag token replacement) cons.2.has_flag with
      | none => none
      | some has_flag =>
        match replace_token_imagelist fuel cons.2.images token replacement with
        | none => none
        | some images =>
          some (cons.1, { cons.2 with
            set_flag := set_flag, no_flag := no_flag, has_flag := has_flag,
            images := images })

/-- The overload of `replace_token` for a `building_rule`. -/
def replace_token_rule (fuel : Nat) (rule : building_rule) (token replacement : String) :
    Option building_rule :=
  (map_all (replace_token_constraint fuel token replacement) rule.constraints).map
    (fun cs => { rule with constraints := cs })

/-- The table `rotations` of `rotate`: the matrix `(ii, ij, ji, jj)` of each step. -/
def rotations (angle : Nat) : Int × Int × Int × Int :=
  match angle with
  | 0 => (1, 0, 0, 1)
  | 1 => (1, 1, -1, 0)
  | 2 => (0, 1, -1, -1)
  | 3 => (-1, 0, 0, -1)
  | 4 => (-1, -1, 1, 0)
  | _ => (0, -1, 1, 1)

/-- The table `xyrotations` of `rotate`, every entry multiplied by 4:
`(xx, xy, yx, yy)`. -/
def xyrotations4 (angle : Nat) : Int × Int × Int × Int :=
  match angle with
  | 0 => (4, 0, 0, 4)
  | 1 => (2, -3, 4, 2)
  | 2 => (-2, -3, 4, -2)
  | 3 => (-4, 0, 0, -4)
  | 4 => (-2, 3, -4, -2)
  | _ => (2, 3, -4, 2)

/-- The rotation of the base of one image in `rotate`. The source computes in `double`:
`vx = basex - TILEWIDTH/2.` and `rx = xx * vx + xy * vy` with entries that are
multiples of 1/4, which is exact for coordinates of ordinary size; here `2 * vx` and
`8 * rx` are computed in integers and `int(rx + TILEWIDTH/2)` is the quotient truncated
towards zero. -/
def rotate_base (tilewidth : Int) (angle : Nat) (basex basey : Int) : Int × Int :=
  let vx2 := 2 * basex - tilewidth
  let vy2 := 2 * basey - tilewidth
  let m := xyrotations4 angle
  let rx8 := m.1 * vx2 + m.2.1 * vy2
  let ry8 := m.2.2.1 * vx2 + m.2.2.2 * vy2
  (Int.tdiv (rx8 + 8 * Int.tdiv tilewidth 2) 8, Int.tdiv (ry8 + 8 * Int.tdiv tilewidth 2) 8)

/-- The rotation of a relative location in `rotate`, `angle` being already reduced
modulo 6; the divisions are C++ divisions (truncated towards zero). -/
def rotate_loc (angle : Nat) (loc : map_location) : map_location :=
  let vi := loc.y - Int.tdiv loc.x 2
  let vj := loc.x
  let m := rotations angle
  let ri := m.1 * vi + m.2.1 * vj
  let rj := m.2.2.1 * vi + m.2.2.2 * vj
  { x := rj, y := ri + (if rj ≥ 0 then Int.tdiv rj 2 else Int.tdiv (rj - 1) 2) }

/-- The method `terrain_builder::rotate`. -/
def rotate (ext : externals) (constraint : terrain_constraint) (angle : Nat) :
    terrain_constraint :=
  let angle := angle % 6
  { constraint with
    loc := rotate_loc angle constraint.loc,
    images := constraint.images.map (fun image =>
      { image with
        basex := (rotate_base ext.TILEWIDTH angle image.basex image.basey).1,
        basey := (rotate_base ext.TILEWIDTH angle image.basex image.basey).2 }) }

/-- Modelled from the spec: `operator<` of `map_location`, which orders the keys of a
`constraint_set`, is declared outside the given sources; constraint sets are "sorted by
coordinate", taken as `x` first and then `y`. -/
def map_location.lt (a b : map_location) : Bool :=
  decide (a.x < b.x) || (decide (a.x = b.x) && decide (a.y < b.y))

/-- The assignment `constraints[key] = value` on a `constraint_set`: the entry of an
existing key is overwritten, a new key is inserted at its place in key order. -/
def constraint_set_assign : constraint_set → map_location → terrain_constraint → constraint_set
  | [], key, value => [(key, value)]
  | (k, v) :: rest, key, value =>
    if key = k then (k, value) :: rest
    else if key.lt k then (key, value) :: (k, v) :: rest
    else (k, v) :: constraint_set_assign rest key value

/-- The first loop of `rotate_rule`: every constraint is rotated and stored in
`tmp_cons` under its rotated location. -/
def rotate_constraints (ext : externals) (angle : Nat) (constraints : constraint_set) :
    constraint_set :=
  constraints.foldl
    (fun tmp_cons cons =>
      constraint_set_assign tmp_cons (rotate ext cons.2 angle).loc (rotate ext cons.2 angle))
    []

/-- The second loop of `rotate_rule`: `(minx, miny)` over `tmp_cons`, both starting
from `INT_MAX`; `x & 1` is the lowest bit of `x`. -/
def min_coordinates (tmp_cons : constraint_set) : Int × Int :=
  tmp_cons.foldl
    (fun m cons2 => (min cons2.2.loc.x m.1, min (2 * cons2.2.loc.y + cons2.2.loc.x % 2) m.2))
    ((INT_MAX : Int), (INT_MAX : Int))

/-- The two corrections of `miny` in `rotate_rule`. -/
def adjust_miny (minx miny : Int) : Int :=
  let miny1 := if miny % 2 = 1 ∧ minx % 2 = 1 ∧ minx < 0 then miny + 2 else miny
  if ¬ (miny1 % 2 = 1) ∧ minx % 2 = 1 ∧ minx > 0 then miny1 - 2 else miny1

/-- The third loop of `rotate_rule`: every location of `tmp_cons` is translated by
`(-minx, -((miny - 1) / 2))` with `legacy_sum_assign` (the in-place form of
`legacy_sum`) and the constraint is stored in the result under its new location. -/
def normalize_constraints (tmp_cons : constraint_set) (minx miny : Int) : constraint_set :=
  tmp_cons.foldl
    (fun constraints cons2 =>
      let loc := cons2.2.loc.legacy_sum ⟨-minx, -(Int.tdiv (miny - 1) 2)⟩
      constraint_set_assign constraints loc { cons2.2 with loc := loc })
    []

/-- The part of `rotate_rule` between the test of `rot` and the replacement of the
tokens: the members are copied and the constraints rotated and normalised. -/
def rotate_rule_constraints (ext : externals) (rule : building_rule) (angle : Nat) :
    building_rule :=
  let tmp_cons := rotate_constraints ext angle rule.constraints
  let m := min_coordinates tmp_cons
  { constraints := normalize_constraints tmp_cons m.1 (adjust_miny m.1 m.2),
    location_constraints := rule.location_constraints,
    probability := rule.probability,
    local_ := rule.local_ }

/-- The token `"@R"` followed by the digit `i`. -/
def rotation_token (i : Nat) : String :=
  "@R".push (Char.ofNat ('0'.toNat + i))

/-- The last loop of `rotate_rule`: for `i` from `i0` on (six values in all when `i0`
is 0), the token `@Ri` is replaced by the name `rot[(angle + i) % 6]`. -/
def replace_rotation_tokens (fuel : Nat) (angle : Nat) (rot : List String) :
    List Nat → building_rule → Option building_rule
  | [], ret => some ret
  | i :: rest, ret =>
    match replace_token_rule fuel ret (rotation_token i) (rot.getD ((angle + i) % 6) "") with
    | none => none
    | some ret1 => replace_rotation_tokens fuel angle rot rest ret1

/-- The constructor `building_rule()`: no constraints, the other members as the
constructor declared in `builder.hpp` sets them. -/
def building_rule.mk0 (ext : externals) : building_rule :=
  { ext.building_rule_default with constraints := [] }

/-- The method `terrain_builder::rotate_rule`; `none` when a token replacement does not
end within `fuel` replacements. -/
def rotate_rule (ext : externals) (fuel : Nat) (rule : building_rule) (angle : Nat)
    (rot : List String) : Option building_rule :=
  if rot.length ≠ 6 then some (building_rule.mk0 ext)
  else
    replace_rotation_tokens fuel angle rot [0, 1, 2, 3, 4, 5]
      (rotate_rule_constraints ext rule angle)

/-- The loop of `add_rotated_rules` over the angles `angle, angle + 1, ...` (`count`
of them). -/
def add_rotated_loop (ext : externals) (fuel : Nat) (tpl : building_rule) (precedence : Int)
    (rot : List String) : Nat → Nat → building_ruleset → Option building_ruleset
  | 0, _, rules => some rules
  | count + 1, angle, rules =>
    match rotate_rule ext fuel tpl angle rot with
    | none => none
    | some rule =>
      match add_rule ext rules rule precedence with
      | none => none
      | some rules1 => add_rotated_loop ext fuel tpl precedence rot count (angle + 1) rules1

/-- The method `terrain_builder::add_rotated_rules`. -/
def add_rotated_rules (ext : externals) (fuel : Nat) (rules : building_ruleset)
    (tpl : building_rule) (precedence : Int) (rotations : String) : Option building_ruleset :=
  if rotations.isEmpty then add_rule ext rules tpl precedence
  else
    let rot := ext.split rotations ','
    add_rotated_loop ext fuel tpl precedence rot rot.length 0 rules

/-- The number of characters `@` of a string, a bound on the number of replacements of
a rotation token that the string can undergo when the names contain no `@`. -/
def at_count (s : String) : Nat := s.toList.count '@'

/-- Every flag and every image path specification of the constraints has at most `fuel`
characters `@`. -/
def strings_within (fuel : Nat) (constraints : constraint_set) : Prop :=
  ∀ c ∈ constraints,
    (∀ f ∈ c.2.set_flag, at_count f ≤ fuel) ∧ (∀ f ∈ c.2.no_flag, at_count f ≤ fuel) ∧
    (∀ f ∈ c.2.has_flag, at_count f ≤ fuel) ∧
    ∀ ri ∈ c.2.images, ∀ v ∈ ri.variants, at_count v.image_string ≤ fuel

/-- The relative locations of the constraints with their keys, in order. -/
def constraint_offsets (constraints : constraint_set) : List (map_location × map_location) :=
  constraints.map (fun c => (c.1, c.2.loc))

/-- Six rotation names. -/
def sample_rotations : List String := ["n", "ne", "se", "s", "sw", "nw"]

/-! ### Rotation with the location sum of the normalisation as a parameter

`rotate_rule` translates the rotated locations with `map_location::legacy_sum_assign`,
which is defined outside the given sources. The definitions of this section are those
of `rotate_rule` above with that sum as a parameter `sum`; at
`map_location.legacy_sum` they are the definitions above. -/

/-- The doubled height of a location on the hex grid, the quantity
`2 * y + (x & 1)` that the second loop of `rotate_rule` minimises: the cells of a
column of odd `x` lie half a cell lower than those of a column of even `x`. -/
def map_location.hex_height (l : map_location) : Int := 2 * l.y + l.x % 2

/-- The doubled height by which a displacement `a` moves a location: `2 * a.y`, one more
when `a.x` is odd and positive, one less when `a.x` is odd and negative. -/
def map_location.hex_shift (a : map_location) : Int :=
  2 * a.y + (if a.x % 2 = 0 then 0 else if 0 < a.x then 1 else -1)

/-- A location sum is a translation of the hex grid when it adds the `x` coordinates
and moves the doubled height of every location by the same amount, the shift of the
displacement. -/
def hex_translation (sum : map_location → map_location → map_location) : Prop :=
  ∀ l a : map_location,
    (sum l a).x = l.x + a.x ∧ (sum l a).hex_height = l.hex_height + a.hex_shift

/-- A location sum that is a translation of the hex grid: the coordinates are added,
and `y` is corrected by one when an odd `a.x` moves the location from a column of odd
`x` to the right or from a column of even `x` to the left. Vector addition
(`map_location.legacy_sum`) differs from it exactly in these two cases. -/
def map_location.hex_sum (l a : map_location) : map_location :=
  let parity := l.x % 2 ≠ 0
  let y := l.y + a.y
  let y1 := if 0 < a.x ∧ a.x % 2 ≠ 0 ∧ parity then y + 1 else y
  let y2 := if a.x < 0 ∧ a.x % 2 ≠ 0 ∧ ¬ parity then y1 - 1 else y1
  ⟨l.x + a.x, y2⟩

/-- The third loop of `rotate_rule` with the sum `sum` for `legacy_sum_assign`. -/
def normalize_constraints_with (sum : map_location → map_location → map_location)
    (tmp_cons : constraint_set) (minx miny : Int) : constraint_set :=
  tmp_cons.foldl
    (fun constraints cons2 =>
      let loc := sum cons2.2.loc ⟨-minx, -(Int.tdiv (miny - 1) 2)⟩
      constraint_set_assign constraints loc { cons2.2 with loc := loc })
    []

/-- The part of `rotate_rule` before the replacement of the tokens, with the sum `sum`
for `legacy_sum_assign`. -/
def rotate_rule_constraints_with (ext : externals)
    (sum : map_location → map_location → map_location) (rule : building_rule)
    (angle : Nat) : building_rule :=
  let tmp_cons := rotate_constraints ext angle rule.constraints
  let m := min_coordinates tmp_cons
  { constraints := normalize_constraints_with sum tmp_cons m.1 (adjust_miny m.1 m.2),
    location_constraints := rule.location_constraints,
    probability := rule.probability,
    local_ := rule.local_ }

/-- The method `terrain_builder::rotate_rule` with the sum `sum` for
`legacy_sum_assign`; `none` when a token replacement does not end within `fuel`
replacements. -/
def rotate_rule_with (ext : externals) (sum : map_location → map_location → map_location)
    (fuel : Nat) (rule : building_rule) (angle : Nat) (rot : List String) :
    Option building_rule :=
  if rot.length ≠ 6 then some (building_rule.mk0 ext)
  else
    replace_rotation_tokens fuel angle rot [0, 1, 2, 3, 4, 5]
      (rotate_rule_constraints_with ext sum rule angle)

/-- Successive calls of `rotate_rule_with` with the angle 1, `n` of them, each on the
result of the one before. -/
def rotate_times_with (ext : externals) (sum : map_location → map_location → map_location)
    (fuel : Nat) (rot : List String) : Nat → building_rule → Option building_rule
  | 0, rule => some rule
  | n + 1, rule =>
    (rotate_times_with ext sum fuel rot n rule).bind
      (fun r => rotate_rule_with ext sum fuel r 1 rot)

/-- The pixel offsets `(basex, basey)` of the image references of a constraint, in
order. -/
def image_bases (c : terrain_constraint) : List (Int × Int) :=
  c.images.map (fun image => (image.basex, image.basey))

/-- A rule with two constraints, at the offsets `(1, 0)` and `(2, 1)`; the first holds
an image reference with the pixel offset `(5, 7)` and a flag with a rotation token. -/
def sample_rule_pair : building_rule :=
  { constraints := [(⟨1, 0⟩, { loc := ⟨1, 0⟩, terrain_types_match := ⟨[7]⟩,
                               set_flag := ["flag-@R0"], no_flag := [], has_flag := [],
                               images := [{ sample_image 0 "grass.png" with
                                            basex := 5, basey := 7 }] }),
                    (⟨2, 1⟩, { loc := ⟨2, 1⟩, terrain_types_match := ⟨[7]⟩,
                               set_flag := [], no_flag := [], has_flag := [],
                               images := [] })],
    location_constraints := ⟨-1000, -1000⟩, probability := -1, local_ := false }

/-- The locations visited by the first loop nest of `build_terrains`, in the order of
the loops: `x` from -2 to `w`, and for each `x`, `y` from -2 to `h`. -/
def grid_locations (map : gamemap) : List map_location :=
  (int_range (-2) map.w).flatMap (fun x => (int_range (-2) map.h).map (fun y => ⟨x, y⟩))

/-- The keys of the index, in order. -/
def index_keys (tbt : terrain_by_type_map) : List t_terrain := tbt.map Prod.fst

/-- A rule with one constraint at offset `(0, 0)` that accepts terrain 7, names no flag
and carries one image of the given layer with its default variant only; it has no
probability and no anchor restriction. -/
def sample_rule_plain (layer : Int) : building_rule :=
  { constraints := [(⟨0, 0⟩, { loc := ⟨0, 0⟩, terrain_types_match := ⟨[7]⟩,
                               set_flag := [], no_flag := [], has_flag := [],
                               images := [sample_image layer "grass.png"] })],
    location_constraints := ⟨-1000, -1000⟩, probability := -1, local_ := false }

/-- The 1x1 sample builder with `sample_rule_plain` as its only rule. -/
def sample_builder_plain (layer : Int) : builder :=
  { sample_builder with building_rules_ := [(0, sample_rule_plain layer)] }

/-- The plain sample rule (one constraint at offset `(0, 0)` accepting terrain 7, one
image of layer 0) with the match probability `p`. -/
def sample_rule_probability (p : Int) : building_rule :=
  { sample_rule_plain 0 with probability := p }

/-- The tile map of a grid of width 0 and height 10 right after `reload(0, 10)`. -/
def sample_tilemap_tall : tilemap := tilemap.reload ⟨[], 0, 0⟩ 0 10

/-- The sample externals, except that the frame `flash.png:0` splits at the colon into
the file name and the duration `0`, which `atoi` converts to 0. -/
def sample_externals_timed : externals :=
  { sample_externals with
    split := fun s c => if c = ':' ∧ s = "flash.png:0" then ["flash.png", "0"] else [s],
    atoi := fun s => if s = "0" then 0 else 100 }

/-- A rule with one constraint at offset `(0, 0)` that accepts terrain 7 and carries one
image of layer 0 whose only variant, not yet loaded, has the path specification
`flash.png:0`: one frame with the explicit duration 0. -/
def sample_rule_zero : building_rule :=
  { constraints := [(⟨0, 0⟩, { loc := ⟨0, 0⟩, terrain_types_match := ⟨[7]⟩,
                               set_flag := [], no_flag := [], has_flag := [],
                               images := [{ layer := 0, basex := 36, basey := 36,
                                            variants := [sample_variant "flash.png:0" [] 100],
                                            global_image := false, center_x := -1,
                                            center_y := -1 }] })],
    location_constraints := ⟨-1000, -1000⟩, probability := -1, local_ := false }

/-- The candidate count of a terrain match specification: the sum of the sizes of the
index lists of the terrain codes it accepts. -/
def candidate_count (ext : externals) (tbt : terrain_by_type_map) (m : t_match) : Nat :=
  ((tbt.filter (fun e => ext.terrain_matches e.1 m)).map (fun e => e.2.length)).sum

/-- The indexed terrain codes that a terrain match specification accepts, in index
order. -/
def accepted_types (ext : externals) (tbt : terrain_by_type_map) (m : t_match) :
    List t_terrain :=
  (tbt.filter (fun e => ext.terrain_matches e.1 m)).map Prod.fst

/-- The number of cells held by the index. -/
def index_size (tbt : terrain_by_type_map) : Nat :=
  (tbt.map (fun e => e.2.length)).sum

/-- A rule with three constraints, at the offsets `(0, 0)`, `(1, 0)` and `(0, 1)`, the
first of which sets a flag that holds a rotation token. -/
def sample_rule_three : building_rule :=
  { constraints :=
      [(⟨0, 0⟩, { loc := ⟨0, 0⟩, terrain_types_match := ⟨[7]⟩,
                  set_flag := ["flag-@R0"], no_flag := [], has_flag := [], images := [] }),
       (⟨0, 1⟩, { loc := ⟨0, 1⟩, terrain_types_match := ⟨[7]⟩,
                  set_flag := [], no_flag := [], has_flag := [], images := [] }),
       (⟨1, 0⟩, { loc := ⟨1, 0⟩, terrain_types_match := ⟨[7]⟩,
                  set_flag := [], no_flag := [], has_flag := [], images := [] })],
    location_constraints := ⟨-1000, -1000⟩, probability := -1, local_ := false }

/-- An application of `rule` at the anchor `a` lands on the location `L` a constraint
that lists the flag `F` both in `no_flag` and in `set_flag`. -/
def rule_lands (rule : building_rule) (L : map_location) (F : String) (a : map_location) :
    Bool :=
  rule.constraints.any (fun c =>
    decide (a.legacy_sum c.2.loc = L) && c.2.no_flag.contains F && c.2.set_flag.contains F)

/-- The same for an entry `(rule_index, anchor)` of the record of a pass over the
ruleset `rules`. -/
def lands_flag (rules : building_ruleset) (L : map_location) (F : String)
    (e : Int × map_location) : Bool :=
  if e.1 < 0 then false
  else
    match rules[e.1.toNat]? with
    | some r => rule_lands r.2 L F e.2
    | none => false

/-- Modelled from the spec: the constructor `tilemap(x, y)` is declared in `builder.hpp`,
outside the given sources; the grid cache owns an array of `(x + 4) * (y + 4)` tiles,
here default-constructed ones. -/
def tilemap.mk0 (x y : Int) : tilemap :=
  { tiles_ := List.replicate ((x + 4) * (y + 4)).toNat tile.mk0, x_ := x, y_ := y }

/-- The constructor of `terrain_builder` once the rules are parsed: the tile map is
constructed for the map, `rules` is the rule store that `add_off_map_rule`,
`parse_global_config`, `flush_local_rules` and `parse_config` leave, and
`build_terrains` runs on an empty index. -/
def construct (ext : externals) (m : gamemap) (rules : building_ruleset) : Option builder :=
  build_terrains ext
    { map_ := m, tile_map_ := tilemap.mk0 m.w m.h, terrain_by_type_ := [],
      building_rules_ := rules }

/-- The method `terrain_builder::change_map`. -/
def change_map (ext : externals) (b : builder) (m : gamemap) : Option builder :=
  reload_map ext { b with map_ := m }

/-- The builder states reachable from construction through the public operations, each
step being a call that returns. -/
inductive reachable (ext : externals) : builder → Prop
  | construct (m : gamemap) (rules : building_ruleset) (b : builder) :
      construct ext m rules = some b → reachable ext b
  | reload_map (b b1 : builder) :
      reachable ext b → reload_map ext b = some b1 → reachable ext b1
  | change_map (b : builder) (m : gamemap) (b1 : builder) :
      reachable ext b → change_map ext b m = some b1 → reachable ext b1
  | rebuild_all (b b1 : builder) :
      reachable ext b → rebuild_all ext b = some b1 → reachable ext b1
  | get_terrain_at (b : builder) (loc : map_location) (tod : String)
      (terrain_type : TERRAIN_TYPE) (r : Option (List animated)) (b1 : builder) :
      reachable ext b → get_terrain_at ext b loc tod terrain_type = some (r, b1) →
      reachable ext b1
  | rebuild_terrain (b : builder) (loc : map_location) (b1 : builder) :
      reachable ext b → rebuild_terrain b loc = some b1 → reachable ext b1
  | update_animation (b : builder) (loc : map_location) (r : Bool) (b1 : builder) :
      reachable ext b → update_animation ext b loc = some (r, b1) → reachable ext b1

/-- The invariant that ties the sort mark of a tile to its raw list: a tile marked
sorted has a raw list in non-decreasing order. -/
def sorted_mark_ok (tm : tilemap) : Prop :=
  ∀ t ∈ tm.tiles_, t.sorted_images = true → List.Sorted rule_image_rand.le t.images

/-! ## Parsing the tile entries of a rule description -/

/-- Modelled from the spec: the constructor `terrain_constraint(loc)` is declared in
`builder.hpp`, outside the given sources; a position constraint has a relative
location, a terrain match specification, three flag lists and a list of image
references, and a new one has the given location and all the others empty. -/
def terrain_constraint.mk0 (loc : map_location) : terrain_constraint :=
  { loc := loc, terrain_types_match := ⟨[]⟩, set_flag := [], no_flag := [], has_flag := [],
    images := [] }

/-- The test `constraints.find(loc) != constraints.end()`. -/
def constraint_set_contains (constraints : constraint_set) (loc : map_location) : Bool :=
  constraints.any (fun e => e.1 == loc)

/-- A change made through the reference `constraints[loc]` when the key exists. -/
def constraint_set_modify (constraints : constraint_set) (loc : map_location)
    (f : terrain_constraint → terrain_constraint) : constraint_set :=
  constraints.map (fun e => if e.1 = loc then (e.1, f e.2) else e)

/-- The overload of `add_constraints` that takes a terrain match specification; `%` and
`/` are the C++ operators (truncated towards zero). -/
def add_constraints_match (ext : externals) (constraints : constraint_set)
    (loc : map_location) (type : t_match) (global_images : config) : constraint_set :=
  let constraints1 :=
    if !constraint_set_contains constraints loc then
      constraint_set_assign constraints loc (terrain_constraint.mk0 loc)
    else constraints
  let constraints2 :=
    if !type.terrain.isEmpty then
      constraint_set_modify constraints1 loc (fun c => { c with terrain_types_match := type })
    else constraints1
  let x := Int.tdiv (loc.x * ext.TILEWIDTH * 3) 4
  let y := loc.y * ext.TILEWIDTH + Int.tdiv (Int.tmod loc.x 2 * ext.TILEWIDTH) 2
  constraint_set_modify constraints2 loc
    (fun c => { c with images := add_images_from_config ext c.images global_images true x y })

/-- The overload of `add_constraints` that takes a `tile` node. -/
def add_constraints (ext : externals) (constraints : constraint_set) (loc : map_location)
    (cfg global_images : config) : constraint_set :=
  let constraints1 :=
    add_constraints_match ext constraints loc (ext.make_match (cfg.get "type")) global_images
  constraint_set_modify constraints1 loc (fun constraint =>
    let c1 := { constraint with
      set_flag := constraint.set_flag ++ ext.split (cfg.get "set_flag") ',' }
    let c2 := { c1 with has_flag := c1.has_flag ++ ext.split (cfg.get "has_flag") ',' }
    let c3 := { c2 with no_flag := c2.no_flag ++ ext.split (cfg.get "no_flag") ',' }
    let c4 := { c3 with
      set_flag := c3.set_flag ++ ext.split (cfg.get "set_no_flag") ',',
      no_flag := c3.no_flag ++ ext.split (cfg.get "set_no_flag") ',' }
    { c4 with images := add_images_from_config ext c4.images cfg false 0 0 })

/-- The anchors of a rule description (`anchormap`, a `std::multimap<int,
map_location>`): an association list in the order of the multimap. -/
abbrev anchormap := List (Int × map_location)

/-- The location that the tile loop of `parse_config` computes for a `tile` node from
its attributes `x`, `y` and `loc`, starting from a default-constructed location. -/
def tile_location (ext : externals) (tc : config) : map_location :=
  let loc0 := ext.null_location
  let loc1 := if !(tc.get "x").isEmpty then { loc0 with x := ext.to_int (tc.get "x") 0 } else loc0
  let loc2 := if !(tc.get "y").isEmpty then { loc1 with y := ext.to_int (tc.get "y") 0 } else loc1
  if !(tc.get "loc").isEmpty then
    let sloc := ext.split (tc.get "loc") ','
    if sloc.length = 2 then ⟨ext.atoi (sloc.getD 0 ""), ext.atoi (sloc.getD 1 "")⟩ else loc2
  else loc2

/-- The body of the tile loop of `parse_config` for one `tile` node `tc` of the rule
description `br`; `anchors` is the anchor map that `parse_mapstring` filled. -/
def parse_tile (ext : externals) (anchors : anchormap) (br : config)
    (constraints : constraint_set) (tc : config) : constraint_set :=
  let loc := tile_location ext tc
  let constraints1 :=
    if ext.valid loc then add_constraints ext constraints loc tc br else constraints
  if !(tc.get "pos").isEmpty then
    let pos := ext.to_int (tc.get "pos") 0
    if !anchors.any (fun e => e.1 == pos) then constraints1
    else
      ((anchors.filter (fun e => e.1 == pos)).map Prod.snd).foldl
        (fun cs loc1 => add_constraints ext cs loc1 tc br) constraints1
  else constraints1

/-- The tile loop of `parse_config` for the rule description `br`. -/
def parse_tiles (ext : externals) (anchors : anchormap) (br : config)
    (constraints : constraint_set) : constraint_set :=
  (br.child_range "tile").foldl (parse_tile ext anchors br) constraints

/-- A `tile` node that refers to the anchor 5 and gives no location of its own. -/
def sample_tile_pos : config :=
  .mk [("pos", "5"), ("set_flag", "f")] [("image", .mk [("name", "a.png")] [])]

/-- A `tile` node that refers to the anchor 5 and also gives the location `(80, 80)`. -/
def sample_tile_pos_xy : config :=
  .mk [("x", "80"), ("y", "80"), ("pos", "5"), ("set_flag", "f")]
    [("image", .mk [("name", "a.png")] [])]

/-! ## Properties -/

/-! ### The tile cache: addressing -/

theorem on_map_eq_true (tm : tilemap) (loc : map_location) :
    tm.on_map loc = true ↔
      (-2 ≤ loc.x ∧ loc.x ≤ tm.x_ + 1) ∧ (-2 ≤ loc.y ∧ loc.y ≤ tm.y_ + 1) := by
  unfold tilemap.on_map
  split_ifs with h
  · simp only [Bool.false_eq_true, false_iff]
    omega
  · simp only [true_iff]
    omega

theorem reload_dims (tm0 : tilemap) (w h : Int) :
    (tm0.reload w h).x_ = w ∧ (tm0.reload w h).y_ = h ∧
      (tm0.reload w h).tiles_.length = ((w + 4) * (h + 4)).toNat := by
  simp [tilemap.reload, tilemap.reset]

theorem reload_wf (tm0 : tilemap) (w h : Int) : (tm0.reload w h).wf := by
  simp [tilemap.wf, tilemap.reload, tilemap.reset]

theorem index_bounds (tm : tilemap) (loc : map_location) (h : tm.on_map loc = true) :
    0 ≤ tm.index loc ∧ tm.index loc < (tm.x_ + 4) * (tm.y_ + 4) := by
  rw [on_map_eq_true] at h
  obtain ⟨⟨hx0, hx1⟩, hy0, hy1⟩ := h
  unfold tilemap.index
  have h1 : 0 ≤ (loc.y + 2) * (tm.x_ + 4) := mul_nonneg (by omega) (by omega)
  have h2 : (loc.y + 2 + 1) * (tm.x_ + 4) ≤ (tm.y_ + 4) * (tm.x_ + 4) :=
    mul_le_mul_of_nonneg_right (by omega) (by omega)
  constructor
  · omega
  · nlinarith

theorem index_inj (tm : tilemap) (l1 l2 : map_location) (h1 : tm.on_map l1 = true)
    (h2 : tm.on_map l2 = true) (he : tm.index l1 = tm.index l2) : l1 = l2 := by
  rw [on_map_eq_true] at h1 h2
  obtain ⟨⟨ax0, ax1⟩, ay0, ay1⟩ := h1
  obtain ⟨⟨bx0, bx1⟩, by0, by1⟩ := h2
  unfold tilemap.index at he
  have hy : l1.y = l2.y := by
    by_contra hne
    rcases lt_or_gt_of_ne hne with hlt | hgt
    · have : (l1.y + 2 + 1) * (tm.x_ + 4) ≤ (l2.y + 2) * (tm.x_ + 4) :=
        mul_le_mul_of_nonneg_right (by omega) (by omega)
      nlinarith
    · have : (l2.y + 2 + 1) * (tm.x_ + 4) ≤ (l1.y + 2) * (tm.x_ + 4) :=
        mul_le_mul_of_nonneg_right (by omega) (by omega)
      nlinarith
  have hx : l1.x = l2.x := by
    rw [hy] at he
    omega
  cases l1; cases l2; simp_all

/-- C8: for a tile map of dimensions `(w, h)` and a location `(x, y)`, `tilemap::on_map`
returns true if and only if `-2 <= x <= w + 1` and `-2 <= y <= h + 1`. -/
theorem on_map_iff_bounds (tiles : List tile) (w h x y : Int) :
    tilemap.on_map { tiles_ := tiles, x_ := w, y_ := h } ⟨x, y⟩ = true ↔
      (-2 ≤ x ∧ x ≤ w + 1) ∧ (-2 ≤ y ∧ y ≤ h + 1) :=
  on_map_eq_true _ _

/-- C9: after `tilemap::reload(w, h)` with `w >= 0` and `h >= 0` the tile array holds
`(w + 4) * (h + 4)` tiles, and the addressing function of `tilemap::operator[]` maps
every addressable location to an index inside `[0, (w + 4) * (h + 4))` (so that the
access yields a tile of the array) and maps distinct addressable locations to distinct
indices. -/
theorem reload_index_injective (tm0 : tilemap) (w h : Int) (hw : 0 ≤ w) (hh : 0 ≤ h) :
    ((tm0.reload w h).tiles_.length : Int) = (w + 4) * (h + 4) ∧
    (∀ loc, (tm0.reload w h).on_map loc = true →
      (tm0.reload w h).index loc = (loc.x + 2) + (loc.y + 2) * (w + 4) ∧
      0 ≤ (tm0.reload w h).index loc ∧ (tm0.reload w h).index loc < (w + 4) * (h + 4) ∧
      ∃ t, (tm0.reload w h).at loc = some t ∧
        (tm0.reload w h).tiles_[((tm0.reload w h).index loc).toNat]? = some t) ∧
    (∀ l1 l2, (tm0.reload w h).on_map l1 = true → (tm0.reload w h).on_map l2 = true →
      (tm0.reload w h).index l1 = (tm0.reload w h).index l2 → l1 = l2) := by
  obtain ⟨hx, hy, hlen⟩ := reload_dims tm0 w h
  have hpos : 0 ≤ (w + 4) * (h + 4) := mul_nonneg (by omega) (by omega)
  refine ⟨?_, ?_, ?_⟩
  · rw [hlen, Int.toNat_of_nonneg hpos]
  · intro loc hon
    have hb := index_bounds _ loc hon
    rw [hx, hy] at hb
    refine ⟨by simp [tilemap.index, hx], hb.1, hb.2, ?_⟩
    have hlt : ((tm0.reload w h).index loc).toNat < (tm0.reload w h).tiles_.length := by
      rw [hlen]; omega
    refine ⟨(tm0.reload w h).tiles_[((tm0.reload w h).index loc).toNat], ?_, ?_⟩
    · simp only [tilemap.at, hon, hb.1, if_true]
      exact List.getElem?_eq_getElem hlt
    · exact List.getElem?_eq_getElem hlt
  · intro l1 l2 h1 h2 he
    exact index_inj _ l1 l2 h1 h2 he

/-- C9 witness: the 1x1 grid. -/
theorem reload_index_injective_witness :
    ((tilemap.reload ⟨[], 0, 0⟩ 1 1).tiles_.length : Int) = (1 + 4) * (1 + 4) ∧
    (∀ loc, (tilemap.reload ⟨[], 0, 0⟩ 1 1).on_map loc = true →
      (tilemap.reload ⟨[], 0, 0⟩ 1 1).index loc = (loc.x + 2) + (loc.y + 2) * (1 + 4) ∧
      0 ≤ (tilemap.reload ⟨[], 0, 0⟩ 1 1).index loc ∧
      (tilemap.reload ⟨[], 0, 0⟩ 1 1).index loc < (1 + 4) * (1 + 4) ∧
      ∃ t, (tilemap.reload ⟨[], 0, 0⟩ 1 1).at loc = some t ∧
        (tilemap.reload ⟨[], 0, 0⟩ 1 1).tiles_[((tilemap.reload ⟨[], 0, 0⟩ 1 1).index loc).toNat]?
          = some t) ∧
    (∀ l1 l2, (tilemap.reload ⟨[], 0, 0⟩ 1 1).on_map l1 = true →
      (tilemap.reload ⟨[], 0, 0⟩ 1 1).on_map l2 = true →
      (tilemap.reload ⟨[], 0, 0⟩ 1 1).index l1 = (tilemap.reload ⟨[], 0, 0⟩ 1 1).index l2 →
      l1 = l2) :=
  reload_index_injective ⟨[], 0, 0⟩ 1 1 (by decide) (by decide)

theorem at_some_of_on_map (tm : tilemap) (hwf : tm.wf) (loc : map_location)
    (hon : tm.on_map loc = true) : ∃ t, tm.at loc = some t := by
  have hb := index_bounds tm loc hon
  have hlt : (tm.index loc).toNat < tm.tiles_.length := by
    rw [hwf]; omega
  refine ⟨tm.tiles_[(tm.index loc).toNat], ?_⟩
  simp only [tilemap.at, hon, hb.1, if_true]
  exact List.getElem?_eq_getElem hlt

theorem at_none_of_not_on_map (tm : tilemap) (loc : map_location)
    (hon : tm.on_map loc = false) : tm.at loc = none := by
  simp [tilemap.at, hon]

/-! ### The match engine: `rule_matches` -/

theorem constraint_matches_spec (ext : externals) (map : gamemap) (tm : tilemap) (hwf : tm.wf)
    (loc : map_location) (type_checked : Option map_location)
    (c : map_location × terrain_constraint) :
    ∃ b, constraint_matches ext map tm loc type_checked c = some b ∧
      (b = true ↔ constraint_ok ext map tm loc type_checked c) := by
  unfold constraint_matches constraint_ok
  by_cases hon : tm.on_map (loc.legacy_sum c.2.loc) = true
  · obtain ⟨t, ht⟩ := at_some_of_on_map tm hwf _ hon
    by_cases hty : some c.1 ≠ type_checked ∧
        ext.terrain_matches (map.get_terrain (loc.legacy_sum c.2.loc)) c.2.terrain_types_match = false
    · refine ⟨false, ?_, ?_⟩
      · simp [hon, hty.1, hty.2]
      · simp [hon, hty.1, hty.2]
    · have hty' : some c.1 ≠ type_checked →
          ext.terrain_matches (map.get_terrain (loc.legacy_sum c.2.loc)) c.2.terrain_types_match = true := by
        intro h
        by_contra hc
        exact hty ⟨h, by simpa using hc⟩
      have hcond : ((some c.1 != type_checked) &&
          !ext.terrain_matches (map.get_terrain (loc.legacy_sum c.2.loc)) c.2.terrain_types_match) = false := by
        by_cases hk : some c.1 = type_checked
        · simp [hk]
        · simp [hty' hk]
      by_cases hno : ∃ f ∈ c.2.no_flag, f ∈ t.flags
      · refine ⟨false, by simp [hon, hcond, ht, hno], ?_⟩
        simp only [Bool.false_eq_true, false_iff, not_and, not_exists]
        intro _ _ t' ht' hnf
        rw [ht] at ht'
        cases ht'
        obtain ⟨f, hf, hft⟩ := hno
        exact absurd hft (hnf f hf)
      · by_cases hhas : ∃ f ∈ c.2.has_flag, f ∉ t.flags
        · refine ⟨false, by simp [hon, hcond, ht, hno, hhas], ?_⟩
          simp only [Bool.false_eq_true, false_iff, not_and, not_exists]
          intro _ _ t' ht' _ hhf
          rw [ht] at ht'
          cases ht'
          obtain ⟨f, hf, hft⟩ := hhas
          exact hft (hhf f hf)
        · refine ⟨true, by simp [hon, hcond, ht, hno, hhas], ?_⟩
          simp only [true_iff]
          refine ⟨hon, hty', t, ht, ?_, ?_⟩
          · intro f hf hft
            exact hno ⟨f, hf, hft⟩
          · intro f hf
            by_contra hft
            exact hhas ⟨f, hf, hft⟩
  · have hon' : tm.on_map (loc.legacy_sum c.2.loc) = false := by simpa using hon
    refine ⟨false, by simp [hon'], ?_⟩
    simp [hon']

theorem rule_matches_loop_spec (ext : externals) (map : gamemap) (tm : tilemap) (hwf : tm.wf)
    (loc : map_location) (type_checked : Option map_location) (cs : constraint_set) :
    ∃ b, rule_matches_loop ext map tm loc type_checked cs = some b ∧
      (b = true ↔ ∀ c ∈ cs, constraint_ok ext map tm loc type_checked c) := by
  induction cs with
  | nil => exact ⟨true, rfl, by simp⟩
  | cons c rest ih =>
    obtain ⟨b, hb, hiff⟩ := constraint_matches_spec ext map tm hwf loc type_checked c
    obtain ⟨b', hb', hiff'⟩ := ih
    cases b with
    | false =>
      refine ⟨false, by simp [rule_matches_loop, hb], ?_⟩
      simp only [Bool.false_eq_true, false_iff] at hiff ⊢
      intro hall
      exact hiff (hall c (List.mem_cons_self _ _))
    | true =>
      refine ⟨b', by simp [rule_matches_loop, hb, hb'], ?_⟩
      rw [hiff']
      simp only [true_iff] at hiff
      simp [hiff]


/-- C1: on a tile map that satisfies its size invariant, `rule_matches(rule, a, i, k)`
returns, and it returns true if and only if (i) the rule's absolute-anchor restriction
is not valid or equals `a`; (ii) the probability is -1 or `get_noise(a, i) mod 100` is
within the probability, that is, not greater than the probability converted to
`unsigned int`; (iii) for every constraint `c`, the location `a + c.loc` is on the map,
its terrain is accepted by `c` (a check skipped when `c` is the constraint `k` already
checked), no flag of `c.no_flag` is on the tile there and every flag of `c.has_flag`
is. -/
theorem rule_matches_iff (ext : externals) (map : gamemap) (tm : tilemap) (hwf : tm.wf)
    (rule : building_rule) (a : map_location) (i : Int) (k : Option map_location) :
    ∃ b, rule_matches ext map tm rule a i k = some b ∧
      (b = true ↔
        (ext.valid rule.location_constraints = false ∨ rule.location_constraints = a) ∧
        (rule.probability = -1 ∨
          get_noise a (to_unsigned i) % 100 ≤ to_unsigned rule.probability) ∧
        ∀ c ∈ rule.constraints,
          tm.on_map (a.legacy_sum c.2.loc) = true ∧
          (some c.1 ≠ k →
            ext.terrain_matches (map.get_terrain (a.legacy_sum c.2.loc))
              c.2.terrain_types_match = true) ∧
          ∃ t, tm.at (a.legacy_sum c.2.loc) = some t ∧
            (∀ f ∈ c.2.no_flag, f ∉ t.flags) ∧ (∀ f ∈ c.2.has_flag, f ∈ t.flags)) := by
  unfold rule_matches
  by_cases h1 : ext.valid rule.location_constraints = false ∨ rule.location_constraints = a
  · have c1 : (ext.valid rule.location_constraints && rule.location_constraints != a) = false := by
      rcases h1 with h | h
      · simp [h]
      · simp [h]
    by_cases h2 : rule.probability = -1 ∨
        get_noise a (to_unsigned i) % 100 ≤ to_unsigned rule.probability
    · have c2 : (rule.probability != -1 &&
          decide (get_noise a (to_unsigned i) % 100 > to_unsigned rule.probability)) = false := by
        rcases h2 with h | h
        · simp [h]
        · simp [Nat.not_lt.mpr h]
      obtain ⟨b, hb, hiff⟩ := rule_matches_loop_spec ext map tm hwf a k rule.constraints
      refine ⟨b, by simp [c1, c2, hb], ?_⟩
      rw [hiff]
      exact ⟨fun h => ⟨h1, h2, h⟩, fun h => h.2.2⟩
    · have c2 : (rule.probability != -1 &&
          decide (get_noise a (to_unsigned i) % 100 > to_unsigned rule.probability)) = true := by
        push_neg at h2
        simp [h2.1, h2.2]
      refine ⟨false, by simp [c1, c2], ?_⟩
      simp only [Bool.false_eq_true, false_iff]
      exact fun h => h2 h.2.1
  · have c1 : (ext.valid rule.location_constraints && rule.location_constraints != a) = true := by
      push_neg at h1
      simp [h1.2]
      simpa using h1.1
    refine ⟨false, by simp [c1], ?_⟩
    simp only [Bool.false_eq_true, false_iff]
    exact fun h => h1 h.1

/-- C1 witness: the sample rule on the freshly reloaded 1x1 tile map, anchor `(0, 0)`. -/
theorem rule_matches_iff_witness :
    sample_tilemap.wf ∧
    rule_matches sample_externals sample_map sample_tilemap sample_rule ⟨0, 0⟩ 0 none
      = some true ∧
    ∃ b, rule_matches sample_externals sample_map sample_tilemap sample_rule ⟨0, 0⟩ 0 none
        = some b ∧
      (b = true ↔
        (sample_externals.valid sample_rule.location_constraints = false ∨
          sample_rule.location_constraints = ⟨0, 0⟩) ∧
        (sample_rule.probability = -1 ∨
          get_noise ⟨0, 0⟩ (to_unsigned 0) % 100 ≤ to_unsigned sample_rule.probability) ∧
        ∀ c ∈ sample_rule.constraints,
          sample_tilemap.on_map (map_location.legacy_sum ⟨0, 0⟩ c.2.loc) = true ∧
          (some c.1 ≠ none →
            sample_externals.terrain_matches
              (sample_map.get_terrain (map_location.legacy_sum ⟨0, 0⟩ c.2.loc))
              c.2.terrain_types_match = true) ∧
          ∃ t, sample_tilemap.at (map_location.legacy_sum ⟨0, 0⟩ c.2.loc) = some t ∧
            (∀ f ∈ c.2.no_flag, f ∉ t.flags) ∧ (∀ f ∈ c.2.has_flag, f ∈ t.flags)) :=
  ⟨by decide, by decide,
    rule_matches_iff sample_externals sample_map sample_tilemap (by decide) sample_rule ⟨0, 0⟩ 0 none⟩

/-! ### The match engine: `apply_rule` -/

theorem set_dims (tm : tilemap) (loc : map_location) (t : tile) :
    (tm.set loc t).x_ = tm.x_ ∧ (tm.set loc t).y_ = tm.y_ ∧
      (tm.set loc t).tiles_.length = tm.tiles_.length := by
  simp [tilemap.set]

theorem set_on_map (tm : tilemap) (loc : map_location) (t : tile) (l : map_location) :
    (tm.set loc t).on_map l = tm.on_map l := by
  simp [tilemap.on_map, tilemap.set]

theorem set_index (tm : tilemap) (loc : map_location) (t : tile) (l : map_location) :
    (tm.set loc t).index l = tm.index l := by
  simp [tilemap.index, tilemap.set]

theorem set_wf (tm : tilemap) (hwf : tm.wf) (loc : map_location) (t : tile) :
    (tm.set loc t).wf := by
  unfold tilemap.wf at *
  simpa [tilemap.set] using hwf

theorem at_set_same (tm : tilemap) (hwf : tm.wf) (loc : map_location) (t : tile)
    (hon : tm.on_map loc = true) : (tm.set loc t).at loc = some t := by
  have hb := index_bounds tm loc hon
  have hlt : (tm.index loc).toNat < tm.tiles_.length := by
    rw [hwf]; omega
  unfold tilemap.at
  rw [set_on_map, set_index]
  simp only [hon, hb.1, if_true]
  simp only [tilemap.set]
  rw [List.getElem?_set_self hlt]

theorem at_set_other (tm : tilemap) (loc : map_location) (t : tile) (l : map_location)
    (hon : tm.on_map loc = true) (hne : l ≠ loc) : (tm.set loc t).at l = tm.at l := by
  unfold tilemap.at
  rw [set_on_map, set_index]
  by_cases hl : tm.on_map l = true
  · have hb := index_bounds tm l hl
    have hb' := index_bounds tm loc hon
    have hidx : (tm.index loc).toNat ≠ (tm.index l).toNat := by
      intro he
      apply hne
      apply index_inj tm l loc hl hon
      omega
    simp only [hl, hb.1, if_true]
    simp only [tilemap.set]
    rw [List.getElem?_set_ne hidx]
  · simp [hl]

theorem legacy_sum_inj (a o1 o2 : map_location)
    (h : a.legacy_sum o1 = a.legacy_sum o2) : o1 = o2 := by
  cases o1; cases o2
  simp only [map_location.legacy_sum, map_location.mk.injEq] at h
  simp only [map_location.mk.injEq]
  omega

theorem foldl_push_images (seed : Nat) (imgs : List rule_image) (acc : List rule_image_rand) :
    imgs.foldl (fun l img => l ++ [rule_image_rand.mk img seed]) acc =
      acc ++ imgs.map (fun img => rule_image_rand.mk img seed) := by
  induction imgs generalizing acc with
  | nil => simp
  | cons i rest ih => simp [ih]

theorem mem_flags_insert (flags : List String) (flag f : String) :
    f ∈ flags_insert flags flag ↔ f ∈ flags ∨ f = flag := by
  unfold flags_insert
  by_cases h : flag ∈ flags
  · have hc : flags.contains flag = true := by simpa using h
    simp only [hc, if_true]
    constructor
    · exact Or.inl
    · rintro (h' | h')
      · exact h'
      · subst h'; exact h
  · simp [h]

theorem mem_foldl_flags_insert (set_flag flags : List String) (f : String) :
    f ∈ set_flag.foldl flags_insert flags ↔ f ∈ flags ∨ f ∈ set_flag := by
  induction set_flag generalizing flags with
  | nil => simp
  | cons s rest ih =>
    simp only [List.foldl_cons, ih, mem_flags_insert, List.mem_cons]
    tauto

theorem apply_constraint_spec (btile : tile) (c : terrain_constraint) (seed : Nat) :
    (apply_constraint btile c seed).images =
        btile.images ++ c.images.map (fun img => rule_image_rand.mk img seed) ∧
    (∀ f, f ∈ (apply_constraint btile c seed).flags ↔ f ∈ btile.flags ∨ f ∈ c.set_flag) ∧
    (apply_constraint btile c seed).images_foreground = btile.images_foreground ∧
    (apply_constraint btile c seed).images_background = btile.images_background ∧
    (apply_constraint btile c seed).last_tod = btile.last_tod ∧
    (apply_constraint btile c seed).sorted_images = btile.sorted_images := by
  refine ⟨?_, ?_, rfl, rfl, rfl, rfl⟩
  · simp [apply_constraint, foldl_push_images]
  · intro f
    simp [apply_constraint, mem_foldl_flags_insert]

theorem apply_rule_loop_spec (loc : map_location) (seed : Nat) (cs : constraint_set) :
    ∀ (tm : tilemap), tm.wf → (cs.map (fun c => c.2.loc)).Nodup →
      (∀ c ∈ cs, tm.on_map (loc.legacy_sum c.2.loc) = true) →
      ∃ tm1, apply_rule_loop loc seed cs tm = some tm1 ∧ tm1.wf ∧
        tm1.x_ = tm.x_ ∧ tm1.y_ = tm.y_ ∧
        (∀ c ∈ cs, ∃ t, tm.at (loc.legacy_sum c.2.loc) = some t ∧
          tm1.at (loc.legacy_sum c.2.loc) = some (apply_constraint t c.2 seed)) ∧
        (∀ l, (∀ c ∈ cs, loc.legacy_sum c.2.loc ≠ l) → tm1.at l = tm.at l) := by
  induction cs with
  | nil =>
    intro tm hwf _ _
    exact ⟨tm, rfl, hwf, rfl, rfl, by simp, by simp⟩
  | cons c rest ih =>
    intro tm hwf hnd hon
    have honc : tm.on_map (loc.legacy_sum c.2.loc) = true := hon c (List.mem_cons_self _ _)
    obtain ⟨t, ht⟩ := at_some_of_on_map tm hwf _ honc
    simp only [List.map_cons, List.nodup_cons, List.mem_map, not_exists, not_and] at hnd
    obtain ⟨hnotin, hnd'⟩ := hnd
    have hdiff : ∀ c' ∈ rest, loc.legacy_sum c'.2.loc ≠ loc.legacy_sum c.2.loc := by
      intro c' hc' he
      exact hnotin c' hc' (legacy_sum_inj loc _ _ he)
    obtain ⟨tm1, h1, hwf1, hx1, hy1, hcs, hother⟩ :=
      ih (tm.set (loc.legacy_sum c.2.loc) (apply_constraint t c.2 seed))
        (set_wf tm hwf _ _) hnd'
        (by intro c' hc'; rw [set_on_map]; exact hon c' (List.mem_cons_of_mem _ hc'))
    refine ⟨tm1, ?_, hwf1, ?_, ?_, ?_, ?_⟩
    · simp [apply_rule_loop, honc, ht, h1]
    · rw [hx1]; exact (set_dims tm _ _).1
    · rw [hy1]; exact (set_dims tm _ _).2.1
    · intro c' hc'
      rcases List.mem_cons.mp hc' with rfl | hc'
      · refine ⟨t, ht, ?_⟩
        rw [hother _ hdiff]
        exact at_set_same tm hwf _ _ honc
      · obtain ⟨t', ht', ht1⟩ := hcs c' hc'
        refine ⟨t', ?_, ht1⟩
        rw [← ht']
        exact (at_set_other tm _ _ _ honc (hdiff c' hc')).symm
    · intro l hl
      rw [hother l (fun c' hc' => hl c' (List.mem_cons_of_mem _ hc'))]
      exact at_set_other tm _ _ _ honc (fun he => hl c (List.mem_cons_self _ _) he.symm)

theorem rule_matches_true_loop (ext : externals) (map : gamemap) (tm : tilemap)
    (rule : building_rule) (a : map_location) (i : Int) (k : Option map_location)
    (hm : rule_matches ext map tm rule a i k = some true) :
    rule_matches_loop ext map tm a k rule.constraints = some true := by
  unfold rule_matches at hm
  split_ifs at hm
  all_goals first | exact hm | cases hm

theorem rule_matches_constraint_ok (ext : externals) (map : gamemap) (tm : tilemap)
    (hwf : tm.wf) (rule : building_rule) (a : map_location) (i : Int)
    (k : Option map_location) (hm : rule_matches ext map tm rule a i k = some true) :
    ∀ c ∈ rule.constraints, constraint_ok ext map tm a k c := by
  obtain ⟨b, hb, hiff⟩ := rule_matches_loop_spec ext map tm hwf a k rule.constraints
  rw [rule_matches_true_loop ext map tm rule a i k hm] at hb
  cases hb
  exact hiff.mp rfl

theorem rule_matches_on_map (ext : externals) (map : gamemap) (tm : tilemap) (hwf : tm.wf)
    (rule : building_rule) (a : map_location) (i : Int) (k : Option map_location)
    (hm : rule_matches ext map tm rule a i k = some true) :
    ∀ c ∈ rule.constraints, tm.on_map (a.legacy_sum c.2.loc) = true :=
  fun c hc => (rule_matches_constraint_ok ext map tm hwf rule a i k hm c hc).1

/-- C2: when `rule_matches` holds at anchor `a` (on a tile map satisfying its size
invariant, for a rule whose constraints have pairwise distinct offsets, as the
offset-keyed constraint set guarantees), `apply_rule(rule, a, i)` returns a tile map
of the same dimensions in which: every translated location `a + c.loc` is on the map,
so the early return is never taken; for every constraint `c` the tile at `a + c.loc`
has `c`'s image references appended in order to its raw list, each paired with
`get_noise(a, i)`, has exactly the flags of `c.set_flag` added to its flag set, and
keeps its derived lists, sort flag and cached time-of-day; and the tile at every other
location is unchanged. -/
theorem apply_rule_effect (ext : externals) (map : gamemap) (tm : tilemap) (hwf : tm.wf)
    (rule : building_rule) (hkeys : (rule.constraints.map (fun c => c.2.loc)).Nodup)
    (a : map_location) (i : Int) (k : Option map_location)
    (hm : rule_matches ext map tm rule a i k = some true) :
    ∃ tm1, apply_rule tm rule a i = some tm1 ∧
      tm1.x_ = tm.x_ ∧ tm1.y_ = tm.y_ ∧ tm1.tiles_.length = tm.tiles_.length ∧
      (∀ c ∈ rule.constraints, tm.on_map (a.legacy_sum c.2.loc) = true) ∧
      (∀ c ∈ rule.constraints, ∃ t t1,
        tm.at (a.legacy_sum c.2.loc) = some t ∧ tm1.at (a.legacy_sum c.2.loc) = some t1 ∧
        t1.images = t.images ++
          c.2.images.map (fun img => rule_image_rand.mk img (get_noise a (to_unsigned i))) ∧
        (∀ f, f ∈ t1.flags ↔ f ∈ t.flags ∨ f ∈ c.2.set_flag) ∧
        t1.images_foreground = t.images_foreground ∧
        t1.images_background = t.images_background ∧
        t1.last_tod = t.last_tod ∧ t1.sorted_images = t.sorted_images) ∧
      (∀ l, (∀ c ∈ rule.constraints, a.legacy_sum c.2.loc ≠ l) → tm1.at l = tm.at l) := by
  have hon := rule_matches_on_map ext map tm hwf rule a i k hm
  obtain ⟨tm1, h1, hwf1, hx1, hy1, hcs, hother⟩ :=
    apply_rule_loop_spec a (get_noise a (to_unsigned i)) rule.constraints tm hwf hkeys hon
  refine ⟨tm1, h1, hx1, hy1, ?_, hon, ?_, hother⟩
  · rw [hwf1, hwf, hx1, hy1]
  · intro c hc
    obtain ⟨t, ht, ht1⟩ := hcs c hc
    exact ⟨t, _, ht, ht1, apply_constraint_spec t c.2 _⟩

/-- C2 witness: the sample rule applied at anchor `(0, 0)` of the 1x1 tile map; the
tile there receives the image with the seed and the flag `base`. -/
theorem apply_rule_effect_witness :
    sample_tilemap.wf ∧
    rule_matches sample_externals sample_map sample_tilemap sample_rule ⟨0, 0⟩ 0 none
      = some true ∧
    (∃ tm1, apply_rule sample_tilemap sample_rule ⟨0, 0⟩ 0 = some tm1 ∧
      (∃ t1, tm1.at ⟨0, 0⟩ = some t1 ∧
        t1.images = [rule_image_rand.mk (sample_image (-1000) "off-map.png")
          (get_noise ⟨0, 0⟩ (to_unsigned 0))] ∧
        (∀ f, f ∈ t1.flags ↔ f = "base")) ∧
      (∀ l, l ≠ ⟨0, 0⟩ → tm1.at l = sample_tilemap.at l)) := by
  refine ⟨by decide, by decide, ?_⟩
  obtain ⟨tm1, h1, _, _, _, _, hcs, hother⟩ :=
    apply_rule_effect sample_externals sample_map sample_tilemap (by decide) sample_rule
      (by decide) ⟨0, 0⟩ 0 none (by decide)
  refine ⟨tm1, h1, ?_, ?_⟩
  · obtain ⟨t, t1, ht, ht1, himg, hfl, _⟩ :=
      hcs (⟨0, 0⟩, _) (List.mem_cons_self _ _)
    have ht0 : t = tile.mk0 := by
      have : sample_tilemap.at ⟨0, 0⟩ = some tile.mk0 := by decide
      exact Option.some.inj (ht.symm.trans this)
    subst ht0
    refine ⟨t1, ht1, ?_, ?_⟩
    · rw [himg]; rfl
    · intro f
      rw [hfl]
      simp [tile.mk0]
  · intro l hl
    apply hother
    intro c hc
    simp only [sample_rule, List.mem_singleton] at hc
    subst hc
    intro he
    apply hl
    rw [← he]
    rfl

/-! ### The render list builder: variant selection -/

theorem find_range_succ (p : Nat → Bool) (n : Nat) :
    (List.range (n + 1)).find? p =
      if p 0 = true then some 0
      else ((List.range n).find? (fun k => p (k + 1))).map Nat.succ := by
  rw [List.range_succ_eq_map, List.find?_cons]
  cases h : p 0
  · simp only [Bool.false_eq_true, if_false]
    rw [List.find?_map]
    rfl
  · simp

theorem applicable_weight_cons (tod : String) (v : rule_image_variant)
    (vs : List rule_image_variant) :
    applicable_weight tod (v :: vs) =
      (if v.applicable tod = true then v.probability else 0) + applicable_weight tod vs := by
  unfold applicable_weight
  by_cases ha : v.applicable tod = true
  · simp [List.filter_cons, ha]
  · simp [List.filter_cons, ha]

theorem first_selected_index_cons (tod : String) (r : Int) (v : rule_image_variant)
    (vs : List rule_image_variant) :
    first_selected_index tod r (v :: vs) =
      if v.applicable tod = true ∧ r ≤ v.probability then some 0
      else (first_selected_index tod
              (if v.applicable tod = true then r - v.probability else r) vs).map Nat.succ := by
  unfold first_selected_index
  rw [List.length_cons, find_range_succ]
  have hnil : applicable_weight tod [] = 0 := rfl
  have h0 : ((match (v :: vs)[0]? with
      | some u => u.applicable tod && decide (r ≤ applicable_weight tod ((v :: vs).take (0 + 1)))
      | none => false) = true) ↔ (v.applicable tod = true ∧ r ≤ v.probability) := by
    simp only [List.getElem?_cons_zero, zero_add, List.take_succ_cons, List.take_zero,
      applicable_weight_cons, hnil, Bool.and_eq_true, decide_eq_true_eq]
    constructor
    · rintro ⟨h1, h2⟩
      rw [if_pos h1] at h2
      exact ⟨h1, by omega⟩
    · rintro ⟨h1, h2⟩
      rw [if_pos h1]
      exact ⟨h1, by omega⟩
  have hs : (fun k => match (v :: vs)[k + 1]? with
      | some u => u.applicable tod &&
          decide (r ≤ applicable_weight tod ((v :: vs).take (k + 1 + 1)))
      | none => false) =
      (fun k => match vs[k]? with
      | some u => u.applicable tod &&
          decide ((if v.applicable tod = true then r - v.probability else r) ≤
            applicable_weight tod (vs.take (k + 1)))
      | none => false) := by
    funext k
    simp only [List.getElem?_cons_succ, List.take_succ_cons, applicable_weight_cons]
    cases vs[k]? with
    | none => rfl
    | some u =>
      simp only
      congr 1
      apply decide_eq_decide.mpr
      by_cases ha : v.applicable tod = true
      · simp only [if_pos ha]
        constructor <;> intro h <;> omega
      · simp only [if_neg ha]
        constructor <;> intro h <;> omega
  rw [hs]
  by_cases hc : v.applicable tod = true ∧ r ≤ v.probability
  · rw [if_pos (h0.mpr hc), if_pos hc]
  · rw [if_neg (fun h => hc (h0.mp h)), if_neg hc]

theorem variant_walk_eq_first_selected (tod : String) (vs : List rule_image_variant) :
    ∀ r : Int, variant_walk tod r vs = first_selected tod r vs := by
  induction vs with
  | nil => intro r; rfl
  | cons v vs ih =>
    intro r
    unfold first_selected
    rw [first_selected_index_cons]
    unfold variant_walk
    by_cases ha : v.applicable tod = true
    · have hskip : (!v.tods.isEmpty && !v.tods.contains tod) = false := by
        unfold rule_image_variant.applicable at ha
        cases h1 : v.tods.isEmpty <;> cases h2 : v.tods.contains tod <;> simp_all
      by_cases hr : r ≤ v.probability
      · have hng : ¬ r > v.probability := not_lt.mpr hr
        simp only [hskip, Bool.false_eq_true, if_false, hng, ha, hr, and_self, if_true,
          Option.some_bind, List.getElem?_cons_zero]
      · have hgt : r > v.probability := not_le.mp hr
        simp only [hskip, Bool.false_eq_true, if_false, hgt, if_true, ha, hr, and_false]
        rw [ih, first_selected]
        cases first_selected_index tod (r - v.probability) vs <;> simp
    · have ha' : v.applicable tod = false := by simpa using ha
      have hskip : (!v.tods.isEmpty && !v.tods.contains tod) = true := by
        unfold rule_image_variant.applicable at ha'
        cases h1 : v.tods.isEmpty <;> cases h2 : v.tods.contains tod <;> simp_all
      simp only [hskip, if_true, ha', Bool.false_eq_true, false_and, if_false]
      rw [ih, first_selected]
      cases first_selected_index tod r vs <;> simp

theorem variant_walk_applicable (tod : String) (r : Int) (v : rule_image_variant)
    (vs : List rule_image_variant) (ha : v.applicable tod = true) :
    variant_walk tod r (v :: vs) =
      if r ≤ v.probability then some v else variant_walk tod (r - v.probability) vs := by
  have hskip : (!v.tods.isEmpty && !v.tods.contains tod) = false := by
    unfold rule_image_variant.applicable at ha
    cases h1 : v.tods.isEmpty <;> cases h2 : v.tods.contains tod <;> simp_all
  rw [variant_walk]
  simp only [hskip, Bool.false_eq_true, if_false]
  by_cases hr : r ≤ v.probability
  · rw [if_neg (not_lt.mpr hr), if_pos hr]
  · rw [if_pos (not_le.mp hr), if_neg hr]

/-- C3: for every image reference, seed and time-of-day label, the random value
`r = seed mod 100 + 1` lies in `1..100`, and the variant loop of `tile::rebuild_cache`
selects the first variant `k` that applies to the label and for which `r` is at most
the sum of the weights of the applicable variants up to and including `k` (variants
that do not apply are skipped and consume no weight); the entry then contributes the
image of that variant, or nothing when there is none. In particular, with three
applicable variants of weights 80, 10 and 10 it selects the first for `r <= 80`, the
second for `81 <= r <= 90` and the third for `91 <= r <= 100`. -/
theorem variant_selection (ext : externals) (tod : String) (t : tile) (ri : rule_image)
    (seed : Nat) :
    (1 ≤ ((seed % 100 + 1 : Nat) : Int) ∧ ((seed % 100 + 1 : Nat) : Int) ≤ 100) ∧
    variant_walk tod ((seed % 100 + 1 : Nat) : Int) ri.variants =
      first_selected tod ((seed % 100 + 1 : Nat) : Int) ri.variants ∧
    (first_selected tod ((seed % 100 + 1 : Nat) : Int) ri.variants = none →
      rebuild_cache_entry ext tod t ⟨ri, seed⟩ = some t) ∧
    (∀ v, first_selected tod ((seed % 100 + 1 : Nat) : Int) ri.variants = some v →
      to_unsigned v.image.get_animation_duration ≠ 0 →
      ∃ img : animated, img.frames = v.image.frames ∧
        rebuild_cache_entry ext tod t ⟨ri, seed⟩ =
          some (if ext.is_background ri = true then
                  { t with images_background := t.images_background ++ [img] }
                else { t with images_foreground := t.images_foreground ++ [img] })) ∧
    (∀ v1 v2 v3 : rule_image_variant, ri.variants = [v1, v2, v3] →
      v1.applicable tod = true → v2.applicable tod = true → v3.applicable tod = true →
      v1.probability = 80 → v2.probability = 10 → v3.probability = 10 →
      (((seed % 100 + 1 : Nat) : Int) ≤ 80 →
        variant_walk tod ((seed % 100 + 1 : Nat) : Int) ri.variants = some v1) ∧
      (81 ≤ ((seed % 100 + 1 : Nat) : Int) → ((seed % 100 + 1 : Nat) : Int) ≤ 90 →
        variant_walk tod ((seed % 100 + 1 : Nat) : Int) ri.variants = some v2) ∧
      (91 ≤ ((seed % 100 + 1 : Nat) : Int) →
        variant_walk tod ((seed % 100 + 1 : Nat) : Int) ri.variants = some v3)) := by
  have hr : 1 ≤ ((seed % 100 + 1 : Nat) : Int) ∧ ((seed % 100 + 1 : Nat) : Int) ≤ 100 := by
    have := Nat.mod_lt seed (by decide : 100 > 0)
    omega
  have hw := variant_walk_eq_first_selected tod ri.variants ((seed % 100 + 1 : Nat) : Int)
  refine ⟨hr, hw, ?_, ?_, ?_⟩
  · intro hnone
    simp only [rebuild_cache_entry, hw, hnone]
  · intro v hv hd
    refine ⟨{ v.image with
      animation_time := ((seed % to_unsigned v.image.get_animation_duration : Nat) : Int) },
      rfl, ?_⟩
    simp only [rebuild_cache_entry, hw, hv, hd, if_false]
    by_cases hb : ext.is_background ri = true
    · simp only [hb, if_true]
    · have hb' : ext.is_background ri = false := by simpa using hb
      simp only [hb', Bool.false_eq_true, if_false]
  · intro v1 v2 v3 hvs a1 a2 a3 p1 p2 p3
    rw [hvs]
    refine ⟨?_, ?_, ?_⟩
    · intro h
      rw [variant_walk_applicable _ _ _ _ a1, if_pos (by omega)]
    · intro h1 h2
      rw [variant_walk_applicable _ _ _ _ a1, if_neg (by omega),
        variant_walk_applicable _ _ _ _ a2, if_pos (by omega)]
    · intro h
      rw [variant_walk_applicable _ _ _ _ a1, if_neg (by omega),
        variant_walk_applicable _ _ _ _ a2, if_neg (by omega),
        variant_walk_applicable _ _ _ _ a3, if_pos (by omega)]

/-- C3 witness: the image with weights 80/10/10 and the seed 84, so `r = 85`: the
second variant is selected. -/
theorem variant_selection_witness :
    sample_weighted_image.variants =
      [sample_variant "a.png" [] 80, sample_variant "b.png" [] 10,
       sample_variant "c.png" [] 10] ∧
    (81 : Int) ≤ ((84 % 100 + 1 : Nat) : Int) ∧ ((84 % 100 + 1 : Nat) : Int) ≤ 90 ∧
    variant_walk "dawn" ((84 % 100 + 1 : Nat) : Int) sample_weighted_image.variants =
      some (sample_variant "b.png" [] 10) :=
  ⟨rfl, by decide, by decide,
    ((variant_selection sample_externals "dawn" tile.mk0 sample_weighted_image 84).2.2.2.2
      (sample_variant "a.png" [] 80) (sample_variant "b.png" [] 10)
      (sample_variant "c.png" [] 10) rfl rfl rfl rfl rfl rfl rfl).2.1 (by decide) (by decide)⟩

/-! ### The render list builder: the stable sort -/

theorem rule_image_rand.le_iff (a b : rule_image_rand) :
    rule_image_rand.le a b ↔
      a.ri.layer < b.ri.layer ∨ (a.ri.layer = b.ri.layer ∧ a.ri.basey ≤ b.ri.basey) := by
  unfold rule_image_rand.le rule_image_rand.lt
  simp only [Bool.or_eq_false_iff, Bool.and_eq_false_iff, decide_eq_false_iff_not]
  constructor
  · rintro ⟨h1, h2⟩
    rcases h2 with h2 | h2 <;> omega
  · intro h
    constructor
    · omega
    · by_cases he : b.ri.layer = a.ri.layer
      · right; omega
      · left; exact he

theorem rule_image_rand.le_total : IsTotal rule_image_rand rule_image_rand.le :=
  ⟨fun a b => by
    rw [rule_image_rand.le_iff, rule_image_rand.le_iff]
    omega⟩

theorem rule_image_rand.le_trans : IsTrans rule_image_rand rule_image_rand.le :=
  ⟨fun a b c hab hbc => by
    rw [rule_image_rand.le_iff] at *
    omega⟩

theorem stable_sort_perm (l : List rule_image_rand) : (stable_sort l).Perm l :=
  List.perm_insertionSort _ l

theorem stable_sort_sorted (l : List rule_image_rand) :
    List.Sorted rule_image_rand.le (stable_sort l) :=
  @List.sorted_insertionSort _ rule_image_rand.le _ rule_image_rand.le_total
    rule_image_rand.le_trans l

theorem stable_sort_pair (l : List rule_image_rand) (a b : rule_image_rand)
    (hab : rule_image_rand.le a b) (h : [a, b].Sublist l) : [a, b].Sublist (stable_sort l) :=
  List.pair_sublist_insertionSort hab h

theorem stable_sort_filter (l : List rule_image_rand) (layer basey : Int) :
    (stable_sort l).filter (fun e => decide (e.ri.layer = layer ∧ e.ri.basey = basey)) =
      l.filter (fun e => decide (e.ri.layer = layer ∧ e.ri.basey = basey)) := by
  set p : rule_image_rand → Bool := fun e => decide (e.ri.layer = layer ∧ e.ri.basey = basey)
  have hpw : (l.filter p).Pairwise rule_image_rand.le := by
    rw [List.pairwise_iff_forall_sublist]
    intro a b hab
    have ha : a ∈ l.filter p := hab.subset (by simp)
    have hb : b ∈ l.filter p := hab.subset (by simp)
    have ha' := (List.mem_filter.mp ha).2
    have hb' := (List.mem_filter.mp hb).2
    simp only [p, decide_eq_true_eq] at ha' hb'
    rw [rule_image_rand.le_iff]
    omega
  have hsub : (l.filter p).Sublist (stable_sort l) :=
    List.sublist_insertionSort hpw (List.filter_sublist l)
  have hsub2 : (l.filter p).Sublist ((stable_sort l).filter p) := by
    have := hsub.filter p
    simpa [List.filter_filter] using this
  have hlen : (l.filter p).length = ((stable_sort l).filter p).length :=
    ((stable_sort_perm l).filter p).length_eq.symm
  exact (hsub2.eq_of_length hlen).symm

theorem rebuild_cache_entry_cases (ext : externals) (tod : String) (t : tile)
    (ri : rule_image_rand) :
    (variant_walk tod ((ri.rand % 100 + 1 : Nat) : Int) ri.ri.variants = none ∧
      rebuild_cache_entry ext tod t ri = some t) ∨
    (∃ v, variant_walk tod ((ri.rand % 100 + 1 : Nat) : Int) ri.ri.variants = some v ∧
      to_unsigned v.image.get_animation_duration = 0 ∧
      rebuild_cache_entry ext tod t ri = none) ∨
    (∃ v img, variant_walk tod ((ri.rand % 100 + 1 : Nat) : Int) ri.ri.variants = some v ∧
      to_unsigned v.image.get_animation_duration ≠ 0 ∧
      img = { v.image with animation_time :=
        ((ri.rand % to_unsigned v.image.get_animation_duration : Nat) : Int) } ∧
      ((ext.is_background ri.ri = true ∧ rebuild_cache_entry ext tod t ri =
          some { t with images_background := t.images_background ++ [img] }) ∨
       (ext.is_background ri.ri = false ∧ rebuild_cache_entry ext tod t ri =
          some { t with images_foreground := t.images_foreground ++ [img] }))) := by
  cases hw : variant_walk tod ((ri.rand % 100 + 1 : Nat) : Int) ri.ri.variants with
  | none =>
    left
    exact ⟨rfl, by simp only [rebuild_cache_entry, hw]⟩
  | some v =>
    right
    by_cases hd : to_unsigned v.image.get_animation_duration = 0
    · left
      exact ⟨v, rfl, hd, by simp only [rebuild_cache_entry, hw, hd, if_true]⟩
    · right
      refine ⟨v, _, rfl, hd, rfl, ?_⟩
      cases hb : ext.is_background ri.ri
      · right
        exact ⟨rfl, by simp only [rebuild_cache_entry, hw, hd, hb, if_false, Bool.false_eq_true]⟩
      · left
        exact ⟨rfl, by simp only [rebuild_cache_entry, hw, hd, hb, if_false, if_true]⟩

theorem rebuild_cache_entry_images (ext : externals) (tod : String) (t t1 : tile)
    (ri : rule_image_rand) (h : rebuild_cache_entry ext tod t ri = some t1) :
    t1.images = t.images ∧ t1.sorted_images = t.sorted_images ∧ t1.flags = t.flags ∧
      t1.last_tod = t.last_tod := by
  rcases rebuild_cache_entry_cases ext tod t ri with ⟨_, he⟩ | ⟨v, _, _, he⟩ |
    ⟨v, img, _, _, _, ⟨_, he⟩ | ⟨_, he⟩⟩ <;>
  · rw [he] at h
    cases h
    all_goals exact ⟨rfl, rfl, rfl, rfl⟩

theorem rebuild_cache_loop_images (ext : externals) (tod : String) (l : List rule_image_rand) :
    ∀ t t1 : tile, rebuild_cache_loop ext tod l t = some t1 →
      t1.images = t.images ∧ t1.sorted_images = t.sorted_images ∧ t1.flags = t.flags ∧
        t1.last_tod = t.last_tod := by
  induction l with
  | nil => intro t t1 h; cases h; exact ⟨rfl, rfl, rfl, rfl⟩
  | cons ri rest ih =>
    intro t t1 h
    rw [rebuild_cache_loop] at h
    cases he : rebuild_cache_entry ext tod t ri with
    | none => rw [he] at h; cases h
    | some t2 =>
      rw [he] at h
      obtain ⟨h1, h2, h3, h4⟩ := ih t2 t1 h
      obtain ⟨e1, e2, e3, e4⟩ := rebuild_cache_entry_images ext tod t t2 ri he
      exact ⟨h1.trans e1, h2.trans e2, h3.trans e3, h4.trans e4⟩

theorem variant_walk_mem (tod : String) (vs : List rule_image_variant) :
    ∀ (r : Int) (v : rule_image_variant), variant_walk tod r vs = some v → v ∈ vs := by
  induction vs with
  | nil => intro r v h; cases h
  | cons u rest ih =>
    intro r v h
    rw [variant_walk] at h
    split_ifs at h
    · exact List.mem_cons_of_mem _ (ih _ _ h)
    · exact List.mem_cons_of_mem _ (ih _ _ h)
    · cases h; exact List.mem_cons_self _ _

theorem rebuild_cache_entry_some (ext : externals) (tod : String) (t : tile)
    (ri : rule_image_rand)
    (hd : ∀ v ∈ ri.ri.variants, to_unsigned v.image.get_animation_duration ≠ 0) :
    ∃ t1, rebuild_cache_entry ext tod t ri = some t1 := by
  rcases rebuild_cache_entry_cases ext tod t ri with ⟨_, he⟩ | ⟨v, hw, h0, _⟩ |
    ⟨v, img, _, _, _, ⟨_, he⟩ | ⟨_, he⟩⟩
  · exact ⟨_, he⟩
  · exact absurd h0 (hd v (variant_walk_mem tod _ _ _ hw))
  · exact ⟨_, he⟩
  · exact ⟨_, he⟩

theorem rebuild_cache_loop_some (ext : externals) (tod : String) (l : List rule_image_rand)
    (hd : ∀ e ∈ l, ∀ v ∈ e.ri.variants, to_unsigned v.image.get_animation_duration ≠ 0) :
    ∀ t : tile, ∃ t1, rebuild_cache_loop ext tod l t = some t1 := by
  induction l with
  | nil => intro t; exact ⟨t, rfl⟩
  | cons ri rest ih =>
    intro t
    obtain ⟨t2, h2⟩ := rebuild_cache_entry_some ext tod t ri (hd ri (List.mem_cons_self _ _))
    obtain ⟨t1, h1⟩ := ih (fun e he => hd e (List.mem_cons_of_mem _ he)) t2
    exact ⟨t1, by rw [rebuild_cache_loop, h2]; exact h1⟩

theorem sort_images_spec (t : tile) (hinv : t.sorted_images = true →
    List.Sorted rule_image_rand.le t.images) :
    t.sort_images.images.Perm t.images ∧
    List.Sorted rule_image_rand.le t.sort_images.images ∧
    t.sort_images.sorted_images = true ∧
    (∀ layer basey : Int,
      t.sort_images.images.filter (fun e => decide (e.ri.layer = layer ∧ e.ri.basey = basey)) =
        t.images.filter (fun e => decide (e.ri.layer = layer ∧ e.ri.basey = basey))) ∧
    (∀ a b : rule_image_rand, a.ri.layer = b.ri.layer → a.ri.basey = b.ri.basey →
      [a, b].Sublist t.images → [a, b].Sublist t.sort_images.images) := by
  by_cases hs : t.sorted_images = true
  · have he : t.sort_images = { t with images_background := [], images_foreground := [] } := by
      simp [tile.sort_images, hs]
    rw [he]
    exact ⟨List.Perm.refl _, hinv hs, hs, fun _ _ => rfl, fun _ _ _ _ h => h⟩
  · have he : t.sort_images =
        { t with
          images_background := [], images_foreground := [],
          images := stable_sort t.images, sorted_images := true } := by
      simp [tile.sort_images, hs]
    rw [he]
    refine ⟨stable_sort_perm _, stable_sort_sorted _, rfl, fun _ _ => stable_sort_filter _ _ _, ?_⟩
    intro a b hl hb hsub
    exact stable_sort_pair _ a b (by rw [rule_image_rand.le_iff]; omega) hsub

/-- The effect of `tile::rebuild_cache` on the raw list of a tile whose sort mark, when
set, tells the truth: the call returns when no variant of a raw entry has a zero
animation duration, and whenever it returns the raw list is a permutation of the one
before, in non-decreasing order, marked sorted, with the entries of every given layer
and base-y in their order of insertion. -/
theorem rebuild_cache_spec (ext : externals) (t : tile) (tod : String)
    (hinv : t.sorted_images = true → List.Sorted rule_image_rand.le t.images) :
    ((∀ e ∈ t.images, ∀ v ∈ e.ri.variants, to_unsigned v.image.get_animation_duration ≠ 0) →
      ∃ t1, t.rebuild_cache ext tod = some t1) ∧
    ∀ t1, t.rebuild_cache ext tod = some t1 →
      t1.images.Perm t.images ∧
      List.Sorted rule_image_rand.le t1.images ∧
      t1.sorted_images = true ∧
      (∀ layer basey : Int,
        t1.images.filter (fun e => decide (e.ri.layer = layer ∧ e.ri.basey = basey)) =
          t.images.filter (fun e => decide (e.ri.layer = layer ∧ e.ri.basey = basey))) ∧
      (∀ a b : rule_image_rand, a.ri.layer = b.ri.layer → a.ri.basey = b.ri.basey →
        [a, b].Sublist t.images → [a, b].Sublist t1.images) := by
  obtain ⟨hperm, hsorted, hflag, hfilter, hpair⟩ := sort_images_spec t hinv
  constructor
  · intro hd
    apply rebuild_cache_loop_some
    intro e he
    exact hd e (hperm.mem_iff.mp he)
  · intro t1 h1
    obtain ⟨himg, hsf, _, _⟩ := rebuild_cache_loop_images ext tod _ _ _ h1
    rw [himg, hsf]
    exact ⟨hperm, hsorted, hflag, hfilter, hpair⟩

/-! ### The rule store: order of the rules -/

theorem mem_multimap_insert (rs : building_ruleset) (e x : Int × building_rule) :
    x ∈ multimap_insert rs e ↔ x = e ∨ x ∈ rs := by
  induction rs with
  | nil => simp [multimap_insert]
  | cons kr rest ih =>
    obtain ⟨k, r⟩ := kr
    rw [multimap_insert]
    split_ifs
    · simp
    · simp only [List.mem_cons, ih]
      tauto

theorem multimap_insert_sorted (rs : building_ruleset) (e : Int × building_rule)
    (hs : List.Sorted (fun a b : Int × building_rule => a.1 ≤ b.1) rs) :
    List.Sorted (fun a b : Int × building_rule => a.1 ≤ b.1) (multimap_insert rs e) := by
  induction rs with
  | nil => simp [multimap_insert]
  | cons kr rest ih =>
    obtain ⟨k, r⟩ := kr
    rw [multimap_insert]
    have hrest := List.rel_of_sorted_cons hs
    split_ifs with hlt
    · refine List.sorted_cons.mpr ⟨?_, hs⟩
      intro b hb
      rcases List.mem_cons.mp hb with rfl | hb
      · exact le_of_lt hlt
      · exact le_trans (le_of_lt hlt) (hrest b hb)
    · refine List.sorted_cons.mpr ⟨?_, ih hs.of_cons⟩
      intro b hb
      rcases (mem_multimap_insert rest e b).mp hb with rfl | hb
      · exact not_lt.mp hlt
      · exact hrest b hb

theorem multimap_insert_filter (rs : building_ruleset) (e : Int × building_rule) (p : Int)
    (hs : List.Sorted (fun a b : Int × building_rule => a.1 ≤ b.1) rs) :
    (multimap_insert rs e).filter (fun x => decide (x.1 = p)) =
      rs.filter (fun x => decide (x.1 = p)) ++ [e].filter (fun x => decide (x.1 = p)) := by
  induction rs with
  | nil => simp [multimap_insert]
  | cons kr rest ih =>
    obtain ⟨k, r⟩ := kr
    rw [multimap_insert]
    have hrest := List.rel_of_sorted_cons hs
    split_ifs with hlt
    · by_cases hp : e.1 = p
      · have hnone : ((k, r) :: rest).filter (fun x => decide (x.1 = p)) = [] := by
          rw [List.filter_eq_nil_iff]
          intro x hx
          simp only [decide_eq_true_eq]
          rcases List.mem_cons.mp hx with rfl | hx
          · simp only; omega
          · have := hrest x hx
            simp only at this
            omega
        rw [List.filter_cons, hnone]
        simp [hp]
      · simp [List.filter_cons, hp]
    · simp only [List.filter_cons, ih hs.of_cons]
      split_ifs <;> simp

theorem multimap_insert_length (rs : building_ruleset) (e : Int × building_rule) :
    (multimap_insert rs e).length = rs.length + 1 := by
  induction rs with
  | nil => rfl
  | cons kr rest ih =>
    obtain ⟨k, r⟩ := kr
    rw [multimap_insert]
    split_ifs
    · rfl
    · simp [ih]

theorem load_all_some {α β : Type} (f : α → Option (Option β)) (l : List α)
    (hf : ∀ a ∈ l, ∃ r, f a = some r) : ∃ r, load_all f l = some r := by
  induction l with
  | nil => exact ⟨_, rfl⟩
  | cons a rest ih =>
    obtain ⟨r, hr⟩ := hf a (List.mem_cons_self _ _)
    obtain ⟨r', hr'⟩ := ih (fun b hb => hf b (List.mem_cons_of_mem _ hb))
    rw [load_all, hr]
    cases r with
    | none => exact ⟨_, rfl⟩
    | some a1 =>
      simp only [hr']
      cases r' <;> exact ⟨_, rfl⟩

theorem load_images_some (ext : externals) (hsplit : ∀ s, ext.split s ':' ≠ [])
    (rule : building_rule) : ∃ r, load_images ext rule = some r := by
  have hframe : ∀ cl ri frame, ∃ r, load_frame ext cl ri frame = some r := by
    intro cl ri frame
    cases hh : (ext.split frame ':').head? with
    | none => exact absurd (List.head?_eq_none_iff.mp hh) (hsplit frame)
    | some str =>
      simp only [load_frame, hh]
      split_ifs <;> exact ⟨_, rfl⟩
  have hvariant : ∀ cl ri v, ∃ r, load_variant ext cl ri v = some r := by
    intro cl ri v
    unfold load_variant
    obtain ⟨r, hr⟩ := load_all_some (load_frame ext cl ri) (ext.parenthetical_split v.image_string)
      (fun a _ => hframe cl ri a)
    rw [hr]
    rcases r with _ | fr
    · exact ⟨_, rfl⟩
    · simp only
      split_ifs <;> exact ⟨_, rfl⟩
  have himage : ∀ cl ri, ∃ r, load_image ext cl ri = some r := by
    intro cl ri
    unfold load_image
    obtain ⟨r, hr⟩ := load_all_some (load_variant ext cl ri) ri.variants
      (fun a _ => hvariant cl ri a)
    rw [hr]
    rcases r with _ | vs <;> exact ⟨_, rfl⟩
  have hcons : ∀ c, ∃ r, load_constraint ext c = some r := by
    intro c
    unfold load_constraint
    obtain ⟨r, hr⟩ := load_all_some (load_image ext c.2.loc) c.2.images
      (fun a _ => himage c.2.loc a)
    rw [hr]
    rcases r with _ | imgs <;> exact ⟨_, rfl⟩
  unfold load_images
  split_ifs
  · exact ⟨_, rfl⟩
  · obtain ⟨r, hr⟩ := load_all_some (load_constraint ext) rule.constraints (fun a _ => hcons a)
    rw [hr]
    rcases r with _ | cs <;> exact ⟨_, rfl⟩

theorem add_rules_some (ext : externals) (hsplit : ∀ s, ext.split s ':' ≠ [])
    (calls : List (building_rule × Int)) :
    ∀ rs0, ∃ rs, add_rules ext rs0 calls = some rs := by
  induction calls with
  | nil => intro rs0; exact ⟨rs0, rfl⟩
  | cons call rest ih =>
    intro rs0
    obtain ⟨rule, p⟩ := call
    obtain ⟨r, hr⟩ := load_images_some ext hsplit rule
    rw [add_rules, add_rule, hr]
    rcases r with _ | rule1
    · exact ih rs0
    · exact ih _

theorem add_rules_spec (ext : externals) (calls : List (building_rule × Int)) :
    ∀ rs0 rs, List.Sorted (fun a b : Int × building_rule => a.1 ≤ b.1) rs0 →
      add_rules ext rs0 calls = some rs →
      List.Sorted (fun a b : Int × building_rule => a.1 ≤ b.1) rs ∧
      (∀ p : Int, rs.filter (fun x => decide (x.1 = p)) =
        rs0.filter (fun x => decide (x.1 = p)) ++
          (accepted_rules ext calls).filter (fun x => decide (x.1 = p))) ∧
      rs.length = rs0.length + (accepted_rules ext calls).length := by
  induction calls with
  | nil =>
    intro rs0 rs hs h
    cases h
    simp [accepted_rules, hs]
  | cons call rest ih =>
    intro rs0 rs hs h
    obtain ⟨rule, p⟩ := call
    rw [add_rules, add_rule] at h
    cases hl : load_images ext rule with
    | none => rw [hl] at h; cases h
    | some r =>
      rw [hl] at h
      rcases r with _ | rule1
      · obtain ⟨h1, h2, h3⟩ := ih rs0 rs hs h
        refine ⟨h1, ?_, ?_⟩
        · intro q
          rw [h2 q]
          simp [accepted_rules, hl]
        · rw [h3]
          simp [accepted_rules, hl]
      · obtain ⟨h1, h2, h3⟩ := ih _ rs (multimap_insert_sorted rs0 (p, rule1) hs) h
        refine ⟨h1, ?_, ?_⟩
        · intro q
          rw [h2 q, multimap_insert_filter rs0 (p, rule1) q hs]
          simp only [accepted_rules, List.filterMap_cons, hl, List.filter_cons, List.filter_nil,
            List.append_assoc]
          split_ifs <;> simp
        · rw [h3, multimap_insert_length]
          simp [accepted_rules, hl]
          omega

theorem build_rules_enumFrom (ext : externals) (map : gamemap) (tbt : terrain_by_type_map)
    (rules : building_ruleset) :
    ∀ (n : Nat) (s : tilemap × apply_log),
      build_rules ext map tbt rules (n : Int) s =
        (rules.enumFrom n).foldlM
          (fun s1 nr => build_rule ext map tbt nr.2.2 (nr.1 : Int) s1) s := by
  induction rules with
  | nil => intro n s; rfl
  | cons r rest ih =>
    intro n s
    rw [build_rules, List.enumFrom_cons, List.foldlM_cons]
    cases hb : build_rule ext map tbt r.2 (n : Int) s with
    | none => rfl
    | some s1 =>
      have := ih (n + 1) s1
      simp only [Nat.cast_add, Nat.cast_one] at this
      simpa using this

/-- C5: a sequence of `add_rule` calls on a ruleset (whose keys ascend, as in every
`std::multimap`) returns provided splitting a frame never yields an empty vector, and
whenever it returns, the stored rules are in non-decreasing precedence and, for every
precedence `p`, the stored rules of precedence `p` are the earlier ones followed by
the accepted rules of the calls with precedence `p` in call order; `build_terrains`
visits the stored rules in exactly that order, the rule at 0-based position `n` being
matched and applied with rule index `n`. -/
theorem add_rule_order (ext : externals) (rs0 : building_ruleset)
    (hs : List.Sorted (fun a b : Int × building_rule => a.1 ≤ b.1) rs0)
    (calls : List (building_rule × Int)) :
    ((∀ s, ext.split s ':' ≠ []) → ∃ rs, add_rules ext rs0 calls = some rs) ∧
    ∀ rs, add_rules ext rs0 calls = some rs →
      List.Sorted (fun a b : Int × building_rule => a.1 ≤ b.1) rs ∧
      (∀ p : Int, rs.filter (fun x => decide (x.1 = p)) =
        rs0.filter (fun x => decide (x.1 = p)) ++
          (accepted_rules ext calls).filter (fun x => decide (x.1 = p))) ∧
      (∀ map tbt s, build_rules ext map tbt rs 0 s =
        rs.enum.foldlM (fun s1 nr => build_rule ext map tbt nr.2.2 (nr.1 : Int) s1) s) ∧
      (∀ b : builder, b.building_rules_ = rs →
        build_terrains_log ext b =
          (build_rules_by_position ext b.map_
              (build_terrain_by_type b.map_ b.terrain_by_type_) rs (b.tile_map_, [])).map
            (fun s => ({ b with
              terrain_by_type_ := build_terrain_by_type b.map_ b.terrain_by_type_,
              tile_map_ := s.1 }, s.2))) := by
  refine ⟨fun hsplit => add_rules_some ext hsplit calls rs0, ?_⟩
  intro rs hrs
  obtain ⟨h1, h2, _⟩ := add_rules_spec ext calls rs0 rs hs hrs
  have hpos : ∀ map tbt s, build_rules ext map tbt rs 0 s =
      rs.enum.foldlM (fun s1 nr => build_rule ext map tbt nr.2.2 (nr.1 : Int) s1) s := by
    intro map tbt s
    have := build_rules_enumFrom ext map tbt rs 0 s
    simpa [List.enum] using this
  refine ⟨h1, h2, hpos, ?_⟩
  intro b hb
  simp only [build_terrains_log, build_rules_by_position, hb, hpos]
  cases (rs.enum.foldlM (fun s1 nr => build_rule ext b.map_
      (build_terrain_by_type b.map_ b.terrain_by_type_) nr.2.2 (nr.1 : Int) s1)
      (b.tile_map_, [])) <;> rfl

/-- C5 witness: three calls with precedences 1, 0, 1 on the empty ruleset; the rule of
precedence 0 comes first and the two rules of precedence 1 keep their call order. -/
theorem add_rule_order_witness :
    List.Sorted (fun a b : Int × building_rule => a.1 ≤ b.1) [] ∧
    ∃ rs, add_rules sample_externals []
        [(sample_rule, 1), (sample_rule_half, 0), (sample_rule_half, 1)] = some rs ∧
      rs.map (fun e => (e.1, e.2.probability)) = [(0, 50), (1, -1), (1, 50)] ∧
      List.Sorted (fun a b : Int × building_rule => a.1 ≤ b.1) rs := by
  have hthm := add_rule_order sample_externals [] List.sorted_nil
    [(sample_rule, 1), (sample_rule_half, 0), (sample_rule_half, 1)]
  obtain ⟨rs, hrs⟩ := hthm.1 (by intro s; simp [sample_externals])
  refine ⟨List.sorted_nil, rs, hrs, ?_, (hthm.2 rs hrs).1⟩
  have hval : add_rules sample_externals []
      [(sample_rule, 1), (sample_rule_half, 0), (sample_rule_half, 1)] =
      some [(0, sample_rule_half), (1, sample_rule), (1, sample_rule_half)] := by
    decide
  rw [hval] at hrs
  cases hrs
  decide

/-! ### Queries outside the grid -/

/-- C10: for a location that is not addressable, whatever the time-of-day label and the
pass kind, `get_terrain_at` returns `NULL`, `update_animation` returns false,
`get_tile` returns `NULL` and `rebuild_terrain` does nothing; each call returns with
the builder state, tile map included, exactly as it was. No tile is indexed: an access
through `operator[]` at that location would fail its `assert` (`tilemap.at` is `none`),
and the results hold for every tile array, even an empty one. -/
theorem off_map_queries (ext : externals) (b : builder) (loc : map_location) (tod : String)
    (terrain_type : TERRAIN_TYPE) (hoff : b.tile_map_.on_map loc = false) :
    get_terrain_at ext b loc tod terrain_type = some (none, b) ∧
    update_animation ext b loc = some (false, b) ∧
    get_tile b loc = some none ∧
    rebuild_terrain b loc = some b ∧
    b.tile_map_.at loc = none := by
  refine ⟨?_, ?_, ?_, ?_, at_none_of_not_on_map _ _ hoff⟩
  · simp [get_terrain_at, hoff]
  · simp [update_animation, hoff]
  · simp [get_tile, hoff]
  · simp [rebuild_terrain, hoff]

/-- C10 witness: on the 1x1 grid the location `(5, 5)` is not addressable and
`get_terrain_at((5,5), tod, foreground)` returns `NULL`. -/
theorem off_map_queries_witness :
    sample_builder.tile_map_.on_map ⟨5, 5⟩ = false ∧
    get_terrain_at sample_externals sample_builder ⟨5, 5⟩ "dawn" TERRAIN_TYPE.FOREGROUND =
      some (none, sample_builder) :=
  ⟨by decide,
    (off_map_queries sample_externals sample_builder ⟨5, 5⟩ "dawn" TERRAIN_TYPE.FOREGROUND
      (by decide)).1⟩

/-! ### The match engine: invariants of a pass -/

theorem apply_rule_loop_total (loc : map_location) (seed : Nat) (cs : constraint_set) :
    ∀ tm : tilemap, tm.wf →
      ∃ tm1, apply_rule_loop loc seed cs tm = some tm1 ∧ tm1.wf ∧
        tm1.x_ = tm.x_ ∧ tm1.y_ = tm.y_ := by
  induction cs with
  | nil => intro tm hwf; exact ⟨tm, rfl, hwf, rfl, rfl⟩
  | cons c rest ih =>
    intro tm hwf
    by_cases hon : tm.on_map (loc.legacy_sum c.2.loc) = true
    · obtain ⟨t, ht⟩ := at_some_of_on_map tm hwf _ hon
      obtain ⟨tm1, h1, hwf1, hx, hy⟩ :=
        ih (tm.set (loc.legacy_sum c.2.loc) (apply_constraint t c.2 seed)) (set_wf tm hwf _ _)
      refine ⟨tm1, ?_, hwf1, ?_, ?_⟩
      · simp [apply_rule_loop, hon, ht, h1]
      · rw [hx]; exact (set_dims tm _ _).1
      · rw [hy]; exact (set_dims tm _ _).2.1
    · have hoff : tm.on_map (loc.legacy_sum c.2.loc) = false := by simpa using hon
      exact ⟨tm, by simp [apply_rule_loop, hoff], hwf, rfl, rfl⟩

theorem rule_matches_total (ext : externals) (map : gamemap) (tm : tilemap) (hwf : tm.wf)
    (rule : building_rule) (a : map_location) (i : Int) (k : Option map_location) :
    ∃ b, rule_matches ext map tm rule a i k = some b := by
  obtain ⟨b, hb, _⟩ := rule_matches_loop_spec ext map tm hwf a k rule.constraints
  unfold rule_matches
  split_ifs
  · exact ⟨_, rfl⟩
  · exact ⟨_, rfl⟩
  · exact ⟨b, hb⟩

/-- An invariant of the state of a pass is kept by the loop over the locations of one
terrain code as soon as it is kept by every application of the rule at an anchor where
the rule matches; on a tile map with its size invariant the loop returns. -/
theorem try_locations_inv (ext : externals) (map : gamemap) (rule : building_rule) (i : Int)
    (mc : map_location × terrain_constraint) (I : tilemap × apply_log → Prop)
    (hstep : ∀ (s : tilemap × apply_log) (a : map_location) (tm1 : tilemap),
      s.1.wf → I s → rule_matches ext map s.1 rule a i (some mc.1) = some true →
      apply_rule s.1 rule a i = some tm1 → I (tm1, s.2 ++ [(i, a)])) :
    ∀ (locs : List map_location) (s : tilemap × apply_log), s.1.wf → I s →
      ∃ s1, try_locations ext map rule i mc locs s = some s1 ∧ s1.1.wf ∧ I s1 := by
  intro locs
  induction locs with
  | nil => intro s hwf hI; exact ⟨s, rfl, hwf, hI⟩
  | cons l rest ih =>
    intro s hwf hI
    obtain ⟨b, hb⟩ := rule_matches_total ext map s.1 hwf rule
      (l.legacy_difference mc.2.loc) i (some mc.1)
    cases b with
    | false =>
      obtain ⟨s1, h1, hwf1, hI1⟩ := ih s hwf hI
      exact ⟨s1, by rw [try_locations]; simp only [hb]; exact h1, hwf1, hI1⟩
    | true =>
      obtain ⟨tm1, ha, hwf1, _, _⟩ := apply_rule_loop_total (l.legacy_difference mc.2.loc)
        (get_noise (l.legacy_difference mc.2.loc) (to_unsigned i)) rule.constraints s.1 hwf
      have ha' : apply_rule s.1 rule (l.legacy_difference mc.2.loc) i = some tm1 := ha
      obtain ⟨s1, h1, hwf2, hI1⟩ :=
        ih (tm1, s.2 ++ [(i, l.legacy_difference mc.2.loc)]) hwf1
          (hstep s _ tm1 hwf hI hb ha')
      exact ⟨s1, by rw [try_locations]; simp only [hb, ha']; exact h1, hwf2, hI1⟩

theorem try_types_inv (ext : externals) (map : gamemap) (tbt : terrain_by_type_map)
    (rule : building_rule) (i : Int)
    (mc : map_location × terrain_constraint) (I : tilemap × apply_log → Prop)
    (hstep : ∀ (s : tilemap × apply_log) (a : map_location) (tm1 : tilemap),
      s.1.wf → I s → rule_matches ext map s.1 rule a i (some mc.1) = some true →
      apply_rule s.1 rule a i = some tm1 → I (tm1, s.2 ++ [(i, a)])) :
    ∀ (types : List t_terrain) (s : tilemap × apply_log), s.1.wf → I s →
      ∃ s1, try_types ext map tbt rule i mc types s = some s1 ∧ s1.1.wf ∧ I s1 := by
  intro types
  induction types with
  | nil => intro s hwf hI; exact ⟨s, rfl, hwf, hI⟩
  | cons t rest ih =>
    intro s hwf hI
    obtain ⟨s1, h1, hwf1, hI1⟩ :=
      try_locations_inv ext map rule i mc I hstep (terrain_by_type_lookup tbt t) s hwf hI
    obtain ⟨s2, h2, hwf2, hI2⟩ := ih s1 hwf1 hI1
    exact ⟨s2, by rw [try_types]; simp only [h1]; exact h2, hwf2, hI2⟩

/-- An invariant of the state of a pass is kept by the processing of one rule as soon
as it is kept by every application of the rule at an anchor where the rule matches
(whichever constraint was used to find the anchor). -/
theorem build_rule_inv (ext : externals) (map : gamemap) (tbt : terrain_by_type_map)
    (rule : building_rule) (i : Int) (I : tilemap × apply_log → Prop)
    (hstep : ∀ (s : tilemap × apply_log) (a : map_location) (k : Option map_location)
      (tm1 : tilemap),
      s.1.wf → I s → rule_matches ext map s.1 rule a i k = some true →
      apply_rule s.1 rule a i = some tm1 → I (tm1, s.2 ++ [(i, a)])) :
    ∀ (s : tilemap × apply_log), s.1.wf → I s →
      ∃ s1, build_rule ext map tbt rule i s = some s1 ∧ s1.1.wf ∧ I s1 := by
  intro s hwf hI
  cases hmc : (find_min_constraint ext tbt rule.constraints
      { min_size := INT_MAX, min_types := [], min_constraint := none }).min_constraint with
  | none => exact ⟨s, by simp only [build_rule, hmc], hwf, hI⟩
  | some mc =>
    obtain ⟨s1, h1, hwf1, hI1⟩ := try_types_inv ext map tbt rule i mc I
      (fun s a tm1 hw hi hm ha => hstep s a (some mc.1) tm1 hw hi hm ha)
      (find_min_constraint ext tbt rule.constraints
        { min_size := INT_MAX, min_types := [], min_constraint := none }).min_types s hwf hI
    exact ⟨s1, by simp only [build_rule, hmc]; exact h1, hwf1, hI1⟩

theorem apply_rule_single (tm : tilemap) (hwf : tm.wf) (rule : building_rule)
    (k : map_location) (c : terrain_constraint) (hc : rule.constraints = [(k, c)])
    (a : map_location) (i : Int) (hon : tm.on_map (a.legacy_sum c.loc) = true)
    (tm1 : tilemap) (ha : apply_rule tm rule a i = some tm1) :
    ∃ t, tm.at (a.legacy_sum c.loc) = some t ∧
      tm1.at (a.legacy_sum c.loc) =
        some (apply_constraint t c (get_noise a (to_unsigned i))) ∧
      ∀ l, l ≠ a.legacy_sum c.loc → tm1.at l = tm.at l := by
  obtain ⟨tm2, h2, _, _, _, hcs, hother⟩ :=
    apply_rule_loop_spec a (get_noise a (to_unsigned i)) [(k, c)] tm hwf (by simp)
      (by intro c' hc'; simp only [List.mem_singleton] at hc'; subst hc'; exact hon)
  unfold apply_rule at ha
  rw [hc, h2] at ha
  cases ha
  obtain ⟨t, ht, ht1⟩ := hcs (k, c) (List.mem_singleton.mpr rfl)
  refine ⟨t, ht, ht1, ?_⟩
  intro l hl
  apply hother
  intro c' hc'
  simp only [List.mem_singleton] at hc'
  subst hc'
  exact fun he => hl he.symm

theorem legacy_sum_left_inj (a1 a2 o : map_location)
    (h : a1.legacy_sum o = a2.legacy_sum o) : a1 = a2 := by
  cases a1; cases a2
  simp only [map_location.legacy_sum, map_location.mk.injEq] at h
  simp only [map_location.mk.injEq]
  omega

theorem at_mem_tiles (tm : tilemap) (loc : map_location) (t : tile)
    (h : tm.at loc = some t) : t ∈ tm.tiles_ := by
  unfold tilemap.at at h
  split_ifs at h
  exact List.getElem?_mem h

/-- C6: in a ruleset made of two rules `A` then `B` stored at the same precedence, each
with a single constraint at the same offset, `B`'s constraint requiring the flag `F`
(which `A`'s constraint sets), on a tile map none of whose tiles carries `F` before the
pass: `build_terrains` returns, it applies `A` with rule index 0 and `B` with rule
index 1, and every application of `B` at an anchor comes after an application of `A`
at that same anchor in the record of the pass. -/
theorem same_precedence_coupling (ext : externals) (b : builder) (p : Int)
    (A B : building_rule) (kA kB : map_location) (cA cB : terrain_constraint) (F : String)
    (hwf : b.tile_map_.wf) (hrules : b.building_rules_ = [(p, A), (p, B)])
    (hA : A.constraints = [(kA, cA)]) (hB : B.constraints = [(kB, cB)])
    (ho : cA.loc = cB.loc) (_hset : F ∈ cA.set_flag) (hhas : F ∈ cB.has_flag)
    (hF : ∀ t ∈ b.tile_map_.tiles_, F ∉ t.flags) :
    ∃ b1 log, build_terrains_log ext b = some (b1, log) ∧
      (∀ e ∈ log, e.1 = 0 ∨ e.1 = 1) ∧
      ∀ pre post a, log = pre ++ (1, a) :: post → (0, a) ∈ pre := by
  set tbt := build_terrain_by_type b.map_ b.terrain_by_type_ with htbt
  -- the pass over rule `A`
  obtain ⟨sA, hsA, hwfA, hIA, hidxA⟩ := build_rule_inv ext b.map_ tbt A 0
    (fun s => (∀ loc t, s.1.at loc = some t → F ∈ t.flags →
        ∃ a, (0, a) ∈ s.2 ∧ a.legacy_sum cA.loc = loc) ∧ ∀ e ∈ s.2, e.1 = 0)
    (by
      intro s a k tm1 hw hI hm ha
      have hon := rule_matches_on_map ext b.map_ s.1 hw A a 0 k hm (kA, cA) (by rw [hA]; simp)
      obtain ⟨t, ht, ht1, hother⟩ := apply_rule_single s.1 hw A kA cA hA a 0 hon tm1 ha
      refine ⟨?_, ?_⟩
      · intro loc t' hl hFt
        by_cases hloc : loc = a.legacy_sum cA.loc
        · exact ⟨a, by simp, hloc.symm⟩
        · rw [hother loc hloc] at hl
          obtain ⟨a', ha', hsum⟩ := hI.1 loc t' hl hFt
          exact ⟨a', List.mem_append_left _ ha', hsum⟩
      · intro e he
        rcases List.mem_append.mp he with he | he
        · exact hI.2 e he
        · simp only [List.mem_singleton] at he
          rw [he])
    (b.tile_map_, []) hwf
    ⟨fun loc t hl hFt => absurd hFt (hF t (at_mem_tiles _ _ _ hl)), by simp⟩
  -- the pass over rule `B`
  obtain ⟨sB, hsB, _, hIB, l1, hlog, hl1⟩ := build_rule_inv ext b.map_ tbt B 1
    (fun s => (∀ loc t, s.1.at loc = some t → F ∈ t.flags →
        ∃ a, (0, a) ∈ sA.2 ∧ a.legacy_sum cA.loc = loc) ∧
      ∃ l1, s.2 = sA.2 ++ l1 ∧ ∀ e ∈ l1, e.1 = 1 ∧ (0, e.2) ∈ sA.2)
    (by
      intro s a k tm1 hw hI hm ha
      have hok := rule_matches_constraint_ok ext b.map_ s.1 hw B a 1 k hm (kB, cB)
        (by rw [hB]; simp)
      obtain ⟨hon, _, t0, ht0, _, hhf⟩ := hok
      obtain ⟨t, ht, ht1, hother⟩ := apply_rule_single s.1 hw B kB cB hB a 1 hon tm1 ha
      have happlied : (0, a) ∈ sA.2 := by
        obtain ⟨a', ha', hsum⟩ := hI.1 _ t0 ht0 (hhf F hhas)
        rw [ho] at hsum
        rw [← legacy_sum_left_inj a' a cB.loc hsum]
        exact ha'
      refine ⟨?_, ?_⟩
      · intro loc t' hl hFt
        by_cases hloc : loc = a.legacy_sum cB.loc
        · exact ⟨a, happlied, by rw [ho]; exact hloc.symm⟩
        · rw [hother loc hloc] at hl
          exact hI.1 loc t' hl hFt
      · obtain ⟨l1, hl1, hall⟩ := hI.2
        refine ⟨l1 ++ [(1, a)], by rw [hl1, List.append_assoc], ?_⟩
        intro e he
        rcases List.mem_append.mp he with he | he
        · exact hall e he
        · simp only [List.mem_singleton] at he
          rw [he]
          exact ⟨rfl, happlied⟩)
    sA hwfA ⟨hIA, [], by simp, by simp⟩
  refine ⟨{ b with terrain_by_type_ := tbt, tile_map_ := sB.1 }, sB.2, ?_, ?_, ?_⟩
  · simp only [build_terrains_log, hrules, build_rules, ← htbt, hsA, zero_add, hsB]
  · intro e he
    rw [hlog] at he
    rcases List.mem_append.mp he with he | he
    · exact Or.inl (hidxA e he)
    · exact Or.inr (hl1 e he).1
  · intro pre post a hsplit
    rw [hlog] at hsplit
    rcases List.append_eq_append_iff.mp hsplit with ⟨m, hpre, hm⟩ | ⟨m, hpre, hm⟩
    · rw [hpre]
      apply List.mem_append_left
      exact (hl1 (1, a) (by rw [hm]; simp)).2
    · cases m with
      | nil =>
        simp only [List.nil_append, List.append_nil] at hm hpre
        rw [← hpre]
        exact (hl1 (1, a) (by rw [← hm]; simp)).2
      | cons e m' =>
        simp only [List.cons_append, List.cons.injEq] at hm
        have : ((1 : Int), a) ∈ sA.2 := by rw [hpre, hm.1]; simp
        have := hidxA _ this
        simp at this

/-- C6 witness: on the 1x1 grid the first rule is applied at `(0, 0)` only and the
second rule, which needs the flag `F`, is applied there only, afterwards. -/
theorem same_precedence_coupling_witness :
    sample_builder_coupled.tile_map_.wf ∧
    (∀ t ∈ sample_builder_coupled.tile_map_.tiles_, "F" ∉ t.flags) ∧
    ∃ b1 log, build_terrains_log sample_externals sample_builder_coupled = some (b1, log) ∧
      log = [(0, ⟨0, 0⟩), (1, ⟨0, 0⟩)] ∧
      ∀ pre post a, log = pre ++ (1, a) :: post → (0, a) ∈ pre := by
  have hF : ∀ t ∈ sample_builder_coupled.tile_map_.tiles_, "F" ∉ t.flags := by decide
  refine ⟨by decide, hF, ?_⟩
  obtain ⟨b1, log, h, _, hord⟩ :=
    same_precedence_coupling sample_externals sample_builder_coupled 3
      sample_rule_sets sample_rule_needs ⟨0, 0⟩ ⟨0, 0⟩ _ _ "F"
      (by decide) rfl rfl rfl rfl (by decide) (by decide) hF
  refine ⟨b1, log, h, ?_, hord⟩
  have hval : (build_terrains_log sample_externals sample_builder_coupled).map Prod.snd =
      some [(0, ⟨0, 0⟩), (1, ⟨0, 0⟩)] := by decide
  rw [h] at hval
  exact Option.some.inj hval

/-! ### The minimal-constraint search and the range of the index -/

/-- C4 (divergence): on the 1x1 map whose cells all hold terrain 7, with the sample rule
(one constraint at offset `(0, 0)` accepting terrain 7), the anchor `(2, 0)` is
addressable and satisfies the full match condition, so the reference search accepts
it; the index built by `build_terrains` stops at `x = w = 1`, so the optimised search
never tests it, and after the whole pass the rule has been applied at `(1, 0)` but not
at `(2, 0)`, whose tile holds no image. -/
theorem optimised_search_misses_margin :
    sample_tilemap.on_map ⟨2, 0⟩ = true ∧
    reference_accepts sample_externals sample_map sample_tilemap sample_rule 0 ⟨2, 0⟩ = true ∧
    (⟨2, 0⟩ : map_location) ∉
      optimised_accepts sample_externals sample_map
        (build_terrain_by_type sample_map []) sample_tilemap sample_rule 0 ∧
    (⟨1, 0⟩ : map_location) ∈
      optimised_accepts sample_externals sample_map
        (build_terrain_by_type sample_map []) sample_tilemap sample_rule 0 ∧
    (build_terrains_log sample_externals sample_builder).map
        (fun r => (decide (((0 : Int), (⟨1, 0⟩ : map_location)) ∈ r.2),
                   decide (((0 : Int), (⟨2, 0⟩ : map_location)) ∈ r.2))) = some (true, false) ∧
    ((build_terrains_log sample_externals sample_builder).bind
        (fun r => r.1.tile_map_.at ⟨2, 0⟩)).map (fun t => t.images) = some [] := by
  refine ⟨by decide, by decide, by decide, by decide, by decide, by decide⟩

theorem sort_images_cases (t : tile) :
    (t.sorted_images = true ∧
      t.sort_images = { t with images_background := [], images_foreground := [] }) ∨
    (t.sorted_images = false ∧
      t.sort_images =
        { t with
          images_background := [], images_foreground := [],
          images := stable_sort t.images, sorted_images := true }) := by
  cases hs : t.sorted_images
  · right
    exact ⟨rfl, by simp [tile.sort_images, hs]⟩
  · left
    exact ⟨rfl, by simp [tile.sort_images, hs]⟩

theorem rebuild_cache_total (ext : externals) (t : tile) (tod : String) :
    ((∀ e ∈ t.images, ∀ v ∈ e.ri.variants, to_unsigned v.image.get_animation_duration ≠ 0) →
      ∃ t1, t.rebuild_cache ext tod = some t1) ∧
    ∀ t1, t.rebuild_cache ext tod = some t1 →
      t1.flags = t.flags ∧ t1.last_tod = t.last_tod ∧ t1.sorted_images = true ∧
      t1.images.Perm t.images := by
  have hall : t.sort_images.images.Perm t.images ∧ t.sort_images.sorted_images = true ∧
      t.sort_images.flags = t.flags ∧ t.sort_images.last_tod = t.last_tod := by
    rcases sort_images_cases t with ⟨hs, he⟩ | ⟨hs, he⟩
    · rw [he]; exact ⟨List.Perm.refl _, hs, rfl, rfl⟩
    · rw [he]; exact ⟨stable_sort_perm _, rfl, rfl, rfl⟩
  obtain ⟨himgs, hflag, hfl, htd⟩ := hall
  constructor
  · intro hd
    apply rebuild_cache_loop_some
    intro e he
    exact hd e (himgs.mem_iff.mp he)
  · intro t1 h1
    obtain ⟨h1i, h1s, h1f, h1t⟩ := rebuild_cache_loop_images ext tod _ _ _ h1
    exact ⟨h1f.trans hfl, h1t.trans htd, h1s.trans hflag, h1i ▸ himgs⟩

/-! ### The rule store: flushing local rules -/

theorem flush_local_rules_eq_filter (rules : building_ruleset) :
    flush_local_rules rules = rules.filter (fun e => !e.2.local_) := by
  induction rules with
  | nil => rfl
  | cons e rest ih =>
    rw [flush_local_rules, ih, List.filter_cons]
    cases e.2.local_ <;> simp

/-- C20: `flush_local_rules` removes exactly the rules whose local flag is set: what
remains is the store filtered on "not local" (so every non-local entry is kept with its
precedence and content, as often as it occurred and in the same relative order), no
remaining rule is local, and flushing a second time changes nothing. -/
theorem flush_local_rules_spec (rules : building_ruleset) :
    flush_local_rules rules = rules.filter (fun e => !e.2.local_) ∧
    (∀ e, e ∈ flush_local_rules rules ↔ e ∈ rules ∧ e.2.local_ = false) ∧
    (flush_local_rules rules).Sublist rules ∧
    flush_local_rules (flush_local_rules rules) = flush_local_rules rules := by
  have h := flush_local_rules_eq_filter rules
  refine ⟨h, ?_, ?_, ?_⟩
  · intro e
    rw [h, List.mem_filter]
    simp
  · rw [h]
    exact List.filter_sublist rules
  · rw [flush_local_rules_eq_filter (flush_local_rules rules), h, List.filter_filter]
    simp

/-! ### The render list builder: the cached time of day -/

theorem set_at_self (tm : tilemap) (loc : map_location) (t : tile)
    (h : tm.at loc = some t) : tm.set loc t = tm := by
  unfold tilemap.at at h
  split_ifs at h
  have hset : tm.tiles_.set (tm.index loc).toNat t = tm.tiles_ := by
    apply List.ext_getElem?
    intro j
    rw [List.getElem?_set]
    split_ifs with h1 h2
    · rw [← h1, h]
    · rw [← h1]
      rw [List.getElem?_eq_none_iff.mpr (by omega)] at h
      cases h
    · rfl
  cases tm
  simp only [tilemap.set, tilemap.mk.injEq, and_true] at hset ⊢
  exact hset

/-- C11: at an addressable location, `get_terrain_at` rebuilds the derived lists of the
cell if and only if `tod` differs from the cached label. When `tod` is the cached label
the call returns the cached list and leaves the whole state unchanged. When it differs,
the call is `rebuild_cache(tod)` on the cell followed by storing `tod` as the cached
label (it returns whenever `rebuild_cache` does, which it does when no variant has a
zero duration); the list handed out is read from the rebuilt cell, every other tile is
unchanged, and a second call with the same `tod` returns the same list and changes
nothing. -/
theorem get_terrain_at_cached (ext : externals) (b : builder) (loc : map_location)
    (tod : String) (terrain_type : TERRAIN_TYPE) (hwf : b.tile_map_.wf)
    (hon : b.tile_map_.on_map loc = true) :
    ∃ tile_at, b.tile_map_.at loc = some tile_at ∧
      (tod = tile_at.last_tod →
        get_terrain_at ext b loc tod terrain_type =
          some (image_list_result tile_at terrain_type, b)) ∧
      (tod ≠ tile_at.last_tod →
        get_terrain_at ext b loc tod terrain_type =
          (tile_at.rebuild_cache ext tod).map (fun t1 =>
            (image_list_result { t1 with last_tod := tod } terrain_type,
             { b with tile_map_ := b.tile_map_.set loc { t1 with last_tod := tod } })) ∧
        ((∀ e ∈ tile_at.images, ∀ v ∈ e.ri.variants,
            to_unsigned v.image.get_animation_duration ≠ 0) →
          ∃ t1, tile_at.rebuild_cache ext tod = some t1) ∧
        ∀ r b1, get_terrain_at ext b loc tod terrain_type = some (r, b1) →
          (∃ t1, tile_at.rebuild_cache ext tod = some t1 ∧
            b1.tile_map_.at loc = some { t1 with last_tod := tod } ∧
            r = image_list_result { t1 with last_tod := tod } terrain_type) ∧
          (∀ l, l ≠ loc → b1.tile_map_.at l = b.tile_map_.at l) ∧
          b1.map_ = b.map_ ∧ b1.building_rules_ = b.building_rules_ ∧
          b1.terrain_by_type_ = b.terrain_by_type_ ∧
          get_terrain_at ext b1 loc tod terrain_type = some (r, b1)) := by
  obtain ⟨tile_at, hat⟩ := at_some_of_on_map b.tile_map_ hwf loc hon
  have hsame : ∀ (b0 : builder) (t0 : tile), b0.tile_map_.on_map loc = true →
      b0.tile_map_.at loc = some t0 → tod = t0.last_tod →
      get_terrain_at ext b0 loc tod terrain_type =
        some (image_list_result t0 terrain_type, b0) := by
    intro b0 t0 hon0 hat0 htod
    have hset := set_at_self b0.tile_map_ loc t0 hat0
    have hb : ({ b0 with tile_map_ := b0.tile_map_.set loc t0 } : builder) = b0 := by
      rw [hset]
    simp only [get_terrain_at, hon0, hat0, htod, bne_self_eq_false, Bool.not_true,
      Bool.false_eq_true, if_false, hb, image_list_result]
    split_ifs <;> rfl
  have hdiff : tod ≠ tile_at.last_tod →
      get_terrain_at ext b loc tod terrain_type =
        (tile_at.rebuild_cache ext tod).map (fun t1 =>
          (image_list_result { t1 with last_tod := tod } terrain_type,
           { b with tile_map_ := b.tile_map_.set loc { t1 with last_tod := tod } })) := by
    intro htod
    have hne : (tod != tile_at.last_tod) = true := by simpa using htod
    simp only [get_terrain_at, hon, hat, hne, Bool.not_true, Bool.false_eq_true, if_false,
      if_true, image_list_result]
    cases tile_at.rebuild_cache ext tod with
    | none => rfl
    | some t1 =>
      simp only [Option.map_some']
      split_ifs <;> rfl
  refine ⟨tile_at, hat, hsame b tile_at hon hat, ?_⟩
  intro htod
  refine ⟨hdiff htod, ?_, ?_⟩
  · intro hd
    obtain ⟨hret, _⟩ := rebuild_cache_total ext tile_at tod
    exact hret hd
  · intro r b1 hget
    rw [hdiff htod] at hget
    cases hrc : tile_at.rebuild_cache ext tod with
    | none => rw [hrc] at hget; cases hget
    | some t1 =>
      rw [hrc] at hget
      simp only [Option.map_some', Option.some.injEq, Prod.mk.injEq] at hget
      obtain ⟨hr, hb1⟩ := hget
      subst hb1
      have hat1 := at_set_same b.tile_map_ hwf loc { t1 with last_tod := tod } hon
      refine ⟨⟨t1, rfl, hat1, hr.symm⟩, ?_, rfl, rfl, rfl, ?_⟩
      · intro l hl
        exact at_set_other b.tile_map_ loc _ l hon hl
      · rw [← hr]
        exact hsame _ { t1 with last_tod := tod } (by rw [set_on_map]; exact hon) hat1 rfl

/-- C11 witness: the 1x1 sample builder at `(0, 0)`; with the cached label the call
returns the cached list and the unchanged state. -/
theorem get_terrain_at_cached_witness :
    sample_builder.tile_map_.wf ∧ sample_builder.tile_map_.on_map ⟨0, 0⟩ = true ∧
    ∃ tile_at, sample_builder.tile_map_.at ⟨0, 0⟩ = some tile_at ∧
      ("invalid_tod" = tile_at.last_tod →
        get_terrain_at sample_externals sample_builder ⟨0, 0⟩ "invalid_tod"
            TERRAIN_TYPE.FOREGROUND =
          some (image_list_result tile_at TERRAIN_TYPE.FOREGROUND, sample_builder)) := by
  refine ⟨by decide, by decide, ?_⟩
  obtain ⟨t, h1, h2, _⟩ :=
    get_terrain_at_cached sample_externals sample_builder ⟨0, 0⟩ "invalid_tod"
      TERRAIN_TYPE.FOREGROUND (by decide) (by decide)
  exact ⟨t, h1, h2⟩

/-! ### The rule store: acceptance of a rule -/

theorem image_from_config_variants (ext : externals) (global : Bool) (dx dy : Int)
    (img : config) :
    (image_from_config ext global dx dy img).variants =
      (img.child_range "variant").map (fun variant =>
        rule_image_variant.make ext (variant.get "name") (variant.get "tod")
          (ext.to_int (variant.get "probability") 100)) ++
      [rule_image_variant.make_default ext (img.get "name")] := by
  have hfold : ∀ (l : List config) (r : rule_image),
      (l.foldl (fun (r : rule_image) variant =>
        { r with variants := r.variants ++
            [rule_image_variant.make ext (variant.get "name") (variant.get "tod")
              (ext.to_int (variant.get "probability") 100)] }) r).variants =
        r.variants ++ l.map (fun variant =>
          rule_image_variant.make ext (variant.get "name") (variant.get "tod")
            (ext.to_int (variant.get "probability") 100)) := by
    intro l
    induction l with
    | nil => intro r; simp
    | cons v rest ih => intro r; simp [ih]
  simp only [image_from_config, hfold, List.nil_append]

theorem add_images_from_config_eq (ext : externals) (images : List rule_image) (cfg : config)
    (global : Bool) (dx dy : Int) :
    add_images_from_config ext images cfg global dx dy =
      images ++ (cfg.child_range "image").map (image_from_config ext global dx dy) := by
  unfold add_images_from_config
  generalize cfg.child_range "image" = l
  induction l generalizing images with
  | nil => simp
  | cons img rest ih => simp [ih]

theorem variant_walk_of_keys (tod : String) (vs : List rule_image_variant) :
    ∀ (ks : List (List String × Int)) (p r : Int), r ≤ 100 → 100 ≤ p →
      variant_keys vs = ks ++ [([], p)] → (∀ k ∈ ks, 0 ≤ k.2) →
      ∃ v ∈ vs, variant_walk tod r vs = some v := by
  induction vs with
  | nil =>
    intro ks p r _ _ hk _
    simp [variant_keys] at hk
  | cons u rest ih =>
    intro ks p r hr hp hk hnn
    rw [variant_walk]
    cases ks with
    | nil =>
      simp only [variant_keys, List.map_cons, List.nil_append, List.cons.injEq,
        Prod.mk.injEq, List.map_eq_nil_iff] at hk
      obtain ⟨⟨htods, hprob⟩, _⟩ := hk
      have h1 : (!u.tods.isEmpty && !u.tods.contains tod) = false := by simp [htods]
      have h2 : ¬ r > u.probability := by omega
      simp only [h1, Bool.false_eq_true, if_false, h2]
      exact ⟨u, List.mem_cons_self _ _, rfl⟩
    | cons k ks' =>
      simp only [variant_keys, List.map_cons, List.cons_append, List.cons.injEq] at hk
      obtain ⟨hu, hrest⟩ := hk
      have hk0 : 0 ≤ k.2 := hnn k (List.mem_cons_self _ _)
      have hup : u.probability = k.2 := by rw [← hu]
      split_ifs with h1 h2
      · obtain ⟨v, hv, hw⟩ := ih ks' p r hr hp hrest
          (fun k' hk' => hnn k' (List.mem_cons_of_mem _ hk'))
        exact ⟨v, List.mem_cons_of_mem _ hv, hw⟩
      · obtain ⟨v, hv, hw⟩ := ih ks' p (r - u.probability) (by omega) hp hrest
          (fun k' hk' => hnn k' (List.mem_cons_of_mem _ hk'))
        exact ⟨v, List.mem_cons_of_mem _ hv, hw⟩
      · exact ⟨u, List.mem_cons_self _ _, rfl⟩

theorem image_from_config_keys (ext : externals) (global : Bool) (dx dy : Int)
    (img : config) :
    variant_keys (image_from_config ext global dx dy img).variants =
      variant_keys ((img.child_range "variant").map (fun variant =>
        rule_image_variant.make ext (variant.get "name") (variant.get "tod")
          (ext.to_int (variant.get "probability") 100))) ++ [([], 100)] := by
  rw [image_from_config_variants]
  have he : ("" : String).isEmpty = true := by decide
  simp [variant_keys, rule_image_variant.make_default, rule_image_variant.make, he]

theorem rebuild_cache_entry_one (ext : externals) (tod : String) (t : tile)
    (ri : rule_image_rand) (v : rule_image_variant)
    (hw : variant_walk tod ((ri.rand % 100 + 1 : Nat) : Int) ri.ri.variants = some v)
    (hd : to_unsigned v.image.get_animation_duration ≠ 0) :
    ∃ t1 img, rebuild_cache_entry ext tod t ri = some t1 ∧ img.frames = v.image.frames ∧
      ((t1.images_background = t.images_background ++ [img] ∧
          t1.images_foreground = t.images_foreground) ∨
       (t1.images_foreground = t.images_foreground ++ [img] ∧
          t1.images_background = t.images_background)) := by
  rcases rebuild_cache_entry_cases ext tod t ri with ⟨hn, _⟩ | ⟨u, hu, h0, _⟩ |
    ⟨u, img, hu, _, himg, ⟨_, he⟩ | ⟨_, he⟩⟩
  · rw [hw] at hn; cases hn
  · rw [hw] at hu; cases hu; exact absurd h0 hd
  · rw [hw] at hu; cases hu
    exact ⟨_, img, he, by rw [himg], Or.inl ⟨rfl, rfl⟩⟩
  · rw [hw] at hu; cases hu
    exact ⟨_, img, he, by rw [himg], Or.inr ⟨rfl, rfl⟩⟩

/-- C13: `add_images_from_config` appends one image reference for every `image` node,
in order; the variants of each are the configured variants in order followed by the
default variant, which has no time-of-day label and weight 100, so there is at least
one variant. For every image reference with these labels and weights (the reference
itself, or the same reference once its images are loaded), provided no configured
weight is negative, the variant loop of `tile::rebuild_cache` selects a variant for
every seed and every time of day, and the raw entry then contributes exactly one image
to the background list or to the foreground list (the animation of the selected
variant having a non-zero duration). -/
theorem images_from_config_select (ext : externals) (images : List rule_image) (cfg : config)
    (global : Bool) (dx dy : Int) :
    add_images_from_config ext images cfg global dx dy =
      images ++ (cfg.child_range "image").map (image_from_config ext global dx dy) ∧
    ∀ img ∈ cfg.child_range "image",
      (image_from_config ext global dx dy img).variants =
        (img.child_range "variant").map (fun variant =>
          rule_image_variant.make ext (variant.get "name") (variant.get "tod")
            (ext.to_int (variant.get "probability") 100)) ++
        [rule_image_variant.make_default ext (img.get "name")] ∧
      (rule_image_variant.make_default ext (img.get "name")).tods = [] ∧
      (rule_image_variant.make_default ext (img.get "name")).probability = 100 ∧
      (image_from_config ext global dx dy img).variants ≠ [] ∧
      ∀ ri : rule_image,
        variant_keys ri.variants =
          variant_keys (image_from_config ext global dx dy img).variants →
        (∀ variant ∈ img.child_range "variant",
          0 ≤ ext.to_int (variant.get "probability") 100) →
        ∀ (seed : Nat) (tod : String),
          ∃ v ∈ ri.variants,
            variant_walk tod ((seed % 100 + 1 : Nat) : Int) ri.variants = some v ∧
            ∀ (ext1 : externals) (t : tile),
              to_unsigned v.image.get_animation_duration ≠ 0 →
              ∃ t1 image, rebuild_cache_entry ext1 tod t ⟨ri, seed⟩ = some t1 ∧
                image.frames = v.image.frames ∧
                ((t1.images_background = t.images_background ++ [image] ∧
                    t1.images_foreground = t.images_foreground) ∨
                 (t1.images_foreground = t.images_foreground ++ [image] ∧
                    t1.images_background = t.images_background)) := by
  refine ⟨add_images_from_config_eq ext images cfg global dx dy, ?_⟩
  intro img _
  have hvars := image_from_config_variants ext global dx dy img
  have hempty : ("" : String).isEmpty = true := by decide
  refine ⟨hvars, ?_, rfl, ?_, ?_⟩
  · simp [rule_image_variant.make_default, rule_image_variant.make, hempty]
  · rw [hvars]; simp
  · intro ri hkeys hnn seed tod
    rw [image_from_config_keys] at hkeys
    have hr : ((seed % 100 + 1 : Nat) : Int) ≤ 100 := by
      have := Nat.mod_lt seed (by decide : 100 > 0)
      omega
    obtain ⟨v, hv, hw⟩ := variant_walk_of_keys tod ri.variants _ 100
      ((seed % 100 + 1 : Nat) : Int) hr (le_refl _) hkeys (by
        intro k hk
        simp only [variant_keys, List.map_map, List.mem_map, Function.comp] at hk
        obtain ⟨variant, hvar, rfl⟩ := hk
        exact hnn variant hvar)
    refine ⟨v, hv, hw, ?_⟩
    intro ext1 t hd
    exact rebuild_cache_entry_one ext1 tod t ⟨ri, seed⟩ v hw hd

/-- C13 witness: the description with one configured variant of weight 80; with the
seed 84 (`r = 85`) the loop passes the configured variant and selects the default
one. -/
theorem images_from_config_select_witness :
    (∀ variant ∈ (config.mk [("name", "main.png"), ("layer", "0")]
        [("variant", .mk [("name", "alt.png"), ("probability", "80")] [])]).child_range
          "variant",
      0 ≤ sample_externals.to_int (variant.get "probability") 100) ∧
    ∃ ri, add_images_from_config sample_externals [] sample_image_config_weighted false 0 0
        = [ri] ∧
      variant_walk "dawn" ((84 % 100 + 1 : Nat) : Int) ri.variants =
        some (rule_image_variant.make_default sample_externals "main.png") ∧
      ∃ v ∈ ri.variants,
        variant_walk "dusk" ((7 % 100 + 1 : Nat) : Int) ri.variants = some v := by
  have hnn : ∀ variant ∈ (config.mk [("name", "main.png"), ("layer", "0")]
        [("variant", .mk [("name", "alt.png"), ("probability", "80")] [])]).child_range
          "variant",
      0 ≤ sample_externals.to_int (variant.get "probability") 100 := by
    intro variant hv
    simp only [config.child_range, config.children, List.filter_cons, List.filter_nil,
      List.map_cons, List.map_nil] at hv
    have : variant = .mk [("name", "alt.png"), ("probability", "80")] [] := by
      simpa using hv
    subst this
    decide
  refine ⟨hnn, _, rfl, by decide, ?_⟩
  obtain ⟨v, hv, hw, _⟩ :=
    (images_from_config_select sample_externals [] sample_image_config_weighted false 0 0).2
      (.mk [("name", "main.png"), ("layer", "0")]
        [("variant", .mk [("name", "alt.png"), ("probability", "80")] [])])
      (by simp [sample_image_config_weighted, config.child_range, config.children])
      |>.2.2.2.2 _ rfl hnn 7 "dusk"
  exact ⟨v, hv, hw⟩

/-- C13 counterexample: a configured variant of weight `-50`; with the seed 60
(`r = 61`) the loop leaves the configured variant with 111, leaves the default variant
with 11 and ends without selecting any variant. -/
theorem negative_weight_selects_none :
    ∃ ri, add_images_from_config sample_externals [] sample_image_config false 0 0 = [ri] ∧
      variant_keys ri.variants = [([], -50), ([], 100)] ∧
      variant_walk "dawn" ((60 % 100 + 1 : Nat) : Int) ri.variants = none :=
  ⟨_, rfl, by decide, by decide⟩

/-! ### Rotated rules -/

theorem add_rule_no_constraints (ext : externals) (rules : building_ruleset)
    (rule : building_rule) (precedence : Int) (h : rule.constraints = []) :
    add_rule ext rules rule precedence = some rules := by
  simp [add_rule, load_images, h]

theorem rotate_rule_malformed (ext : externals) (fuel : Nat) (rule : building_rule)
    (angle : Nat) (rot : List String) (h : rot.length ≠ 6) :
    rotate_rule ext fuel rule angle rot = some (building_rule.mk0 ext) := by
  simp [rotate_rule, h]

theorem add_rotated_loop_malformed (ext : externals) (fuel : Nat) (tpl : building_rule)
    (precedence : Int) (rot : List String) (h : rot.length ≠ 6) (rules : building_ruleset) :
    ∀ count angle, add_rotated_loop ext fuel tpl precedence rot count angle rules = some rules := by
  intro count
  induction count with
  | zero => intro angle; rfl
  | succ n ih =>
    intro angle
    rw [add_rotated_loop, rotate_rule_malformed ext fuel tpl angle rot h]
    simp only [add_rule_no_constraints ext rules (building_rule.mk0 ext) precedence rfl]
    exact ih (angle + 1)

/-- C16: for every rule template and every non-empty rotations string whose list of
rotation names has a length other than 6, `add_rotated_rules` returns the ruleset
unchanged: for every angle `rotate_rule` returns a rule without constraints and
`add_rule` rejects it. -/
theorem malformed_rotations_add_nothing (ext : externals) (fuel : Nat)
    (rules : building_ruleset) (tpl : building_rule) (precedence : Int) (rotations : String)
    (hne : rotations.isEmpty = false) (hlen : (ext.split rotations ',').length ≠ 6) :
    add_rotated_rules ext fuel rules tpl precedence rotations = some rules ∧
    ∀ angle, ∃ rule, rotate_rule ext fuel tpl angle (ext.split rotations ',') = some rule ∧
      rule.constraints = [] ∧ add_rule ext rules rule precedence = some rules := by
  constructor
  · simp only [add_rotated_rules, hne, Bool.false_eq_true, if_false]
    exact add_rotated_loop_malformed ext fuel tpl precedence _ hlen rules _ 0
  · intro angle
    exact ⟨_, rotate_rule_malformed ext fuel tpl angle _ hlen, rfl,
      add_rule_no_constraints ext rules _ precedence rfl⟩

/-- C16 witness: the rotations string `n,ne,se` with the sample externals, whose split
yields a single name. -/
theorem malformed_rotations_add_nothing_witness :
    ("n,ne,se" : String).isEmpty = false ∧
    (sample_externals.split "n,ne,se" ',').length ≠ 6 ∧
    add_rotated_rules sample_externals 0 [(0, sample_rule)] sample_rule 2 "n,ne,se" =
      some [(0, sample_rule)] :=
  ⟨by decide, by decide,
    (malformed_rotations_add_nothing sample_externals 0 [(0, sample_rule)] sample_rule 2
      "n,ne,se" (by decide) (by decide)).1⟩

/-! ### Rotation: the normalising translation -/

theorem mem_constraint_set_assign (cs : constraint_set) (key : map_location)
    (value : terrain_constraint) (e : map_location × terrain_constraint)
    (h : e ∈ constraint_set_assign cs key value) : e = (key, value) ∨ e ∈ cs := by
  induction cs with
  | nil =>
    simp only [constraint_set_assign, List.mem_singleton] at h
    exact Or.inl h
  | cons kv rest ih =>
    obtain ⟨k, v⟩ := kv
    rw [constraint_set_assign] at h
    split_ifs at h with h1 h2
    · rcases List.mem_cons.mp h with h | h
      · left; rw [h, h1]
      · right; exact List.mem_cons_of_mem _ h
    · rcases List.mem_cons.mp h with h | h
      · exact Or.inl h
      · exact Or.inr h
    · rcases List.mem_cons.mp h with h | h
      · right; rw [h]; exact List.mem_cons_self _ _
      · rcases ih h with h | h
        · exact Or.inl h
        · exact Or.inr (List.mem_cons_of_mem _ h)

theorem constraint_set_assign_mem (cs : constraint_set) (key : map_location)
    (value : terrain_constraint) : (key, value) ∈ constraint_set_assign cs key value := by
  induction cs with
  | nil => simp [constraint_set_assign]
  | cons kv rest ih =>
    obtain ⟨k, v⟩ := kv
    rw [constraint_set_assign]
    split_ifs with h1 h2
    · rw [h1]; exact List.mem_cons_self _ _
    · exact List.mem_cons_self _ _
    · exact List.mem_cons_of_mem _ ih

theorem constraint_set_assign_keeps_key (cs : constraint_set) (key : map_location)
    (value : terrain_constraint) (k0 : map_location) (h : ∃ e ∈ cs, e.1 = k0) :
    ∃ e ∈ constraint_set_assign cs key value, e.1 = k0 := by
  induction cs with
  | nil => obtain ⟨e, he, _⟩ := h; cases he
  | cons kv rest ih =>
    obtain ⟨k, v⟩ := kv
    obtain ⟨e, he, hk⟩ := h
    rw [constraint_set_assign]
    split_ifs with h1 h2
    · rcases List.mem_cons.mp he with rfl | he
      · exact ⟨(k, value), List.mem_cons_self _ _, hk⟩
      · exact ⟨e, List.mem_cons_of_mem _ he, hk⟩
    · exact ⟨e, List.mem_cons_of_mem _ he, hk⟩
    · rcases List.mem_cons.mp he with rfl | he
      · exact ⟨(k, v), List.mem_cons_self _ _, hk⟩
      · obtain ⟨e', he', hk'⟩ := ih ⟨e, he, hk⟩
        exact ⟨e', List.mem_cons_of_mem _ he', hk'⟩

/-- The constraint sets built by assigning, for every element of a list, a value under
the key `key c`: every entry comes from an element of the list and every element of the
list has its key in the result. -/
theorem foldl_assign_spec (l : List (map_location × terrain_constraint))
    (key : map_location × terrain_constraint → map_location)
    (value : map_location × terrain_constraint → terrain_constraint) :
    ∀ acc : constraint_set,
      (∀ e ∈ l.foldl (fun a c => constraint_set_assign a (key c) (value c)) acc,
        e ∈ acc ∨ ∃ c ∈ l, e = (key c, value c)) ∧
      (∀ c ∈ l, ∃ e ∈ l.foldl (fun a c => constraint_set_assign a (key c) (value c)) acc,
        e.1 = key c) ∧
      (∀ e ∈ acc, ∃ e1 ∈ l.foldl (fun a c => constraint_set_assign a (key c) (value c)) acc,
        e1.1 = e.1) := by
  induction l with
  | nil =>
    intro acc
    refine ⟨fun e he => Or.inl he, ?_, fun e he => ⟨e, he, rfl⟩⟩
    intro c hc
    cases hc
  | cons c rest ih =>
    intro acc
    obtain ⟨h1, h2, h3⟩ := ih (constraint_set_assign acc (key c) (value c))
    refine ⟨?_, ?_, ?_⟩
    · intro e he
      rcases h1 e he with h | ⟨c', hc', rfl⟩
      · rcases mem_constraint_set_assign acc _ _ e h with h | h
        · exact Or.inr ⟨c, List.mem_cons_self _ _, h⟩
        · exact Or.inl h
      · exact Or.inr ⟨c', List.mem_cons_of_mem _ hc', rfl⟩
    · intro c' hc'
      rcases List.mem_cons.mp hc' with rfl | hc'
      · exact h3 _ (constraint_set_assign_mem acc _ _)
      · exact h2 c' hc'
    · intro e he
      obtain ⟨e0, he0, hk0⟩ := constraint_set_assign_keeps_key acc (key c) (value c) e.1
        ⟨e, he, rfl⟩
      obtain ⟨e1, he1, hk1⟩ := h3 e0 he0
      exact ⟨e1, he1, hk1.trans hk0⟩

theorem rotate_constraints_spec (ext : externals) (angle : Nat) (cs : constraint_set) :
    (∀ e ∈ rotate_constraints ext angle cs,
      ∃ c ∈ cs, e = ((rotate ext c.2 angle).loc, rotate ext c.2 angle)) ∧
    (∀ c ∈ cs, ∃ e ∈ rotate_constraints ext angle cs, e.1 = (rotate ext c.2 angle).loc) := by
  obtain ⟨h1, h2, _⟩ := foldl_assign_spec cs (fun c => (rotate ext c.2 angle).loc)
    (fun c => rotate ext c.2 angle) []
  refine ⟨?_, h2⟩
  intro e he
  rcases h1 e he with h | h
  · cases h
  · exact h

theorem normalize_constraints_spec (tmp : constraint_set) (minx miny : Int) :
    (∀ e ∈ normalize_constraints tmp minx miny,
      ∃ c ∈ tmp, e.2.loc = c.2.loc.legacy_sum ⟨-minx, -(Int.tdiv (miny - 1) 2)⟩ ∧
        e.1 = e.2.loc) ∧
    (∀ c ∈ tmp, ∃ e ∈ normalize_constraints tmp minx miny,
      e.1 = c.2.loc.legacy_sum ⟨-minx, -(Int.tdiv (miny - 1) 2)⟩ ∧ e.1 = e.2.loc) := by
  obtain ⟨h1, h2, _⟩ := foldl_assign_spec tmp
    (fun c => c.2.loc.legacy_sum ⟨-minx, -(Int.tdiv (miny - 1) 2)⟩)
    (fun c => { c.2 with loc := c.2.loc.legacy_sum ⟨-minx, -(Int.tdiv (miny - 1) 2)⟩ }) []
  have hall : ∀ e ∈ normalize_constraints tmp minx miny,
      ∃ c ∈ tmp, e.2.loc = c.2.loc.legacy_sum ⟨-minx, -(Int.tdiv (miny - 1) 2)⟩ ∧
        e.1 = e.2.loc := by
    intro e he
    rcases h1 e he with h | ⟨c, hc, rfl⟩
    · cases h
    · exact ⟨c, hc, rfl, rfl⟩
  refine ⟨hall, ?_⟩
  intro c hc
  obtain ⟨e, he, hk⟩ := h2 c hc
  obtain ⟨_, _, _, hkey⟩ := hall e he
  exact ⟨e, he, hk, hkey⟩

theorem map_all_inv {α : Type} (P : α → Prop) (f : α → Option α)
    (hf : ∀ a, P a → ∃ b, f a = some b ∧ P b) (l : List α) (hl : ∀ a ∈ l, P a) :
    ∃ l1, map_all f l = some l1 ∧ ∀ b ∈ l1, P b := by
  induction l with
  | nil => exact ⟨[], rfl, by simp⟩
  | cons a rest ih =>
    obtain ⟨b, hb, hPb⟩ := hf a (hl a (List.mem_cons_self _ _))
    obtain ⟨l1, h1, hP1⟩ := ih (fun x hx => hl x (List.mem_cons_of_mem _ hx))
    refine ⟨b :: l1, by simp only [map_all, hb, h1], ?_⟩
    intro x hx
    rcases List.mem_cons.mp hx with rfl | hx
    · exact hPb
    · exact hP1 x hx

theorem map_all_map {α β : Type} (f : α → Option α) (g : α → β)
    (hf : ∀ a b, f a = some b → g b = g a) (l : List α) :
    ∀ l1, map_all f l = some l1 → l1.map g = l.map g := by
  induction l with
  | nil => intro l1 h; cases h; rfl
  | cons a rest ih =>
    intro l1 h
    rw [map_all] at h
    cases ha : f a with
    | none => rw [ha] at h; cases h
    | some b =>
      rw [ha] at h
      cases hr : map_all f rest with
      | none => rw [hr] at h; cases h
      | some rest1 =>
        rw [hr] at h
        cases h
        simp only [List.map_cons, hf a b ha, ih rest1 hr]

theorem replace_token_rule_offsets (fuel : Nat) (rule ret : building_rule)
    (token replacement : String)
    (h : replace_token_rule fuel rule token replacement = some ret) :
    constraint_offsets ret.constraints = constraint_offsets rule.constraints ∧
    ret.location_constraints = rule.location_constraints ∧
    ret.probability = rule.probability ∧ ret.local_ = rule.local_ := by
  unfold replace_token_rule at h
  cases hm : map_all (replace_token_constraint fuel token replacement) rule.constraints with
  | none => rw [hm] at h; cases h
  | some cs =>
    rw [hm] at h
    cases h
    refine ⟨?_, rfl, rfl, rfl⟩
    apply map_all_map _ _ _ _ _ hm
    intro a b hab
    unfold replace_token_constraint at hab
    split at hab
    · cases hab
    · split at hab
      · cases hab
      · split at hab
        · cases hab
        · split at hab
          · cases hab
          · cases hab; rfl

theorem replace_rotation_tokens_offsets (fuel angle : Nat) (rot : List String)
    (is : List Nat) :
    ∀ rule ret, replace_rotation_tokens fuel angle rot is rule = some ret →
      constraint_offsets ret.constraints = constraint_offsets rule.constraints ∧
      ret.location_constraints = rule.location_constraints ∧
      ret.probability = rule.probability ∧ ret.local_ = rule.local_ := by
  induction is with
  | nil => intro rule ret h; cases h; exact ⟨rfl, rfl, rfl, rfl⟩
  | cons i rest ih =>
    intro rule ret h
    rw [replace_rotation_tokens] at h
    cases h1 : replace_token_rule fuel rule (rotation_token i) (rot.getD ((angle + i) % 6) "") with
    | none => rw [h1] at h; cases h
    | some r1 =>
      rw [h1] at h
      obtain ⟨a1, a2, a3, a4⟩ := ih r1 ret h
      obtain ⟨b1, b2, b3, b4⟩ := replace_token_rule_offsets fuel rule r1 _ _ h1
      exact ⟨a1.trans b1, a2.trans b2, a3.trans b3, a4.trans b4⟩

theorem string_find_split (token : List Char) (s : List Char) :
    ∀ pos, string_find s token = some pos →
      s = s.take pos ++ token ++ s.drop (pos + token.length) := by
  induction s with
  | nil =>
    intro pos h
    rw [string_find] at h
    split_ifs at h with he
    have : token = [] := by simpa using he
    subst this
    simp
  | cons c rest ih =>
    intro pos h
    rw [string_find] at h
    split_ifs at h with hp
    · cases h
      have hpre : token <+: c :: rest := List.isPrefixOf_iff_prefix.mp hp
      have := List.prefix_iff_eq_append.mp hpre
      simpa using this.symm
    · cases hr : string_find rest token with
      | none => rw [hr] at h; cases h
      | some p =>
        rw [hr] at h
        simp only [Option.map_some', Option.some.injEq] at h
        subst h
        have := ih p hr
        simp only [List.take_succ_cons, List.cons_append, List.cons.injEq, true_and]
        have hd : List.drop (p + 1 + token.length) (c :: rest) =
            List.drop (p + token.length) rest := by
          rw [show p + 1 + token.length = (p + token.length) + 1 by omega]
          rfl
        rw [hd]
        simpa using this

theorem replace_loop_terminates (token replacement : List Char) (ch : Char)
    (htok : ch ∈ token) (hrep : ch ∉ replacement) :
    ∀ (fuel : Nat) (s : List Char), s.count ch ≤ fuel →
      ∃ s1, replace_loop token replacement fuel s = some s1 ∧ s1.count ch ≤ s.count ch := by
  have hstep : ∀ (s : List Char) pos, string_find s token = some pos →
      (s.take pos ++ replacement ++ s.drop (pos + token.length)).count ch + 1 ≤ s.count ch := by
    intro s pos hf
    have hs := string_find_split token s pos hf
    have hc : s.count ch = (s.take pos).count ch + token.count ch +
        (s.drop (pos + token.length)).count ch := by
      conv_lhs => rw [hs]
      simp only [List.count_append]
    have h1 : 1 ≤ token.count ch := List.count_pos_iff.mpr htok
    have h0 : replacement.count ch = 0 := List.count_eq_zero.mpr hrep
    simp only [List.count_append, h0]
    omega
  intro fuel
  induction fuel with
  | zero =>
    intro s hs
    cases hf : string_find s token with
    | none => exact ⟨s, by simp only [replace_loop, hf], le_refl _⟩
    | some pos =>
      have := hstep s pos hf
      omega
  | succ n ih =>
    intro s hs
    cases hf : string_find s token with
    | none => exact ⟨s, by simp only [replace_loop, hf], le_refl _⟩
    | some pos =>
      have hdec := hstep s pos hf
      obtain ⟨s1, h1, hc1⟩ :=
        ih (s.take pos ++ replacement ++ s.drop (pos + token.length)) (by omega)
      exact ⟨s1, by simp only [replace_loop, hf]; exact h1, by omega⟩

theorem replace_token_terminates (fuel : Nat) (s token replacement : String)
    (htok : '@' ∈ token.toList) (hrep : '@' ∉ replacement.toList) (hs : at_count s ≤ fuel) :
    ∃ s1, replace_token fuel s token replacement = some s1 ∧ at_count s1 ≤ fuel := by
  unfold replace_token
  split_ifs
  · exact ⟨s, rfl, hs⟩
  · obtain ⟨l, hl, hc⟩ := replace_loop_terminates token.toList replacement.toList '@'
      htok hrep fuel s.toList hs
    refine ⟨String.mk l, by rw [hl]; rfl, ?_⟩
    unfold at_count at *
    exact le_trans hc hs

theorem replace_token_rule_terminates (fuel : Nat) (rule : building_rule)
    (token replacement : String)
    (htok : '@' ∈ token.toList) (hrep : '@' ∉ replacement.toList)
    (hs : strings_within fuel rule.constraints) :
    ∃ ret, replace_token_rule fuel rule token replacement = some ret ∧
      strings_within fuel ret.constraints := by
  have hflags : ∀ l : List String, (∀ f ∈ l, at_count f ≤ fuel) →
      ∃ l1, map_all (fun flag => replace_token fuel flag token replacement) l = some l1 ∧
        ∀ f ∈ l1, at_count f ≤ fuel :=
    fun l hl => map_all_inv (fun f => at_count f ≤ fuel) _
      (fun a ha => replace_token_terminates fuel a token replacement htok hrep ha) l hl
  have himages : ∀ l : List rule_image,
      (∀ ri ∈ l, ∀ v ∈ ri.variants, at_count v.image_string ≤ fuel) →
      ∃ l1, replace_token_imagelist fuel l token replacement = some l1 ∧
        ∀ ri ∈ l1, ∀ v ∈ ri.variants, at_count v.image_string ≤ fuel := by
    intro l hl
    apply map_all_inv (fun ri : rule_image => ∀ v ∈ ri.variants, at_count v.image_string ≤ fuel)
      _ _ l hl
    intro ri hri
    obtain ⟨vs, hvs, hP⟩ := map_all_inv
      (fun v : rule_image_variant => at_count v.image_string ≤ fuel)
      (fun v => replace_token_variant fuel v token replacement)
      (by
        intro v hv
        obtain ⟨s1, h1, hc⟩ :=
          replace_token_terminates fuel v.image_string token replacement htok hrep hv
        exact ⟨{ v with image_string := s1 }, by simp only [replace_token_variant, h1]; rfl, hc⟩)
      ri.variants hri
    exact ⟨{ ri with variants := vs }, by simp only [replace_token_image, hvs]; rfl, hP⟩
  obtain ⟨cs, hcs, hP⟩ := map_all_inv
    (fun c : map_location × terrain_constraint =>
      (∀ f ∈ c.2.set_flag, at_count f ≤ fuel) ∧ (∀ f ∈ c.2.no_flag, at_count f ≤ fuel) ∧
      (∀ f ∈ c.2.has_flag, at_count f ≤ fuel) ∧
      ∀ ri ∈ c.2.images, ∀ v ∈ ri.variants, at_count v.image_string ≤ fuel)
    (replace_token_constraint fuel token replacement)
    (by
      rintro c ⟨h1, h2, h3, h4⟩
      obtain ⟨l1, e1, p1⟩ := hflags _ h1
      obtain ⟨l2, e2, p2⟩ := hflags _ h2
      obtain ⟨l3, e3, p3⟩ := hflags _ h3
      obtain ⟨l4, e4, p4⟩ := himages _ h4
      exact ⟨_, by simp only [replace_token_constraint, e1, e2, e3, e4]; rfl, p1, p2, p3, p4⟩)
    rule.constraints hs
  exact ⟨{ rule with constraints := cs }, by simp only [replace_token_rule, hcs]; rfl, hP⟩

theorem rotation_token_at (i : Nat) : '@' ∈ (rotation_token i).toList := by
  simp [rotation_token, String.toList, String.push]

theorem normalize_constraints_values (tmp : constraint_set) (minx miny : Int) :
    ∀ e ∈ normalize_constraints tmp minx miny,
      ∃ c ∈ tmp, e.2.set_flag = c.2.set_flag ∧ e.2.no_flag = c.2.no_flag ∧
        e.2.has_flag = c.2.has_flag ∧ e.2.images = c.2.images ∧
        e.2.terrain_types_match = c.2.terrain_types_match := by
  intro e he
  obtain ⟨h1, _, _⟩ := foldl_assign_spec tmp
    (fun c => c.2.loc.legacy_sum ⟨-minx, -(Int.tdiv (miny - 1) 2)⟩)
    (fun c => { c.2 with loc := c.2.loc.legacy_sum ⟨-minx, -(Int.tdiv (miny - 1) 2)⟩ }) []
  rcases h1 e he with h | ⟨c, hc, rfl⟩
  · cases h
  · exact ⟨c, hc, rfl, rfl, rfl, rfl, rfl⟩

theorem rotate_rule_constraints_strings (ext : externals) (fuel : Nat) (rule : building_rule)
    (angle : Nat) (hs : strings_within fuel rule.constraints) :
    strings_within fuel (rotate_rule_constraints ext rule angle).constraints := by
  intro e he
  obtain ⟨c, hc, e1, e2, e3, e4, _⟩ := normalize_constraints_values _ _ _ e he
  obtain ⟨c0, hc0, rfl⟩ := (rotate_constraints_spec ext angle rule.constraints).1 c hc
  obtain ⟨p1, p2, p3, p4⟩ := hs c0 hc0
  rw [e1, e2, e3, e4]
  refine ⟨p1, p2, p3, ?_⟩
  intro ri hri v hv
  simp only [rotate, List.mem_map] at hri
  obtain ⟨ri0, hri0, rfl⟩ := hri
  exact p4 ri0 hri0 v hv

theorem replace_rotation_tokens_terminates (fuel angle : Nat) (rot : List String)
    (hnames : ∀ name ∈ rot, '@' ∉ name.toList) (is : List Nat) :
    ∀ rule, strings_within fuel rule.constraints →
      ∃ ret, replace_rotation_tokens fuel angle rot is rule = some ret ∧
        strings_within fuel ret.constraints := by
  induction is with
  | nil => intro rule hs; exact ⟨rule, rfl, hs⟩
  | cons i rest ih =>
    intro rule hs
    have hrep : '@' ∉ (rot.getD ((angle + i) % 6) "").toList := by
      rw [List.getD_eq_getElem?_getD]
      cases hg : rot[(angle + i) % 6]? with
      | none => simp
      | some name => exact hnames name (List.getElem?_mem hg)
    obtain ⟨r1, h1, hs1⟩ := replace_token_rule_terminates fuel rule (rotation_token i) _
      (rotation_token_at i) hrep hs
    obtain ⟨ret, h2, hs2⟩ := ih r1 hs1
    exact ⟨ret, by simp only [replace_rotation_tokens, h1]; exact h2, hs2⟩

theorem rotate_rule_terminates (ext : externals) (fuel : Nat) (rule : building_rule)
    (angle : Nat) (rot : List String) (hnames : ∀ name ∈ rot, '@' ∉ name.toList)
    (hs : strings_within fuel rule.constraints) :
    ∃ ret, rotate_rule ext fuel rule angle rot = some ret ∧
      strings_within fuel ret.constraints := by
  unfold rotate_rule
  split_ifs
  · refine ⟨_, rfl, ?_⟩
    intro c hc
    cases hc
  · exact replace_rotation_tokens_terminates fuel angle rot hnames _ _
      (rotate_rule_constraints_strings ext fuel rule angle hs)

theorem rotate_rule_offsets (ext : externals) (fuel : Nat) (rule ret : building_rule)
    (angle : Nat) (rot : List String) (hrot : rot.length = 6)
    (h : rotate_rule ext fuel rule angle rot = some ret) :
    constraint_offsets ret.constraints =
      constraint_offsets (rotate_rule_constraints ext rule angle).constraints ∧
    ret.location_constraints = rule.location_constraints ∧
    ret.probability = rule.probability ∧ ret.local_ = rule.local_ := by
  unfold rotate_rule at h
  rw [if_neg (by simp [hrot])] at h
  exact replace_rotation_tokens_offsets fuel angle rot _ _ ret h

theorem offsets_mem (cs1 cs2 : constraint_set)
    (h : constraint_offsets cs1 = constraint_offsets cs2)
    (c : map_location × terrain_constraint) (hc : c ∈ cs1) :
    ∃ c2 ∈ cs2, c2.1 = c.1 ∧ c2.2.loc = c.2.loc := by
  have hm : (c.1, c.2.loc) ∈ constraint_offsets cs1 :=
    List.mem_map.mpr ⟨c, hc, rfl⟩
  rw [h] at hm
  obtain ⟨c2, hc2, he⟩ := List.mem_map.mp hm
  simp only [Prod.mk.injEq] at he
  exact ⟨c2, hc2, he.1, he.2⟩

theorem int_range_eq (lo hi : Int) :
    int_range lo hi = (List.range (hi + 1 - lo).toNat).map (fun k : Nat => lo + (k : Int)) := by
  unfold int_range
  rw [show ((do let a ← List.range (hi + 1 - lo).toNat; pure (a : Int)) : List Int)
    = (List.range (hi + 1 - lo).toNat).map (fun k : Nat => (k : Int)) from by
      simp [List.map_eq_flatMap, Bind.bind, pure]
      rfl]
  rw [List.map_map]
  rfl

theorem mem_int_range (lo hi i : Int) : i ∈ int_range lo hi ↔ lo ≤ i ∧ i ≤ hi := by
  rw [int_range_eq, List.mem_map]
  constructor
  · rintro ⟨n, hn, rfl⟩
    have hn1 := List.mem_range.mp hn
    have h0 : (0 : Int) ≤ (n : Int) := Int.ofNat_nonneg n
    have h2 : (n : Int) < hi + 1 - lo := Int.lt_toNat.mp hn1
    constructor <;> linarith
  · rintro ⟨h1, h2⟩
    refine ⟨(i - lo).toNat, ?_, ?_⟩
    · rw [List.mem_range, Int.lt_toNat, Int.toNat_of_nonneg (by linarith)]
      linarith
    · rw [Int.toNat_of_nonneg (by linarith)]
      ring

theorem int_range_nodup (lo hi : Int) : (int_range lo hi).Nodup := by
  rw [int_range_eq]
  refine List.Nodup.map ?_ (List.nodup_range _)
  intro a b h
  have h1 : lo + (a : Int) = lo + (b : Int) := h
  have h2 : (a : Int) = (b : Int) := by linarith
  exact Int.ofNat_inj.mp h2

theorem mem_grid_locations (map : gamemap) (loc : map_location) :
    loc ∈ grid_locations map ↔
      (-2 ≤ loc.x ∧ loc.x ≤ map.w) ∧ (-2 ≤ loc.y ∧ loc.y ≤ map.h) := by
  unfold grid_locations
  simp only [List.mem_flatMap, List.mem_map, mem_int_range]
  constructor
  · rintro ⟨x, hx, y, hy, rfl⟩
    exact ⟨hx, hy⟩
  · rintro ⟨hx, hy⟩
    exact ⟨loc.x, hx, loc.y, hy, rfl⟩

theorem grid_locations_nodup (map : gamemap) : (grid_locations map).Nodup := by
  unfold grid_locations
  rw [List.nodup_flatMap]
  constructor
  · intro x _
    apply List.Nodup.map
    · intro a b h
      simpa using h
    · exact int_range_nodup _ _
  · apply List.Nodup.pairwise_of_forall_ne (int_range_nodup _ _)
    intro a _ b _ hab
    intro l hl1 hl2
    simp only [List.mem_map] at hl1 hl2
    obtain ⟨y1, _, rfl⟩ := hl1
    obtain ⟨y2, _, h2⟩ := hl2
    apply hab
    simp only [map_location.mk.injEq] at h2
    exact h2.1.symm

theorem build_terrain_by_type_eq (map : gamemap) (tbt : terrain_by_type_map) :
    build_terrain_by_type map tbt =
      (grid_locations map).foldl
        (fun acc loc => terrain_by_type_push_back acc (map.get_terrain loc) loc) tbt := by
  unfold build_terrain_by_type grid_locations
  generalize int_range (-2) map.w = xs
  induction xs generalizing tbt with
  | nil => rfl
  | cons x rest ih =>
    rw [List.foldl_cons, ih, List.flatMap_cons, List.foldl_append, List.foldl_map]

theorem push_back_keys (m : terrain_by_type_map) (t : t_terrain) (loc : map_location)
    (k : t_terrain) : k ∈ index_keys (terrain_by_type_push_back m t loc) ↔
      k = t ∨ k ∈ index_keys m := by
  induction m with
  | nil => simp [terrain_by_type_push_back, index_keys]
  | cons kv rest ih =>
    obtain ⟨k0, v0⟩ := kv
    rw [terrain_by_type_push_back]
    split_ifs with h1 h2
    · simp [index_keys]
    · simp only [index_keys, List.map_cons, List.mem_cons]
      subst h2
      tauto
    · simp only [index_keys, List.map_cons, List.mem_cons] at ih ⊢
      rw [ih]
      tauto

theorem push_back_sorted (m : terrain_by_type_map) (t : t_terrain) (loc : map_location)
    (hs : (index_keys m).Sorted (· < ·)) :
    (index_keys (terrain_by_type_push_back m t loc)).Sorted (· < ·) := by
  induction m with
  | nil => simp [terrain_by_type_push_back, index_keys]
  | cons kv rest ih =>
    obtain ⟨k0, v0⟩ := kv
    have hrest : ∀ k ∈ index_keys rest, k0 < k := by
      intro k hk
      exact List.rel_of_sorted_cons hs k hk
    have hs' : (index_keys rest).Sorted (· < ·) := hs.of_cons
    rw [terrain_by_type_push_back]
    split_ifs with h1 h2
    · simp only [index_keys, List.map_cons]
      refine List.sorted_cons.mpr ⟨?_, hs⟩
      intro b hb
      rcases List.mem_cons.mp hb with rfl | hb
      · exact h1
      · exact lt_trans h1 (hrest b hb)
    · exact hs
    · simp only [index_keys, List.map_cons]
      refine List.sorted_cons.mpr ⟨?_, ih hs'⟩
      intro b hb
      rcases (push_back_keys rest t loc b).mp hb with hbt | hb
      · rw [hbt]
        exact lt_of_le_of_ne (not_lt.mp h1) (fun e => h2 e.symm)
      · exact hrest b hb

theorem lookup_of_not_key (m : terrain_by_type_map) (t : t_terrain)
    (h : t ∉ index_keys m) : terrain_by_type_lookup m t = [] := by
  unfold terrain_by_type_lookup
  have : m.find? (fun e => e.1 == t) = none := by
    rw [List.find?_eq_none]
    intro e he hk
    apply h
    simp only [beq_iff_eq] at hk
    exact List.mem_map.mpr ⟨e, he, hk⟩
  rw [this]

theorem lookup_cons (kv : t_terrain × List map_location) (m : terrain_by_type_map)
    (t : t_terrain) :
    terrain_by_type_lookup (kv :: m) t =
      if kv.1 = t then kv.2 else terrain_by_type_lookup m t := by
  unfold terrain_by_type_lookup
  rw [List.find?_cons]
  by_cases h : kv.1 = t
  · simp [h]
  · have : (kv.1 == t) = false := by simpa using h
    simp [this, h]

theorem lookup_push_back (m : terrain_by_type_map) (t : t_terrain) (loc : map_location)
    (hs : (index_keys m).Sorted (· < ·)) (t1 : t_terrain) :
    terrain_by_type_lookup (terrain_by_type_push_back m t loc) t1 =
      if t1 = t then terrain_by_type_lookup m t ++ [loc] else terrain_by_type_lookup m t1 := by
  induction m with
  | nil =>
    simp only [terrain_by_type_push_back, lookup_cons]
    by_cases h : t1 = t
    · simp [h, terrain_by_type_lookup]
    · have h' : ¬ t = t1 := fun e => h e.symm
      simp [h, h', terrain_by_type_lookup]
  | cons kv rest ih =>
    obtain ⟨k0, v0⟩ := kv
    have hrest : ∀ k ∈ index_keys rest, k0 < k := by
      intro k hk
      exact List.rel_of_sorted_cons hs k hk
    have hs' : (index_keys rest).Sorted (· < ·) := hs.of_cons
    rw [terrain_by_type_push_back]
    by_cases h1 : t < k0
    · rw [if_pos h1]
      by_cases h3 : t1 = t
      · subst h3
        have hnot : t1 ∉ index_keys ((k0, v0) :: rest) := by
          simp only [index_keys, List.map_cons, List.mem_cons, not_or]
          refine ⟨fun e => absurd h1 (by rw [e]; exact lt_irrefl _), ?_⟩
          intro hk
          exact absurd (lt_trans h1 (hrest t1 hk)) (lt_irrefl _)
        rw [lookup_cons, if_pos rfl, if_pos rfl, lookup_of_not_key _ _ hnot]
        rfl
      · rw [lookup_cons, if_neg (fun e => h3 e.symm), if_neg h3]
    · rw [if_neg h1]
      by_cases h2 : t = k0
      · rw [if_pos h2]
        subst h2
        by_cases h4 : t1 = t
        · subst h4
          simp only [lookup_cons, if_true]
        · simp only [lookup_cons]
          rw [if_neg (fun e => h4 e.symm), if_neg h4, if_neg (fun e => h4 e.symm)]
      · rw [if_neg h2]
        by_cases h5 : t1 = t
        · subst h5
          rw [lookup_cons, if_neg (fun e => h2 e.symm), ih hs', if_pos rfl, if_pos rfl,
            lookup_cons, if_neg (fun e => h2 e.symm)]
        · rw [lookup_cons, ih hs', if_neg h5, if_neg h5, lookup_cons]

theorem index_fold_spec (map : gamemap) (l : List map_location) :
    ∀ m : terrain_by_type_map, (index_keys m).Sorted (· < ·) →
      (index_keys (l.foldl
        (fun acc loc => terrain_by_type_push_back acc (map.get_terrain loc) loc) m)).Sorted
          (· < ·) ∧
      ∀ t, terrain_by_type_lookup (l.foldl
        (fun acc loc => terrain_by_type_push_back acc (map.get_terrain loc) loc) m) t =
          terrain_by_type_lookup m t ++ l.filter (fun loc => map.get_terrain loc == t) := by
  induction l with
  | nil => intro m hs; exact ⟨hs, by simp⟩
  | cons loc rest ih =>
    intro m hs
    obtain ⟨h1, h2⟩ := ih (terrain_by_type_push_back m (map.get_terrain loc) loc)
      (push_back_sorted m _ loc hs)
    refine ⟨h1, ?_⟩
    intro t
    rw [List.foldl_cons, h2 t, lookup_push_back m _ loc hs t, List.filter_cons]
    by_cases h : t = map.get_terrain loc
    · subst h
      simp
    · have h' : (map.get_terrain loc == t) = false := by
        simpa using fun e => h e.symm
      simp [h, h']

/-- The index that `build_terrains` builds from an empty index: the list of a terrain
code holds the visited locations with that code, in the order of the loops. -/
theorem index_lookup (map : gamemap) (t : t_terrain) :
    terrain_by_type_lookup (build_terrain_by_type map []) t =
      (grid_locations map).filter (fun loc => map.get_terrain loc == t) := by
  rw [build_terrain_by_type_eq]
  have := (index_fold_spec map (grid_locations map) [] (by simp [index_keys])).2 t
  rw [this]
  simp [terrain_by_type_lookup]

theorem index_sorted (map : gamemap) :
    (index_keys (build_terrain_by_type map [])).Sorted (· < ·) := by
  rw [build_terrain_by_type_eq]
  exact (index_fold_spec map (grid_locations map) [] (by simp [index_keys])).1

theorem lookup_of_mem (m : terrain_by_type_map) (hs : (index_keys m).Sorted (· < ·))
    (e : t_terrain × List map_location) (he : e ∈ m) : terrain_by_type_lookup m e.1 = e.2 := by
  induction m with
  | nil => cases he
  | cons kv rest ih =>
    have hrest : ∀ k ∈ index_keys rest, kv.1 < k := by
      intro k hk
      exact List.rel_of_sorted_cons hs k hk
    rw [lookup_cons]
    rcases List.mem_cons.mp he with rfl | he1
    · rw [if_pos rfl]
    · have hlt : kv.1 < e.1 := hrest e.1 (List.mem_map.mpr ⟨e, he1, rfl⟩)
      rw [if_neg (fun h => absurd hlt (by rw [h]; exact lt_irrefl _))]
      exact ih hs.of_cons he1

theorem mem_index_lookup (map : gamemap) (t : t_terrain) (loc : map_location) :
    loc ∈ terrain_by_type_lookup (build_terrain_by_type map []) t ↔
      ((-2 ≤ loc.x ∧ loc.x ≤ map.w) ∧ (-2 ≤ loc.y ∧ loc.y ≤ map.h)) ∧
        map.get_terrain loc = t := by
  rw [index_lookup, List.mem_filter, mem_grid_locations]
  simp

theorem index_lookup_nodup (map : gamemap) (t : t_terrain) :
    (terrain_by_type_lookup (build_terrain_by_type map []) t).Nodup := by
  rw [index_lookup]
  exact (grid_locations_nodup map).filter _

/-- C19 (divergence): started from an empty index, the first loop nest of
`build_terrains` puts a location into the list of a terrain code exactly when it lies
in the loop range `-2 ≤ x ≤ w`, `-2 ≤ y ≤ h` and the map reports that code there, no
list holds a location twice, and every entry of the index is the list read for its
key. The grid cache also addresses the column `x = w + 1` and the row `y = h + 1`: on
the 1x1 map the location `(2, 0)` is addressable, yet no entry of the index holds it,
and the same goes for `(0, 2)`. -/
theorem index_misses_margin :
    (∀ (map : gamemap) (t : t_terrain) (loc : map_location),
      loc ∈ terrain_by_type_lookup (build_terrain_by_type map []) t ↔
        ((-2 ≤ loc.x ∧ loc.x ≤ map.w) ∧ (-2 ≤ loc.y ∧ loc.y ≤ map.h)) ∧
          map.get_terrain loc = t) ∧
    (∀ (map : gamemap) (t : t_terrain),
      (terrain_by_type_lookup (build_terrain_by_type map []) t).Nodup) ∧
    (∀ (map : gamemap), ∀ e ∈ build_terrain_by_type map [],
      terrain_by_type_lookup (build_terrain_by_type map []) e.1 = e.2) ∧
    (sample_tilemap.x_ = sample_map.w ∧ sample_tilemap.y_ = sample_map.h) ∧
    sample_tilemap.on_map ⟨2, 0⟩ = true ∧
    sample_tilemap.on_map ⟨0, 2⟩ = true ∧
    (∀ e ∈ build_terrain_by_type sample_map [],
      (⟨2, 0⟩ : map_location) ∉ e.2 ∧ (⟨0, 2⟩ : map_location) ∉ e.2) := by
  refine ⟨mem_index_lookup, index_lookup_nodup, ?_, by decide, by decide, by decide, ?_⟩
  · intro map e he
    exact lookup_of_mem _ (index_sorted map) e he
  · intro e he
    rw [← lookup_of_mem _ (index_sorted sample_map) e he]
    constructor
    · intro h
      have := ((mem_index_lookup sample_map e.1 ⟨2, 0⟩).mp h).1.1.2
      exact absurd this (by decide)
    · intro h
      have := ((mem_index_lookup sample_map e.1 ⟨0, 2⟩).mp h).1.2.2
      exact absurd this (by decide)

/-! ### Rebuilding twice -/

theorem reset_eq (tm1 tm2 : tilemap) (hx : tm1.x_ = tm2.x_) (hy : tm1.y_ = tm2.y_)
    (hl : tm1.tiles_.length = tm2.tiles_.length) : tm1.reset = tm2.reset := by
  have hc : ∀ l : List tile, l.map tile.clear = List.replicate l.length (tile.clear tile.mk0) := by
    intro l
    induction l with
    | nil => rfl
    | cons t rest ih => rw [List.map_cons, ih]; rfl
  unfold tilemap.reset
  rw [hc, hc, hl, hx, hy]

theorem reset_wf (tm : tilemap) (hwf : tm.wf) :
    tm.reset.wf ∧ tm.reset.x_ = tm.x_ ∧ tm.reset.y_ = tm.y_ := by
  refine ⟨?_, rfl, rfl⟩
  unfold tilemap.wf tilemap.reset
  simp only [List.length_map]
  exact hwf

theorem build_rules_total (ext : externals) (map : gamemap) (tbt : terrain_by_type_map)
    (rules : building_ruleset) :
    ∀ (i : Int) (s : tilemap × apply_log), s.1.wf →
      ∃ s1, build_rules ext map tbt rules i s = some s1 ∧ s1.1.wf ∧
        s1.1.x_ = s.1.x_ ∧ s1.1.y_ = s.1.y_ := by
  induction rules with
  | nil => intro i s hwf; exact ⟨s, rfl, hwf, rfl, rfl⟩
  | cons r rest ih =>
    intro i s hwf
    obtain ⟨s1, h1, hwf1, hx1, hy1⟩ := build_rule_inv ext map tbt r.2 i
      (fun s' => s'.1.x_ = s.1.x_ ∧ s'.1.y_ = s.1.y_)
      (by
        intro s' a k tm1 hw hI _ ha
        obtain ⟨tm2, h2, _, hx, hy⟩ := apply_rule_loop_total a
          (get_noise a (to_unsigned i)) r.2.constraints s'.1 hw
        have ha' : apply_rule_loop a (get_noise a (to_unsigned i)) r.2.constraints s'.1 =
            some tm1 := ha
        rw [h2] at ha'
        cases ha'
        exact ⟨hx.trans hI.1, hy.trans hI.2⟩)
      s hwf ⟨rfl, rfl⟩
    obtain ⟨s2, h2, hwf2, hx2, hy2⟩ := ih (i + 1) s1 hwf1
    refine ⟨s2, ?_, hwf2, hx2.trans hx1, hy2.trans hy1⟩
    rw [build_rules]
    simp only [h1]
    exact h2

theorem rebuild_all_total (ext : externals) (b : builder) (hwf : b.tile_map_.wf) :
    ∃ s, build_rules ext b.map_ (build_terrain_by_type b.map_ []) b.building_rules_ 0
        (b.tile_map_.reset, []) = some s ∧
      rebuild_all ext b = some { b with
        terrain_by_type_ := build_terrain_by_type b.map_ [], tile_map_ := s.1 } ∧
      s.1.wf ∧ s.1.x_ = b.tile_map_.x_ ∧ s.1.y_ = b.tile_map_.y_ := by
  obtain ⟨s, hs, hwf1, hx, hy⟩ := build_rules_total ext b.map_
    (build_terrain_by_type b.map_ []) b.building_rules_ 0 (b.tile_map_.reset, [])
    (reset_wf _ hwf).1
  refine ⟨s, hs, ?_, hwf1, hx, hy⟩
  simp only [rebuild_all, build_terrains, build_terrains_log, hs, Option.map_some']

/-- C14: on a tile map with its size invariant `rebuild_all` returns, and its result
depends on the map, the ruleset and the dimensions of the tile map only: started from
any other tile-map contents of the same dimensions and any other index it returns the
same builder state. Hence `rebuild_all` applied to its own result returns that result
again: the whole state is the same, so every cell has the same flag set and the same
raw image list (same image references, same seeds, same order) as after one call. -/
theorem rebuild_all_idempotent (ext : externals) (b : builder) (hwf : b.tile_map_.wf) :
    ∃ b1, rebuild_all ext b = some b1 ∧
      (∀ (tm : tilemap) (tbt : terrain_by_type_map), tm.wf →
        tm.x_ = b.tile_map_.x_ → tm.y_ = b.tile_map_.y_ →
        rebuild_all ext { b with tile_map_ := tm, terrain_by_type_ := tbt } = some b1) ∧
      rebuild_all ext b1 = some b1 ∧
      (∀ b2, rebuild_all ext b1 = some b2 → ∀ loc : map_location,
        (b2.tile_map_.at loc).map (fun t => (t.flags, t.images)) =
          (b1.tile_map_.at loc).map (fun t => (t.flags, t.images))) := by
  obtain ⟨s, hs, hb1, hwf1, hx1, hy1⟩ := rebuild_all_total ext b hwf
  have hany : ∀ (tm : tilemap) (tbt : terrain_by_type_map), tm.wf →
      tm.x_ = b.tile_map_.x_ → tm.y_ = b.tile_map_.y_ →
      rebuild_all ext { b with tile_map_ := tm, terrain_by_type_ := tbt } =
        some { b with terrain_by_type_ := build_terrain_by_type b.map_ [], tile_map_ := s.1 } := by
    intro tm tbt hw hx hy
    have hlen : tm.tiles_.length = b.tile_map_.tiles_.length := by
      have h1 : tm.tiles_.length = ((tm.x_ + 4) * (tm.y_ + 4)).toNat := hw
      have h2 : b.tile_map_.tiles_.length =
          ((b.tile_map_.x_ + 4) * (b.tile_map_.y_ + 4)).toNat := hwf
      rw [h1, h2, hx, hy]
    have hr : tm.reset = b.tile_map_.reset := reset_eq tm b.tile_map_ hx hy hlen
    simp only [rebuild_all, build_terrains, build_terrains_log, hr, hs, Option.map_some']
  have hidem := hany s.1 (build_terrain_by_type b.map_ []) hwf1 hx1 hy1
  refine ⟨_, hb1, hany, hidem, ?_⟩
  intro b2 hb2 loc
  have hidem' : rebuild_all ext
      { b with terrain_by_type_ := build_terrain_by_type b.map_ [], tile_map_ := s.1 } =
      some { b with terrain_by_type_ := build_terrain_by_type b.map_ [], tile_map_ := s.1 } :=
    hidem
  rw [hidem'] at hb2
  cases hb2
  rfl

/-- C14 witness: the 1x1 sample builder; the second `rebuild_all` leaves the tile at
`(0, 0)` with the flag `base` and the one image placed by the first. -/
theorem rebuild_all_idempotent_witness :
    sample_builder.tile_map_.wf ∧
    ∃ b1, rebuild_all sample_externals sample_builder = some b1 ∧
      rebuild_all sample_externals b1 = some b1 ∧
      (b1.tile_map_.at ⟨0, 0⟩).map (fun t => (t.flags, t.images.length)) =
        some (["base"], 1) := by
  obtain ⟨b1, h1, _, h2, _⟩ :=
    rebuild_all_idempotent sample_externals sample_builder (by decide)
  refine ⟨by decide, b1, h1, h2, ?_⟩
  have hval : (rebuild_all sample_externals sample_builder).bind
      (fun b => (b.tile_map_.at ⟨0, 0⟩).map (fun t => (t.flags, t.images.length))) =
      some (["base"], 1) := by decide
  rw [h1] at hval
  exact hval

/-! ### A single rule on the 1x1 grid -/

theorem push_back_perm (m : terrain_by_type_map) (t : t_terrain) (loc : map_location) :
    ((terrain_by_type_push_back m t loc).flatMap Prod.snd).Perm
      (loc :: m.flatMap Prod.snd) := by
  induction m with
  | nil => simp [terrain_by_type_push_back]
  | cons kv rest ih =>
    obtain ⟨k0, v0⟩ := kv
    rw [terrain_by_type_push_back]
    by_cases h1 : t < k0
    · rw [if_pos h1]
      simp
    · rw [if_neg h1]
      by_cases h2 : t = k0
      · rw [if_pos h2]
        simp only [List.flatMap_cons, List.append_assoc, List.singleton_append]
        exact List.perm_middle
      · rw [if_neg h2]
        simp only [List.flatMap_cons]
        exact (List.Perm.append_left v0 ih).trans List.perm_middle

theorem index_fold_perm (map : gamemap) (l : List map_location) :
    ∀ m : terrain_by_type_map,
      ((l.foldl (fun acc loc => terrain_by_type_push_back acc (map.get_terrain loc) loc)
        m).flatMap Prod.snd).Perm (m.flatMap Prod.snd ++ l) := by
  induction l with
  | nil => intro m; simp
  | cons loc rest ih =>
    intro m
    rw [List.foldl_cons]
    refine (ih _).trans ?_
    refine ((push_back_perm m _ loc).append_right rest).trans ?_
    simp only [List.cons_append]
    exact List.perm_middle.symm

/-- The locations held by the index built from an empty index are the visited
locations, each as often as it is visited. -/
theorem index_perm (map : gamemap) :
    ((build_terrain_by_type map []).flatMap Prod.snd).Perm (grid_locations map) := by
  rw [build_terrain_by_type_eq]
  simpa using index_fold_perm map (grid_locations map) []

theorem index_fold_keys (map : gamemap) (l : List map_location) :
    ∀ (m : terrain_by_type_map) (k : t_terrain),
      k ∈ index_keys (l.foldl
        (fun acc loc => terrain_by_type_push_back acc (map.get_terrain loc) loc) m) →
      k ∈ index_keys m ∨ ∃ loc, map.get_terrain loc = k := by
  induction l with
  | nil => intro m k h; exact Or.inl h
  | cons loc rest ih =>
    intro m k h
    rw [List.foldl_cons] at h
    rcases ih _ k h with h1 | h1
    · rcases (push_back_keys m _ loc k).mp h1 with h2 | h2
      · exact Or.inr ⟨loc, h2.symm⟩
      · exact Or.inl h2
    · exact Or.inr h1

theorem index_key_terrain (map : gamemap) (e : t_terrain × List map_location)
    (he : e ∈ build_terrain_by_type map []) : ∃ loc, map.get_terrain loc = e.1 := by
  rw [build_terrain_by_type_eq] at he
  rcases index_fold_keys map (grid_locations map) [] e.1
    (List.mem_map.mpr ⟨e, he, rfl⟩) with h | h
  · simp [index_keys] at h
  · exact h

theorem matching_scan_all (ext : externals) (m : t_match) (min_size : Nat) :
    ∀ (tbt : terrain_by_type_map) (acc : Nat) (types : List t_terrain),
      (∀ e ∈ tbt, ext.terrain_matches e.1 m = true) →
      acc + (tbt.flatMap Prod.snd).length < min_size →
      matching_scan ext m min_size tbt acc types =
        (acc + (tbt.flatMap Prod.snd).length, types ++ tbt.map Prod.fst) := by
  intro tbt
  induction tbt with
  | nil => intro acc types _ _; simp [matching_scan]
  | cons e rest ih =>
    intro acc types hall hlt
    obtain ⟨t, locs⟩ := e
    have ht : ext.terrain_matches t m = true := hall (t, locs) (List.mem_cons_self _ _)
    simp only [List.flatMap_cons, List.length_append] at hlt
    have hge : ¬ (acc + locs.length ≥ min_size) := by omega
    rw [matching_scan]
    simp only [ht, if_true, hge, if_false]
    rw [ih (acc + locs.length) (types ++ [t])
      (fun e he => hall e (List.mem_cons_of_mem _ he)) (by omega)]
    simp only [List.flatMap_cons, List.length_append, List.map_cons, List.append_assoc,
      List.singleton_append, Prod.mk.injEq, and_true]
    omega

theorem try_locations_append (ext : externals) (map : gamemap) (rule : building_rule)
    (i : Int) (mc : map_location × terrain_constraint) (l2 : List map_location) :
    ∀ (l1 : List map_location) (s : tilemap × apply_log),
      try_locations ext map rule i mc (l1 ++ l2) s =
        (try_locations ext map rule i mc l1 s).bind (try_locations ext map rule i mc l2) := by
  intro l1
  induction l1 with
  | nil => intro s; rfl
  | cons l rest ih =>
    intro s
    rw [List.cons_append, try_locations, try_locations]
    cases hm : rule_matches ext map s.1 rule (l.legacy_difference mc.2.loc) i (some mc.1) with
    | none => rfl
    | some b =>
      cases b with
      | false => exact ih s
      | true =>
        cases ha : apply_rule s.1 rule (l.legacy_difference mc.2.loc) i with
        | none => rfl
        | some tm1 => exact ih _

theorem try_types_eq (ext : externals) (map : gamemap) (tbt : terrain_by_type_map)
    (rule : building_rule) (i : Int) (mc : map_location × terrain_constraint) :
    ∀ (types : List t_terrain) (s : tilemap × apply_log),
      try_types ext map tbt rule i mc types s =
        try_locations ext map rule i mc (types.flatMap (terrain_by_type_lookup tbt)) s := by
  intro types
  induction types with
  | nil => intro s; rfl
  | cons t rest ih =>
    intro s
    rw [try_types, List.flatMap_cons, try_locations_append]
    cases h : try_locations ext map rule i mc (terrain_by_type_lookup tbt t) s with
    | none => rfl
    | some s1 => exact ih s1

theorem flatMap_lookup_keys (m : terrain_by_type_map) (hs : (index_keys m).Sorted (· < ·)) :
    (m.map Prod.fst).flatMap (terrain_by_type_lookup m) = m.flatMap Prod.snd := by
  have h : ∀ l : terrain_by_type_map, (∀ e ∈ l, e ∈ m) →
      (l.map Prod.fst).flatMap (terrain_by_type_lookup m) = l.flatMap Prod.snd := by
    intro l
    induction l with
    | nil => intro _; rfl
    | cons e rest ih =>
      intro hl
      rw [List.map_cons, List.flatMap_cons, List.flatMap_cons,
        lookup_of_mem m hs e (hl e (List.mem_cons_self _ _)),
        ih (fun e he => hl e (List.mem_cons_of_mem _ he))]
  exact h m (fun _ he => he)

theorem legacy_difference_zero (l o : map_location) (ho : o = ⟨0, 0⟩) :
    l.legacy_difference o = l ∧ l.legacy_sum o = l := by
  subst ho
  cases l
  simp [map_location.legacy_difference, map_location.legacy_sum]

/-- A rule with a single constraint at offset `(0, 0)` that names no required or
forbidden flag, without probability and without anchor restriction, matches at every
addressable anchor when the terrain check of its constraint is the one skipped, and
applying it there changes the tile at the anchor only. -/
theorem plain_rule_step (ext : externals) (map : gamemap) (rule : building_rule) (i : Int)
    (k : map_location) (c : terrain_constraint)
    (hc : rule.constraints = [(k, c)]) (hloc : c.loc = ⟨0, 0⟩)
    (hno : c.no_flag = []) (hhas : c.has_flag = [])
    (hvalid : ext.valid rule.location_constraints = false) (hprob : rule.probability = -1)
    (tm : tilemap) (hwf : tm.wf) (l : map_location) (hon : tm.on_map l = true) :
    ∃ t, tm.at l = some t ∧
      rule_matches ext map tm rule (l.legacy_difference c.loc) i (some k) = some true ∧
      apply_rule tm rule (l.legacy_difference c.loc) i =
        some (tm.set l (apply_constraint t c (get_noise l (to_unsigned i)))) := by
  obtain ⟨t, ht⟩ := at_some_of_on_map tm hwf l hon
  have hd := (legacy_difference_zero l c.loc hloc).1
  have hs := (legacy_difference_zero l c.loc hloc).2
  refine ⟨t, ht, ?_, ?_⟩
  · rw [hd]
    simp [rule_matches, hvalid, hprob, hc, rule_matches_loop, constraint_matches, hs, hon, ht,
      hno, hhas]
  · rw [hd]
    simp [apply_rule, hc, apply_rule_loop, hs, hon, ht]

theorem try_locations_plain (ext : externals) (map : gamemap) (rule : building_rule) (i : Int)
    (k : map_location) (c : terrain_constraint)
    (hc : rule.constraints = [(k, c)]) (hloc : c.loc = ⟨0, 0⟩)
    (hno : c.no_flag = []) (hhas : c.has_flag = [])
    (hvalid : ext.valid rule.location_constraints = false) (hprob : rule.probability = -1) :
    ∀ (locs : List map_location) (s : tilemap × apply_log), s.1.wf →
      (∀ l ∈ locs, s.1.on_map l = true) →
      ∃ s1, try_locations ext map rule i (k, c) locs s = some s1 ∧ s1.1.wf ∧
        s1.1.x_ = s.1.x_ ∧ s1.1.y_ = s.1.y_ ∧
        ∀ l t, s.1.at l = some t →
          s1.1.at l = some
            ((fun u => apply_constraint u c (get_noise l (to_unsigned i)))^[locs.count l] t) := by
  intro locs
  induction locs with
  | nil =>
    intro s hwf _
    exact ⟨s, rfl, hwf, rfl, rfl, fun l t h => by simpa using h⟩
  | cons l0 rest ih =>
    intro s hwf hon
    have hon0 : s.1.on_map l0 = true := hon l0 (List.mem_cons_self _ _)
    obtain ⟨t0, ht0, hm, ha⟩ :=
      plain_rule_step ext map rule i k c hc hloc hno hhas hvalid hprob s.1 hwf l0 hon0
    obtain ⟨s1, h1, hwf1, hx1, hy1, htile⟩ :=
      ih (s.1.set l0 (apply_constraint t0 c (get_noise l0 (to_unsigned i))),
          s.2 ++ [(i, l0.legacy_difference c.loc)])
        (set_wf s.1 hwf _ _)
        (by
          intro l hl
          rw [set_on_map]
          exact hon l (List.mem_cons_of_mem _ hl))
    refine ⟨s1, ?_, hwf1, ?_, ?_, ?_⟩
    · rw [try_locations]
      simp only [hm, ha]
      exact h1
    · rw [hx1]; exact (set_dims s.1 _ _).1
    · rw [hy1]; exact (set_dims s.1 _ _).2.1
    · intro l t hlt
      by_cases hl : l = l0
      · subst hl
        have hte : t0 = t := by
          rw [ht0] at hlt
          exact Option.some.inj hlt
        subst hte
        rw [htile l _ (at_set_same s.1 hwf l _ hon0), List.count_cons_self,
          Function.iterate_succ_apply]
      · have hcount : (l0 :: rest).count l = rest.count l := by
          rw [List.count_cons_of_ne hl]
        rw [hcount]
        apply htile
        rw [at_set_other s.1 l0 _ l hon0 hl]
        exact hlt

theorem grid_on_map (map : gamemap) (tm : tilemap) (hx : tm.x_ = map.w) (hy : tm.y_ = map.h)
    (l : map_location) (hl : l ∈ grid_locations map) : tm.on_map l = true := by
  rw [on_map_eq_true, hx, hy]
  have := (mem_grid_locations map l).mp hl
  omega

/-- The processing of a rule with a single constraint at offset `(0, 0)` that accepts
every terrain of the map and names no required or forbidden flag, on the index built
from an empty index: every tile is given the effect of the constraint as often as its
location is visited by the index loops (once inside the loop range, never outside),
with the seed of its own location. -/
theorem build_rule_plain (ext : externals) (map : gamemap) (rule : building_rule) (i : Int)
    (k : map_location) (c : terrain_constraint)
    (hc : rule.constraints = [(k, c)]) (hloc : c.loc = ⟨0, 0⟩)
    (hno : c.no_flag = []) (hhas : c.has_flag = [])
    (hvalid : ext.valid rule.location_constraints = false) (hprob : rule.probability = -1)
    (hany : ∀ loc, ext.terrain_matches (map.get_terrain loc) c.terrain_types_match = true)
    (hsize : (grid_locations map).length < INT_MAX) (hpos : 0 < (grid_locations map).length)
    (s : tilemap × apply_log) (hwf : s.1.wf) (hx : s.1.x_ = map.w) (hy : s.1.y_ = map.h) :
    ∃ s1, build_rule ext map (build_terrain_by_type map []) rule i s = some s1 ∧ s1.1.wf ∧
      s1.1.x_ = s.1.x_ ∧ s1.1.y_ = s.1.y_ ∧
      ∀ l t, s.1.at l = some t →
        s1.1.at l = some
          ((fun u => apply_constraint u c (get_noise l (to_unsigned i)))^[
            (grid_locations map).count l] t) := by
  have hperm := index_perm map
  have hlen : ((build_terrain_by_type map []).flatMap Prod.snd).length =
      (grid_locations map).length := hperm.length_eq
  have hscan := matching_scan_all ext c.terrain_types_match INT_MAX
    (build_terrain_by_type map []) 0 []
    (by
      intro e he
      obtain ⟨loc, hloc1⟩ := index_key_terrain map e he
      rw [← hloc1]
      exact hany loc)
    (by rw [hlen]; omega)
  obtain ⟨s1, h1, hwf1, hx1, hy1, htile⟩ :=
    try_locations_plain ext map rule i k c hc hloc hno hhas hvalid hprob
      ((build_terrain_by_type map []).flatMap Prod.snd) s hwf
      (fun l hl => grid_on_map map s.1 hx hy l (hperm.subset hl))
  refine ⟨s1, ?_, hwf1, hx1, hy1, ?_⟩
  · have hlt : 0 + ((build_terrain_by_type map []).flatMap Prod.snd).length < INT_MAX := by
      rw [hlen]; omega
    have hne : ¬ (0 + ((build_terrain_by_type map []).flatMap Prod.snd).length = 0) := by
      rw [hlen]; omega
    simp only [build_rule, hc, find_min_constraint, hscan, hlt, if_true, hne, if_false,
      List.nil_append]
    rw [try_types_eq]
    have hk := flatMap_lookup_keys (build_terrain_by_type map []) (index_sorted map)
    rw [hk]
    exact h1
  · intro l t hlt
    rw [← hperm.count_eq l]
    exact htile l t hlt

theorem reset_at (tm : tilemap) (hwf : tm.wf) (l : map_location) (hon : tm.on_map l = true) :
    tm.reset.at l = some (tile.clear tile.mk0) := by
  have hon1 : tm.reset.on_map l = true := hon
  obtain ⟨t, ht⟩ := at_some_of_on_map tm.reset (reset_wf tm hwf).1 l hon1
  have hm := at_mem_tiles tm.reset l t ht
  simp only [tilemap.reset, List.mem_map] at hm
  obtain ⟨u, _, hu⟩ := hm
  rw [ht, ← hu]
  rfl

/-- After `rebuild_all` with a ruleset made of one rule with a single constraint at
offset `(0, 0)` that accepts every terrain of the map and names no required or
forbidden flag (no probability, no anchor restriction), the tile of a location inside
the range of the index loops is the cleared tile with the effect of the constraint
applied once, the seed being the noise of the location for rule index 0. -/
theorem rebuild_all_plain (ext : externals) (b : builder) (p : Int) (rule : building_rule)
    (k : map_location) (c : terrain_constraint)
    (hrules : b.building_rules_ = [(p, rule)])
    (hc : rule.constraints = [(k, c)]) (hloc : c.loc = ⟨0, 0⟩)
    (hno : c.no_flag = []) (hhas : c.has_flag = [])
    (hvalid : ext.valid rule.location_constraints = false) (hprob : rule.probability = -1)
    (hany : ∀ loc, ext.terrain_matches (b.map_.get_terrain loc) c.terrain_types_match = true)
    (hsize : (grid_locations b.map_).length < INT_MAX)
    (hwf : b.tile_map_.wf) (hx : b.tile_map_.x_ = b.map_.w) (hy : b.tile_map_.y_ = b.map_.h)
    (l : map_location) (hl : l ∈ grid_locations b.map_) :
    ∃ b1, rebuild_all ext b = some b1 ∧ b1.tile_map_.wf ∧ b1.tile_map_.on_map l = true ∧
      b1.tile_map_.at l =
        some (apply_constraint (tile.clear tile.mk0) c (get_noise l (to_unsigned 0))) := by
  have hpos : 0 < (grid_locations b.map_).length := List.length_pos_of_mem hl
  obtain ⟨s1, h1, hwf1, hx1, hy1, htile⟩ :=
    build_rule_plain ext b.map_ rule 0 k c hc hloc hno hhas hvalid hprob hany hsize hpos
      (b.tile_map_.reset, []) (reset_wf _ hwf).1 hx hy
  have hon : b.tile_map_.on_map l = true := grid_on_map b.map_ b.tile_map_ hx hy l hl
  have hat := htile l _ (reset_at b.tile_map_ hwf l hon)
  rw [List.count_eq_one_of_mem (grid_locations_nodup b.map_) hl] at hat
  refine ⟨{ b with terrain_by_type_ := build_terrain_by_type b.map_ [], tile_map_ := s1.1 },
    ?_, hwf1, ?_, hat⟩
  · simp only [rebuild_all, build_terrains, build_terrains_log, hrules, build_rules, h1,
      Option.map_some']
  · rw [on_map_eq_true] at hon ⊢
    have hx2 : s1.1.x_ = b.tile_map_.x_ := hx1
    have hy2 : s1.1.y_ = b.tile_map_.y_ := hy1
    show (-2 ≤ l.x ∧ l.x ≤ s1.1.x_ + 1) ∧ (-2 ≤ l.y ∧ l.y ≤ s1.1.y_ + 1)
    rw [hx2, hy2]
    exact hon

theorem variant_walk_default (tod : String) (n : Nat) (v : rule_image_variant)
    (htods : v.tods = []) (hp : v.probability = 100) :
    variant_walk tod ((n % 100 + 1 : Nat) : Int) [v] = some v := by
  have h : ¬ (((n % 100 + 1 : Nat) : Int) > v.probability) := by
    rw [hp]
    have := Nat.mod_lt n (by decide : 100 > 0)
    omega
  have h1 : (!v.tods.isEmpty && !v.tods.contains tod) = false := by
    rw [htods]
    rfl
  rw [variant_walk, h1]
  simp only [Bool.false_eq_true, if_false]
  rw [if_neg h]

/-- The method `tile::rebuild_cache` on a tile not marked sorted whose raw list holds one
entry, of an image reference with only its default variant (no time-of-day label,
weight 100, an animation of non-zero duration) that is not a background image: the
foreground list becomes that animation at the phase given by the seed, the background
list is empty. -/
theorem rebuild_cache_fresh (ext : externals) (t : tile) (tod : String) (img : rule_image)
    (v : rule_image_variant) (seed : Nat)
    (himgs : t.images = [⟨img, seed⟩]) (hsorted : t.sorted_images = false)
    (hv : img.variants = [v]) (htods : v.tods = []) (hp : v.probability = 100)
    (hd : to_unsigned v.image.get_animation_duration ≠ 0)
    (hfg : ext.is_background img = false) :
    ∃ t1, t.rebuild_cache ext tod = some t1 ∧
      t1.images_foreground =
        [{ v.image with animation_time :=
            ((seed % to_unsigned v.image.get_animation_duration : Nat) : Int) }] ∧
      t1.images_background = [] := by
  rcases sort_images_cases t with ⟨h, _⟩ | ⟨_, hs⟩
  · rw [hsorted] at h; cases h
  · have hw : variant_walk tod (((rule_image_rand.mk img seed).rand % 100 + 1 : Nat) : Int)
        (rule_image_rand.mk img seed).ri.variants = some v := by
      show variant_walk tod ((seed % 100 + 1 : Nat) : Int) img.variants = some v
      rw [hv]
      exact variant_walk_default tod seed v htods hp
    have hsort : stable_sort [rule_image_rand.mk img seed] = [rule_image_rand.mk img seed] := rfl
    unfold tile.rebuild_cache
    rw [hs, himgs, hsort]
    rcases rebuild_cache_entry_cases ext tod
        { t with images_background := [], images_foreground := [],
                 images := [rule_image_rand.mk img seed], sorted_images := true }
        (rule_image_rand.mk img seed) with
      ⟨hn, _⟩ | ⟨u, hu, h0, _⟩ | ⟨u, im, hu, _, him, ⟨hb, _⟩ | ⟨_, he⟩⟩
    · rw [hw] at hn; cases hn
    · rw [hw] at hu; cases hu; exact absurd h0 hd
    · rw [hfg] at hb; cases hb
    · rw [hw] at hu
      cases hu
      rw [rebuild_cache_loop]
      simp only [he, rebuild_cache_loop]
      refine ⟨_, rfl, ?_, rfl⟩
      simp only [List.nil_append, him]

theorem get_terrain_at_fresh (ext : externals) (b : builder) (loc : map_location)
    (tod : String) (t : tile) (img : rule_image) (v : rule_image_variant) (seed : Nat)
    (hon : b.tile_map_.on_map loc = true) (hat : b.tile_map_.at loc = some t)
    (himgs : t.images = [⟨img, seed⟩]) (hsorted : t.sorted_images = false)
    (hlast : t.last_tod = "invalid_tod")
    (hv : img.variants = [v]) (htods : v.tods = []) (hp : v.probability = 100)
    (hd : to_unsigned v.image.get_animation_duration ≠ 0)
    (hfg : ext.is_background img = false) (htod : tod ≠ "invalid_tod") :
    ∃ b2, get_terrain_at ext b loc tod TERRAIN_TYPE.FOREGROUND =
      some (some [{ v.image with animation_time :=
        ((seed % to_unsigned v.image.get_animation_duration : Nat) : Int) }], b2) := by
  obtain ⟨t1, hrc, hfore, _⟩ :=
    rebuild_cache_fresh ext t tod img v seed himgs hsorted hv htods hp hd hfg
  have hne : (tod != t.last_tod) = true := by
    rw [hlast]
    simpa using htod
  refine ⟨{ b with tile_map_ := b.tile_map_.set loc { t1 with last_tod := tod } }, ?_⟩
  unfold get_terrain_at
  simp only [hon, hat, hne, hrc, Option.map_some', Bool.not_true, Bool.false_eq_true, if_false,
    if_true, hfore, reduceCtorEq, List.isEmpty_cons, Bool.not_false]

theorem reload_map_eq (ext : externals) (b : builder) :
    reload_map ext b =
      rebuild_all ext { b with tile_map_ :=
        (⟨List.replicate ((b.map_.w + 4) * (b.map_.h + 4)).toNat tile.mk0,
            b.map_.w, b.map_.h⟩ : tilemap) } := rfl

/-- C12 (amended): on a 1x1 grid with a ruleset made of a single rule that has one
constraint at offset `(0, 0)` accepting every terrain of the map, no required or
forbidden flag, no probability, no anchor restriction and one image with only its
default variant (no time-of-day label, weight 100, an animation of non-zero duration),
the image not being a background image: the build (`reload_map`, or `rebuild_all` on a
1x1 tile map with its size invariant) returns, and for every time-of-day label other
than the label `invalid_tod` that a cleared tile carries, `get_terrain_at((0,0), tod,
foreground)` on the result returns a list of exactly one animation, the one of that
variant at the phase `seed mod duration` with the seed of `(0, 0)` for rule index 0. -/
theorem single_rule_foreground (ext : externals) (b : builder) (p : Int)
    (rule : building_rule) (k : map_location) (c : terrain_constraint) (img : rule_image)
    (v : rule_image_variant) (tod : String)
    (hw : b.map_.w = 1) (hh : b.map_.h = 1)
    (hrules : b.building_rules_ = [(p, rule)])
    (hc : rule.constraints = [(k, c)]) (hloc : c.loc = ⟨0, 0⟩)
    (hany : ∀ loc, ext.terrain_matches (b.map_.get_terrain loc) c.terrain_types_match = true)
    (hno : c.no_flag = []) (hhas : c.has_flag = []) (himgs : c.images = [img])
    (hvalid : ext.valid rule.location_constraints = false) (hprob : rule.probability = -1)
    (hv : img.variants = [v]) (htods : v.tods = []) (hp : v.probability = 100)
    (hd : to_unsigned v.image.get_animation_duration ≠ 0)
    (hfg : ext.is_background img = false) (htod : tod ≠ "invalid_tod") :
    ∃ b1 b2, reload_map ext b = some b1 ∧
      (b.tile_map_.wf → b.tile_map_.x_ = 1 → b.tile_map_.y_ = 1 →
        rebuild_all ext b = some b1) ∧
      get_terrain_at ext b1 ⟨0, 0⟩ tod TERRAIN_TYPE.FOREGROUND =
        some (some [{ v.image with animation_time :=
          ((get_noise ⟨0, 0⟩ (to_unsigned 0) %
            to_unsigned v.image.get_animation_duration : Nat) : Int) }], b2) := by
  have hgrid : (grid_locations b.map_).length = 16 := by
    unfold grid_locations
    rw [hw, hh]
    rfl
  have hmem : (⟨0, 0⟩ : map_location) ∈ grid_locations b.map_ := by
    rw [mem_grid_locations, hw, hh]
    decide
  have hwf0 : tilemap.wf (⟨List.replicate ((b.map_.w + 4) * (b.map_.h + 4)).toNat tile.mk0,
            b.map_.w, b.map_.h⟩ : tilemap) := by
    simp [tilemap.wf]
  obtain ⟨b1, hb1, hwf1, hon1, hat1⟩ := rebuild_all_plain ext
    { b with tile_map_ :=
      (⟨List.replicate ((b.map_.w + 4) * (b.map_.h + 4)).toNat tile.mk0,
            b.map_.w, b.map_.h⟩ : tilemap) }
    p rule k c hrules hc hloc hno hhas hvalid hprob hany
    (by rw [hgrid]; decide) hwf0 rfl rfl ⟨0, 0⟩ hmem
  have hspec := apply_constraint_spec (tile.clear tile.mk0) c (get_noise ⟨0, 0⟩ (to_unsigned 0))
  obtain ⟨b2, hb2⟩ := get_terrain_at_fresh ext b1 ⟨0, 0⟩ tod _ img v
    (get_noise ⟨0, 0⟩ (to_unsigned 0)) hon1 hat1
    (by rw [hspec.1, himgs]; rfl) (by rw [hspec.2.2.2.2.2]; rfl) (by rw [hspec.2.2.2.2.1]; rfl)
    hv htods hp hd hfg htod
  refine ⟨b1, b2, ?_, ?_, hb2⟩
  · rw [reload_map_eq]
    exact hb1
  · intro hwf hx hy
    have hlen : b.tile_map_.tiles_.length = ((b.map_.w + 4) * (b.map_.h + 4)).toNat := by
      have h1 : b.tile_map_.tiles_.length =
          ((b.tile_map_.x_ + 4) * (b.tile_map_.y_ + 4)).toNat := hwf
      rw [h1, hx, hy, hw, hh]
    have hr : b.tile_map_.reset = tilemap.reset (⟨List.replicate ((b.map_.w + 4) * (b.map_.h + 4)).toNat tile.mk0,
            b.map_.w, b.map_.h⟩ : tilemap) :=
      reset_eq _ _ (by rw [hx, hw]) (by rw [hy, hh]) (by rw [hlen]; simp)
    have hb1' : build_terrains ext
        { b with
          tile_map_ := tilemap.reset (⟨List.replicate ((b.map_.w + 4) * (b.map_.h + 4)).toNat tile.mk0,
            b.map_.w, b.map_.h⟩ : tilemap),
          terrain_by_type_ := [] } = some b1 := hb1
    unfold rebuild_all
    rw [hr]
    exact hb1'

/-- C12 witness: the 1x1 sample map with the plain rule whose image has layer 0; the
query at dawn returns the one animation of the image. -/
theorem single_rule_foreground_witness :
    (("dawn" : String) ≠ "invalid_tod") ∧
    sample_externals.is_background (sample_image 0 "grass.png") = false ∧
    ∃ b1 b2, reload_map sample_externals (sample_builder_plain 0) = some b1 ∧
      get_terrain_at sample_externals b1 ⟨0, 0⟩ "dawn" TERRAIN_TYPE.FOREGROUND =
        some (some [{ frames := [(100, ⟨"terrain/grass.png", "", none⟩)], started := true,
                      animation_time :=
                        ((get_noise ⟨0, 0⟩ (to_unsigned 0) % 100 : Nat) : Int) }], b2) := by
  obtain ⟨b1, b2, h1, _, h2⟩ := single_rule_foreground sample_externals
    (sample_builder_plain 0) 0 (sample_rule_plain 0) ⟨0, 0⟩
    { loc := ⟨0, 0⟩, terrain_types_match := ⟨[7]⟩, set_flag := [], no_flag := [],
      has_flag := [], images := [sample_image 0 "grass.png"] }
    (sample_image 0 "grass.png")
    { image_string := "grass.png",
      image := { frames := [(100, ⟨"terrain/grass.png", "", none⟩)], started := true,
                 animation_time := 0 },
      tods := [], probability := 100 }
    "dawn" rfl rfl rfl rfl rfl (fun _ => rfl) rfl rfl rfl rfl rfl rfl rfl rfl
    (by decide) rfl (by decide)
  exact ⟨by decide, rfl, b1, b2, h1, h2⟩

/-- C12 counterexample: on the 1x1 sample map with the plain rule, the build puts the
one image on the tile of `(0, 0)`, yet the foreground query with the label
`invalid_tod` returns `NULL`: a cleared tile carries that label as its cached label,
so the lists are not rebuilt and the foreground list is still empty. With an image of
layer -1, a background image for the sample externals, the foreground query at dawn
returns `NULL` as well, the image being in the background list. -/
theorem sentinel_tod_returns_null :
    ((reload_map sample_externals (sample_builder_plain 0)).bind
        (fun b1 => b1.tile_map_.at ⟨0, 0⟩)).map (fun t => t.images.map (fun e => e.ri)) =
      some [sample_image 0 "grass.png"] ∧
    (reload_map sample_externals (sample_builder_plain 0)).bind
        (fun b1 => (get_terrain_at sample_externals b1 ⟨0, 0⟩ "invalid_tod"
          TERRAIN_TYPE.FOREGROUND).map Prod.fst) = some none ∧
    (reload_map sample_externals (sample_builder_plain (-1))).bind
        (fun b1 => (get_terrain_at sample_externals b1 ⟨0, 0⟩ "dawn"
          TERRAIN_TYPE.FOREGROUND).map Prod.fst) = some none ∧
    ((reload_map sample_externals (sample_builder_plain (-1))).bind
        (fun b1 => (get_terrain_at sample_externals b1 ⟨0, 0⟩ "dawn"
          TERRAIN_TYPE.BACKGROUND).map Prod.fst)).map (fun r => r.map List.length) =
      some (some 1) := by
  refine ⟨by decide, by decide, by decide, by decide⟩

/-! ### Token replacement in a string -/

theorem string_find_none_iff (token : List Char) :
    ∀ s : List Char, string_find s token = none ↔ ¬ token <:+: s := by
  intro s
  induction s with
  | nil =>
    rw [string_find]
    cases token with
    | nil => simp
    | cons c rest => simp
  | cons c rest ih =>
    rw [string_find, List.infix_cons_iff]
    by_cases hp : token.isPrefixOf (c :: rest) = true
    · rw [if_pos hp]
      have hpre : token <+: c :: rest := List.isPrefixOf_iff_prefix.mp hp
      simp [hpre]
    · rw [if_neg hp]
      have hpre : ¬ token <+: c :: rest := fun h => hp (List.isPrefixOf_iff_prefix.mpr h)
      rw [Option.map_eq_none', ih]
      simp [hpre]

theorem replace_loop_result (token replacement : List Char) :
    ∀ (fuel : Nat) (s s1 : List Char), replace_loop token replacement fuel s = some s1 →
      string_find s1 token = none := by
  intro fuel
  induction fuel with
  | zero =>
    intro s s1 h
    rw [replace_loop] at h
    cases hf : string_find s token with
    | none => rw [hf] at h; cases h; exact hf
    | some pos => rw [hf] at h; cases h
  | succ n ih =>
    intro s s1 h
    rw [replace_loop] at h
    cases hf : string_find s token with
    | none => rw [hf] at h; cases h; exact hf
    | some pos => rw [hf] at h; exact ih _ s1 h

theorem replace_loop_diverges (token replacement : List Char)
    (hrep : token <:+: replacement) :
    ∀ (fuel : Nat) (s : List Char), token <:+: s →
      replace_loop token replacement fuel s = none := by
  intro fuel
  induction fuel with
  | zero =>
    intro s hs
    rw [replace_loop]
    cases hf : string_find s token with
    | none => exact absurd hs ((string_find_none_iff token s).mp hf)
    | some pos => rfl
  | succ n ih =>
    intro s hs
    rw [replace_loop]
    cases hf : string_find s token with
    | none => exact absurd hs ((string_find_none_iff token s).mp hf)
    | some pos =>
      apply ih
      have h1 : replacement <:+: s.take pos ++ replacement ++ s.drop (pos + token.length) :=
        ⟨s.take pos, s.drop (pos + token.length), rfl⟩
      exact List.IsInfix.trans hrep h1

/-- C25 (amended): with an empty token the string overload of `replace_token` returns
at once and leaves `s` unchanged. With a non-empty token that has a character `ch`
which does not occur in the replacement, the loop ends after at most as many
replacements as `s` has characters `ch`, and on return `s` contains no occurrence of
the token. Whenever the loop ends, for any token and replacement, `s` contains no
occurrence of the token. -/
theorem replace_token_spec (s token replacement : String) (ch : Char)
    (htok : ch ∈ token.toList) (hrep : ch ∉ replacement.toList) :
    (∀ fuel, s.toList.count ch ≤ fuel →
      ∃ s1, replace_token fuel s token replacement = some s1 ∧
        ¬ token.toList <:+: s1.toList) ∧
    (∀ (fuel : Nat) (t r : String), replace_token fuel s "" r = some s ∧
      ∀ s1, t.isEmpty = false → replace_token fuel s t r = some s1 →
        ¬ t.toList <:+: s1.toList) := by
  constructor
  · intro fuel hfuel
    have hne : token.isEmpty = false := by
      cases hte : token.isEmpty
      · rfl
      · have : token.toList = [] := by
          have h0 := (String.isEmpty_iff token).mp hte
          rw [h0]
          rfl
        rw [this] at htok
        cases htok
    obtain ⟨l, hl, _⟩ := replace_loop_terminates token.toList replacement.toList ch
      htok hrep fuel s.toList hfuel
    refine ⟨String.mk l, ?_, ?_⟩
    · simp only [replace_token, hne, Bool.false_eq_true, if_false, hl, Option.map_some']
    · exact (string_find_none_iff token.toList l).mp
        (replace_loop_result token.toList replacement.toList fuel s.toList l hl)
  · intro fuel t r
    constructor
    · rfl
    · intro s1 ht h
      simp only [replace_token, ht, Bool.false_eq_true, if_false] at h
      cases hl : replace_loop t.toList r.toList fuel s.toList with
      | none => rw [hl] at h; cases h
      | some l =>
        rw [hl] at h
        simp only [Option.map_some', Option.some.injEq] at h
        subst h
        exact (string_find_none_iff t.toList l).mp
          (replace_loop_result t.toList r.toList fuel s.toList l hl)

/-- C25 witness: the token `@R0` in the flag `flag-@R0` replaced by the name `n`. -/
theorem replace_token_spec_witness :
    '@' ∈ ("@R0" : String).toList ∧ '@' ∉ ("n" : String).toList ∧
    replace_token 1 "flag-@R0" "@R0" "n" = some "flag-n" ∧
    ∃ s1, replace_token 1 "flag-@R0" "@R0" "n" = some s1 ∧
      ¬ ("@R0" : String).toList <:+: s1.toList :=
  ⟨by decide, by decide, by decide,
    (replace_token_spec "flag-@R0" "@R0" "n" '@' (by decide) (by decide)).1 1 (by decide)⟩

/-- C25 counterexample: the token `a` replaced by `a` in the string `a`, and the token
`@R0` replaced by the name `x@R0` in the flag `flag-@R0`: the replacement contains the
token, every replacement leaves an occurrence, and the loop does not end, whatever the
number of replacements allowed. -/
theorem replace_token_loops :
    (∀ fuel, replace_token fuel "a" "a" "a" = none) ∧
    (∀ fuel, replace_token fuel "flag-@R0" "@R0" "x@R0" = none) := by
  constructor
  · intro fuel
    have h := replace_loop_diverges ("a" : String).toList ("a" : String).toList
      (List.infix_refl _) fuel ("a" : String).toList (List.infix_refl _)
    simp only [replace_token, h, Option.map_none']
    rfl
  · intro fuel
    have h := replace_loop_diverges ("@R0" : String).toList ("x@R0" : String).toList
      ⟨['x'], [], rfl⟩ fuel ("flag-@R0" : String).toList
      ⟨['f', 'l', 'a', 'g', '-'], [], rfl⟩
    simp only [replace_token, h, Option.map_none']
    rfl

/-! ### The probability test -/

/-- C23 (divergence): the probability test of `rule_matches` rejects an anchor only when
`get_noise(anchor, rule-index) mod 100` is greater than the probability, so for a rule
without anchor restriction and without constraints the result is true exactly when the
probability is -1 or the residue is at most the probability. For `p` in `0..99` the
test accepts the `p + 1` residues `0..p`, not `p` of them. On the 1x1 sample map the
rule with probability 45 and rule index 0 matches at `(0, 0)`, where the residue is 45,
which is not below 45; and the rule with probability 0 and rule index 3 matches at
`(0, 10)` on the grid of height 10, where the residue is 0. -/
theorem probability_test_off_by_one :
    (∀ (ext : externals) (map : gamemap) (tm : tilemap) (rule : building_rule)
        (loc : map_location) (i : Int) (k : Option map_location),
      ext.valid rule.location_constraints = false → rule.constraints = [] →
      rule_matches ext map tm rule loc i k =
        some (decide (rule.probability = -1) ||
          decide (get_noise loc (to_unsigned i) % 100 ≤ to_unsigned rule.probability))) ∧
    (∀ p : Nat, p ≤ 99 → to_unsigned (p : Int) = p ∧
      ((List.range 100).filter (fun r => decide (r ≤ to_unsigned (p : Int)))).length =
        p + 1) ∧
    get_noise ⟨0, 0⟩ (to_unsigned 0) % 100 = 45 ∧
    rule_matches sample_externals sample_map sample_tilemap (sample_rule_probability 45)
      ⟨0, 0⟩ 0 none = some true ∧
    rule_matches sample_externals sample_map sample_tilemap (sample_rule_probability 44)
      ⟨0, 0⟩ 0 none = some false ∧
    get_noise ⟨0, 10⟩ (to_unsigned 3) % 100 = 0 ∧
    sample_tilemap_tall.on_map ⟨0, 10⟩ = true ∧
    rule_matches sample_externals sample_map sample_tilemap_tall (sample_rule_probability 0)
      ⟨0, 10⟩ 3 none = some true := by
  refine ⟨?_, ?_, by decide, by decide, by decide, by decide, by decide, by decide⟩
  · intro ext map tm rule loc i k hvalid hc
    unfold rule_matches
    rw [hvalid, hc]
    by_cases hp : rule.probability = -1
    · simp [hp, rule_matches_loop]
    · by_cases hn : get_noise loc (to_unsigned i) % 100 > to_unsigned rule.probability
      · have hle : ¬ (get_noise loc (to_unsigned i) % 100 ≤ to_unsigned rule.probability) :=
          not_le.mpr hn
        simp [hp, hn, hle]
      · have hle : get_noise loc (to_unsigned i) % 100 ≤ to_unsigned rule.probability :=
          not_lt.mp hn
        simp [hp, hle, rule_matches_loop]
  · intro p hp
    interval_cases p <;> exact ⟨rfl, rfl⟩

/-! ### The seed of the images placed by a rule with a probability -/

theorem apply_rule_loop_images (a : map_location) (seed : Nat) (cs : constraint_set) :
    ∀ (tm tm1 : tilemap), tm.wf → apply_rule_loop a seed cs tm = some tm1 →
      ∀ L t0, tm.at L = some t0 →
        ∃ t1 added, tm1.at L = some t1 ∧ t1.images = t0.images ++ added ∧
          t1.sorted_images = t0.sorted_images ∧
          ∀ e ∈ added, e.rand = seed ∧ ∃ c ∈ cs, e.ri ∈ c.2.images := by
  induction cs with
  | nil =>
    intro tm tm1 _ h L t0 ht0
    rw [apply_rule_loop] at h
    cases h
    exact ⟨t0, [], ht0, by simp, rfl, fun e he => by cases he⟩
  | cons c rest ih =>
    intro tm tm1 hwf h L t0 ht0
    rw [apply_rule_loop] at h
    by_cases hon : tm.on_map (a.legacy_sum c.2.loc) = true
    · simp only [hon, Bool.not_true, Bool.false_eq_true, if_false] at h
      obtain ⟨bt, hbt⟩ := at_some_of_on_map tm hwf _ hon
      rw [hbt] at h
      simp only at h
      have hspec := apply_constraint_spec bt c.2 seed
      by_cases hL : L = a.legacy_sum c.2.loc
      · subst hL
        have hbe : bt = t0 := by
          rw [hbt] at ht0
          exact Option.some.inj ht0
        subst hbe
        obtain ⟨t1, added, h1, h2, h3, h4⟩ := ih _ tm1 (set_wf tm hwf _ _) h _ _
          (at_set_same tm hwf _ (apply_constraint bt c.2 seed) hon)
        refine ⟨t1, c.2.images.map (fun img => rule_image_rand.mk img seed) ++ added, h1, ?_,
          ?_, ?_⟩
        · rw [h2, hspec.1, List.append_assoc]
        · rw [h3, hspec.2.2.2.2.2]
        · intro e he
          rcases List.mem_append.mp he with he1 | he1
          · obtain ⟨img, himg, rfl⟩ := List.mem_map.mp he1
            exact ⟨rfl, c, List.mem_cons_self _ _, himg⟩
          · obtain ⟨hr, c1, hc1, hi⟩ := h4 e he1
            exact ⟨hr, c1, List.mem_cons_of_mem _ hc1, hi⟩
      · obtain ⟨t1, added, h1, h2, h3, h4⟩ := ih _ tm1 (set_wf tm hwf _ _) h L t0
          (by rw [at_set_other tm _ _ L hon hL]; exact ht0)
        refine ⟨t1, added, h1, h2, h3, ?_⟩
        intro e he
        obtain ⟨hr, c1, hc1, hi⟩ := h4 e he
        exact ⟨hr, c1, List.mem_cons_of_mem _ hc1, hi⟩
    · have hoff : tm.on_map (a.legacy_sum c.2.loc) = false := by simpa using hon
      simp only [hoff, Bool.not_false, if_true] at h
      cases h
      exact ⟨t0, [], ht0, by simp, rfl, fun e he => by cases he⟩

theorem rule_matches_true_probability (ext : externals) (map : gamemap) (tm : tilemap)
    (rule : building_rule) (a : map_location) (i : Int) (k : Option map_location)
    (hm : rule_matches ext map tm rule a i k = some true) :
    rule.probability = -1 ∨
      get_noise a (to_unsigned i) % 100 ≤ to_unsigned rule.probability := by
  unfold rule_matches at hm
  by_cases hp : rule.probability = -1
  · exact Or.inl hp
  · right
    by_contra hn
    have hgt : get_noise a (to_unsigned i) % 100 > to_unsigned rule.probability :=
      not_le.mp hn
    split_ifs at hm with h1 h2
    · cases hm
    · cases hm
    · apply h2
      simp [hp, hgt]

/-- A walk that starts with a positive value not above the weight of the applicable
variants of a prefix of the list selects a variant of that prefix. -/
theorem variant_walk_prefix (tod : String) (rest : List rule_image_variant) :
    ∀ (pre : List rule_image_variant) (r : Int), 0 < r → r ≤ applicable_weight tod pre →
      ∃ v ∈ pre, variant_walk tod r pre = some v ∧
        variant_walk tod r (pre ++ rest) = some v := by
  intro pre
  induction pre with
  | nil =>
    intro r h0 hr
    simp only [applicable_weight, List.filter_nil, List.map_nil, List.sum_nil] at hr
    omega
  | cons u pre1 ih =>
    intro r h0 hr
    rw [applicable_weight_cons] at hr
    rw [List.cons_append, variant_walk, variant_walk]
    by_cases ha : u.applicable tod = true
    · have hskip : (!u.tods.isEmpty && !u.tods.contains tod) = false := by
        unfold rule_image_variant.applicable at ha
        cases h1 : u.tods.isEmpty <;> cases h2 : u.tods.contains tod <;> simp_all
      rw [hskip]
      simp only [Bool.false_eq_true, if_false]
      rw [if_pos ha] at hr
      by_cases hgt : r > u.probability
      · rw [if_pos hgt, if_pos hgt]
        obtain ⟨v, hv, h1, h2⟩ := ih (r - u.probability) (by omega) (by omega)
        exact ⟨v, List.mem_cons_of_mem _ hv, h1, h2⟩
      · rw [if_neg hgt, if_neg hgt]
        exact ⟨u, List.mem_cons_self _ _, rfl, rfl⟩
    · have hskip : (!u.tods.isEmpty && !u.tods.contains tod) = true := by
        unfold rule_image_variant.applicable at ha
        cases h1 : u.tods.isEmpty <;> cases h2 : u.tods.contains tod <;> simp_all
      rw [hskip]
      simp only [if_true]
      rw [if_neg ha] at hr
      obtain ⟨v, hv, h1, h2⟩ := ih r h0 (by omega)
      exact ⟨v, List.mem_cons_of_mem _ hv, h1, h2⟩

theorem to_unsigned_of_nonneg (p : Int) (h0 : 0 ≤ p) (h1 : p < 4294967296) :
    ((to_unsigned p : Nat) : Int) = p := by
  unfold to_unsigned
  rw [Int.emod_eq_of_lt h0 h1, Int.toNat_of_nonneg h0]

/-- C27: while `build_terrains` processes a rule with probability `p` in `0..99` and rule
index `i` (on a tile map with its size invariant), every raw entry that the rule
appends to a tile stores the seed `get_noise(a, i)` of an anchor `a` at which the rule
was applied, the same value whose residue modulo 100 passed the probability test, so
the variant random value `r = seed mod 100 + 1` satisfies `1 <= r <= p + 1`.
Consequently, whenever the applicable variants of a prefix of the variant list have a
total weight of at least `p + 1`, the variant loop of `tile::rebuild_cache` selects a
variant of that prefix: the variants after it are never selected for images of this
rule. -/
theorem seed_within_probability (ext : externals) (map : gamemap)
    (tbt : terrain_by_type_map) (rule : building_rule) (i : Int) (s : tilemap × apply_log)
    (hwf : s.1.wf) (hp0 : 0 ≤ rule.probability) (hp99 : rule.probability ≤ 99) :
    ∃ s1, build_rule ext map tbt rule i s = some s1 ∧
      ∀ L t0, s.1.at L = some t0 →
        ∃ t1 added, s1.1.at L = some t1 ∧ t1.images = t0.images ++ added ∧
          ∀ e ∈ added,
            (∃ a, (i, a) ∈ s1.2 ∧ e.rand = get_noise a (to_unsigned i)) ∧
            (∃ c ∈ rule.constraints, e.ri ∈ c.2.images) ∧
            1 ≤ ((e.rand % 100 + 1 : Nat) : Int) ∧
            ((e.rand % 100 + 1 : Nat) : Int) ≤ rule.probability + 1 ∧
            ∀ (tod : String) (pre rest : List rule_image_variant),
              e.ri.variants = pre ++ rest →
              rule.probability + 1 ≤ applicable_weight tod pre →
              ∃ v ∈ pre,
                variant_walk tod ((e.rand % 100 + 1 : Nat) : Int) e.ri.variants = some v := by
  have hpu := to_unsigned_of_nonneg rule.probability hp0 (by omega)
  obtain ⟨s1, h1, _, hI⟩ := build_rule_inv ext map tbt rule i
    (fun s' => ∀ L t0, s.1.at L = some t0 →
      ∃ t1 added, s'.1.at L = some t1 ∧ t1.images = t0.images ++ added ∧
        ∀ e ∈ added,
          (∃ a, (i, a) ∈ s'.2 ∧ e.rand = get_noise a (to_unsigned i) ∧
            ((get_noise a (to_unsigned i) % 100 : Nat) : Int) ≤ rule.probability) ∧
          (∃ c ∈ rule.constraints, e.ri ∈ c.2.images))
    (by
      intro s' a k tm1 hw hI hm ha L t0 ht0
      obtain ⟨t1, added, ht1, himg, hall⟩ := hI L t0 ht0
      obtain ⟨t2, added2, ht2, himg2, _, hall2⟩ :=
        apply_rule_loop_images a (get_noise a (to_unsigned i)) rule.constraints s'.1 tm1 hw ha
          L t1 ht1
      have hprob : ((get_noise a (to_unsigned i) % 100 : Nat) : Int) ≤ rule.probability := by
        rcases rule_matches_true_probability ext map s'.1 rule a i k hm with h | h
        · omega
        · rw [← hpu]
          exact_mod_cast h
      refine ⟨t2, added ++ added2, ht2, by rw [himg2, himg, List.append_assoc], ?_⟩
      intro e he
      rcases List.mem_append.mp he with he1 | he1
      · obtain ⟨⟨a1, hlog, hr, hb⟩, hc⟩ := hall e he1
        exact ⟨⟨a1, List.mem_append_left _ hlog, hr, hb⟩, hc⟩
      · obtain ⟨hr, hc⟩ := hall2 e he1
        exact ⟨⟨a, List.mem_append_right _ (List.mem_singleton.mpr rfl), hr, hprob⟩, hc⟩)
    s hwf
    (by
      intro L t0 ht0
      exact ⟨t0, [], ht0, by simp, fun e he => by cases he⟩)
  refine ⟨s1, h1, ?_⟩
  intro L t0 ht0
  obtain ⟨t1, added, ht1, himg, hall⟩ := hI L t0 ht0
  refine ⟨t1, added, ht1, himg, ?_⟩
  intro e he
  obtain ⟨⟨a, hlog, hr, hb⟩, hc⟩ := hall e he
  have hr1 : (1 : Int) ≤ ((e.rand % 100 + 1 : Nat) : Int) := by omega
  have hr2 : ((e.rand % 100 + 1 : Nat) : Int) ≤ rule.probability + 1 := by
    rw [hr]
    push_cast
    push_cast at hb
    omega
  refine ⟨⟨a, hlog, hr⟩, hc, hr1, hr2, ?_⟩
  intro tod pre rest hvs hw
  obtain ⟨v, hv, _, h2⟩ := variant_walk_prefix tod rest pre
    ((e.rand % 100 + 1 : Nat) : Int) (by omega) (by omega)
  exact ⟨v, hv, by rw [hvs]; exact h2⟩

/-- C27 witness: the plain sample rule with probability 45 processed with rule index 0
on the 1x1 sample map; every entry it places has `r <= 46`, and the tile of `(0, 0)`
receives one entry, with `r = 46`. -/
theorem seed_within_probability_witness :
    sample_tilemap.wf ∧
    ((build_rule sample_externals sample_map (build_terrain_by_type sample_map [])
        (sample_rule_probability 45) 0 (sample_tilemap, [])).bind
      (fun s1 => s1.1.at ⟨0, 0⟩)).map (fun t => t.images.map (fun e => e.rand % 100 + 1)) =
      some [46] ∧
    ∃ s1, build_rule sample_externals sample_map (build_terrain_by_type sample_map [])
        (sample_rule_probability 45) 0 (sample_tilemap, []) = some s1 ∧
      ∀ L t0, sample_tilemap.at L = some t0 →
        ∃ t1 added, s1.1.at L = some t1 ∧ t1.images = t0.images ++ added ∧
          ∀ e ∈ added, ((e.rand % 100 + 1 : Nat) : Int) ≤ 46 := by
  obtain ⟨s1, h1, h2⟩ := seed_within_probability sample_externals sample_map
    (build_terrain_by_type sample_map []) (sample_rule_probability 45) 0
    (sample_tilemap, []) (by decide) (by decide) (by decide)
  refine ⟨by decide, by decide, s1, h1, ?_⟩
  intro L t0 ht0
  obtain ⟨t1, added, ht1, himg, hall⟩ := h2 L t0 ht0
  exact ⟨t1, added, ht1, himg, fun e he => (hall e he).2.2.2.1⟩

/-! ### The duration of loaded animations -/

theorem load_all_result {α β : Type} (f : α → Option (Option β)) :
    ∀ (l : List α) (l1 : List β), load_all f l = some (some l1) →
      ∀ b ∈ l1, ∃ a ∈ l, f a = some (some b) := by
  intro l
  induction l with
  | nil =>
    intro l1 h b hb
    rw [load_all] at h
    cases h
    cases hb
  | cons a rest ih =>
    intro l1 h b hb
    rw [load_all] at h
    cases hfa : f a with
    | none => rw [hfa] at h; cases h
    | some r =>
      cases r with
      | none => rw [hfa] at h; cases h
      | some a1 =>
        rw [hfa] at h
        cases hrest : load_all f rest with
        | none => rw [hrest] at h; cases h
        | some r1 =>
          cases r1 with
          | none => rw [hrest] at h; cases h
          | some rest1 =>
            rw [hrest] at h
            cases h
            rcases List.mem_cons.mp hb with rfl | hb1
            · exact ⟨a, List.mem_cons_self _ _, hfa⟩
            · obtain ⟨a2, ha2, hf2⟩ := ih rest1 hrest b hb1
              exact ⟨a2, List.mem_cons_of_mem _ ha2, hf2⟩

theorem load_frame_time (ext : externals) (cl : map_location) (ri : rule_image)
    (frame : String) (fi : Int × locator) (h : load_frame ext cl ri frame = some (some fi)) :
    fi.1 = 100 ∨ ∃ s, fi.1 = ext.atoi s := by
  cases hh : (ext.split frame ':').head? with
  | none => simp [load_frame, hh] at h
  | some str =>
    simp only [load_frame, hh] at h
    split_ifs at h
    all_goals first
      | (cases h; done)
      | (simp only [Option.some.injEq] at h
         rw [← h]
         first
           | exact Or.inl rfl
           | exact Or.inr ⟨_, rfl⟩)

theorem load_variant_frames (ext : externals) (cl : map_location) (ri : rule_image)
    (v v1 : rule_image_variant) (h : load_variant ext cl ri v = some (some v1)) :
    v1.image.frames ≠ [] ∧ ∀ fr ∈ v1.image.frames, fr.1 = 100 ∨ ∃ s, fr.1 = ext.atoi s := by
  unfold load_variant at h
  cases hl : load_all (load_frame ext cl ri) (ext.parenthetical_split v.image_string) with
  | none => rw [hl] at h; cases h
  | some r =>
    cases r with
    | none => rw [hl] at h; cases h
    | some frames =>
      rw [hl] at h
      simp only at h
      split_ifs at h with he
      · cases h
      simp only [Option.some.injEq] at h
      subst h
      refine ⟨?_, ?_⟩
      · intro hn
        apply he
        have hn1 : frames = [] := hn
        rw [hn1]
        rfl
      · intro fr hfr
        obtain ⟨frame, _, hf⟩ := load_all_result _ _ frames hl fr hfr
        exact load_frame_time ext cl ri frame fr hf

theorem load_images_frames (ext : externals) (rule rule1 : building_rule)
    (h : load_images ext rule = some (some rule1)) :
    ∀ c ∈ rule1.constraints, ∀ ri ∈ c.2.images, ∀ v ∈ ri.variants,
      v.image.frames ≠ [] ∧ ∀ fr ∈ v.image.frames, fr.1 = 100 ∨ ∃ s, fr.1 = ext.atoi s := by
  unfold load_images at h
  split_ifs at h with hemp
  · cases h
  cases hl : load_all (load_constraint ext) rule.constraints with
  | none => rw [hl] at h; cases h
  | some r =>
    cases r with
    | none => rw [hl] at h; cases h
    | some cs =>
      rw [hl] at h
      cases h
      intro c hc ri hri v hv
      obtain ⟨c0, _, hc0⟩ := load_all_result _ _ cs hl c hc
      unfold load_constraint at hc0
      cases hli : load_all (load_image ext c0.2.loc) c0.2.images with
      | none => rw [hli] at hc0; cases hc0
      | some r1 =>
        cases r1 with
        | none => rw [hli] at hc0; cases hc0
        | some imgs =>
          rw [hli] at hc0
          cases hc0
          obtain ⟨ri0, _, hri0⟩ := load_all_result _ _ imgs hli ri hri
          unfold load_image at hri0
          cases hlv : load_all (load_variant ext c0.2.loc ri0) ri0.variants with
          | none => rw [hlv] at hri0; cases hri0
          | some r2 =>
            cases r2 with
            | none => rw [hlv] at hri0; cases hri0
            | some vs =>
              rw [hlv] at hri0
              cases hri0
              obtain ⟨v0, _, hv0⟩ := load_all_result _ _ vs hlv v hv
              exact load_variant_frames ext c0.2.loc ri0 v0 v hv0

theorem sum_pos_of_pos : ∀ l : List Int, l ≠ [] → (∀ x ∈ l, 0 < x) → 0 < l.sum := by
  intro l
  induction l with
  | nil => intro h _; exact absurd rfl h
  | cons a rest ih =>
    intro _ hall
    rw [List.sum_cons]
    have ha : 0 < a := hall a (List.mem_cons_self _ _)
    cases rest with
    | nil => simpa using ha
    | cons b rest1 =>
      have := ih (by simp) (fun x hx => hall x (List.mem_cons_of_mem _ hx))
      omega

/-- C24 (divergence): in a rule accepted by `load_images` every variant's animation has
at least one frame, each with the duration 100 or the value `atoi` gives for the text
after the last colon; the total duration is positive when `atoi` only returns positive
values, but nothing in `load_images` rejects an explicit duration of 0. With the frame
`flash.png:0` the rule is accepted, its animation has the total duration 0, the rule is
stored by `add_rule` and applied by the build on the 1x1 sample map, and the phase
computation `seed mod duration` of `tile::rebuild_cache` is then a modulus by zero
(`none` in the model), reached through `get_terrain_at`. -/
theorem zero_duration_accepted :
    (∀ (ext : externals) (rule rule1 : building_rule),
      load_images ext rule = some (some rule1) →
      ∀ c ∈ rule1.constraints, ∀ ri ∈ c.2.images, ∀ v ∈ ri.variants,
        v.image.frames ≠ [] ∧
        (∀ fr ∈ v.image.frames, fr.1 = 100 ∨ ∃ s, fr.1 = ext.atoi s) ∧
        ((∀ s, 0 < ext.atoi s) → 0 < v.image.get_animation_duration)) ∧
    (load_images sample_externals_timed sample_rule_zero).map
      (fun r => r.map (fun rule1 => rule1.constraints.flatMap (fun c =>
        c.2.images.flatMap (fun ri => ri.variants.map (fun v =>
          (v.image.frames.map Prod.fst, to_unsigned v.image.get_animation_duration)))))) =
      some (some [([0], 0)]) ∧
    ((add_rule sample_externals_timed [] sample_rule_zero 0).bind
      (fun rules => reload_map sample_externals_timed
        { sample_builder with building_rules_ := rules })).map
      (fun b1 => (b1.building_rules_.length,
        (b1.tile_map_.at ⟨0, 0⟩).map (fun t => t.images.length))) = some (1, some 1) ∧
    ((add_rule sample_externals_timed [] sample_rule_zero 0).bind
      (fun rules => (reload_map sample_externals_timed
        { sample_builder with building_rules_ := rules }).bind
        (fun b1 => get_terrain_at sample_externals_timed b1 ⟨0, 0⟩ "dawn"
          TERRAIN_TYPE.FOREGROUND))).isSome = false := by
  refine ⟨?_, by decide, by decide, by decide⟩
  intro ext rule rule1 h c hc ri hri v hv
  obtain ⟨hne, hfr⟩ := load_images_frames ext rule rule1 h c hc ri hri v hv
  refine ⟨hne, hfr, ?_⟩
  intro hpos
  unfold animated.get_animation_duration
  apply sum_pos_of_pos
  · intro hn
    apply hne
    exact List.map_eq_nil_iff.mp hn
  · intro x hx
    obtain ⟨fr, hfr1, rfl⟩ := List.mem_map.mp hx
    rcases hfr fr hfr1 with h100 | ⟨s, hs⟩
    · rw [h100]; decide
    · rw [hs]; exact hpos s

/-! ### The choice of the minimal constraint -/

theorem candidate_count_cons (ext : externals) (e : t_terrain × List map_location)
    (tbt : terrain_by_type_map) (m : t_match) :
    candidate_count ext (e :: tbt) m =
      (if ext.terrain_matches e.1 m = true then e.2.length else 0) +
        candidate_count ext tbt m := by
  unfold candidate_count
  by_cases h : ext.terrain_matches e.1 m = true
  · simp [List.filter_cons, h]
  · simp [List.filter_cons, h]

theorem accepted_types_cons (ext : externals) (e : t_terrain × List map_location)
    (tbt : terrain_by_type_map) (m : t_match) :
    accepted_types ext (e :: tbt) m =
      (if ext.terrain_matches e.1 m = true then [e.1] else []) ++
        accepted_types ext tbt m := by
  unfold accepted_types
  by_cases h : ext.terrain_matches e.1 m = true
  · simp [List.filter_cons, h]
  · simp [List.filter_cons, h]

theorem candidate_count_le (ext : externals) (tbt : terrain_by_type_map) (m : t_match) :
    candidate_count ext tbt m ≤ index_size tbt := by
  induction tbt with
  | nil => simp [candidate_count, index_size]
  | cons e rest ih =>
    rw [candidate_count_cons]
    have hs : index_size (e :: rest) = e.2.length + index_size rest := by
      simp [index_size]
    rw [hs]
    split_ifs <;> omega

/-- The scan of the index for one constraint: when the candidate count stays below
`min_size` the scan visits the whole index and returns the count and every accepted
terrain code; otherwise the size it returns is not below `min_size`. -/
theorem matching_scan_spec (ext : externals) (m : t_match) (min_size : Nat) :
    ∀ (tbt : terrain_by_type_map) (acc : Nat) (types : List t_terrain),
      (acc + candidate_count ext tbt m < min_size →
        matching_scan ext m min_size tbt acc types =
          (acc + candidate_count ext tbt m, types ++ accepted_types ext tbt m)) ∧
      (min_size ≤ acc + candidate_count ext tbt m →
        min_size ≤ (matching_scan ext m min_size tbt acc types).1) := by
  intro tbt
  induction tbt with
  | nil =>
    intro acc types
    simp [matching_scan, candidate_count, accepted_types]
  | cons e rest ih =>
    intro acc types
    obtain ⟨t, locs⟩ := e
    rw [candidate_count_cons, accepted_types_cons, matching_scan]
    by_cases hm : ext.terrain_matches t m = true
    · simp only [hm, if_true]
      by_cases hge : acc + locs.length ≥ min_size
      · rw [if_pos hge]
        constructor
        · intro hlt
          omega
        · intro _
          exact hge
      · rw [if_neg hge]
        obtain ⟨h1, h2⟩ := ih (acc + locs.length) (types ++ [t])
        constructor
        · intro hlt
          rw [h1 (by omega)]
          simp only [List.append_assoc, List.singleton_append, Prod.mk.injEq, and_true]
          omega
        · intro hle
          exact h2 (by omega)
    · simp only [hm, Bool.false_eq_true, if_false]
      obtain ⟨h1, h2⟩ := ih acc types
      constructor
      · intro hlt
        rw [h1 (by omega)]
        simp
      · intro hle
        exact h2 (by omega)

theorem find_min_constraint_spec (ext : externals) (tbt : terrain_by_type_map) :
    ∀ (cs : constraint_set) (st : min_state),
      (find_min_constraint ext tbt cs st).min_size ≤ st.min_size ∧
      (∀ c ∈ cs, (find_min_constraint ext tbt cs st).min_size ≤
        candidate_count ext tbt c.2.terrain_types_match) ∧
      (find_min_constraint ext tbt cs st = st ∨
        ∃ mc ∈ cs,
          (find_min_constraint ext tbt cs st).min_constraint = some mc ∧
          (find_min_constraint ext tbt cs st).min_size =
            candidate_count ext tbt mc.2.terrain_types_match ∧
          (find_min_constraint ext tbt cs st).min_types =
            accepted_types ext tbt mc.2.terrain_types_match ∧
          (find_min_constraint ext tbt cs st).min_size < st.min_size) := by
  intro cs
  induction cs with
  | nil =>
    intro st
    refine ⟨le_refl _, ?_, Or.inl rfl⟩
    intro c hc
    cases hc
  | cons c rest ih =>
    intro st
    obtain ⟨hs1, hs2⟩ := matching_scan_spec ext c.2.terrain_types_match st.min_size tbt 0 []
    rw [find_min_constraint]
    by_cases hlt : candidate_count ext tbt c.2.terrain_types_match < st.min_size
    · have hscan := hs1 (by omega)
      simp only [Nat.zero_add, List.nil_append] at hscan
      simp only [hscan, hlt, if_true]
      by_cases h0 : candidate_count ext tbt c.2.terrain_types_match = 0
      · rw [if_pos h0]
        refine ⟨by simp only; omega, ?_, Or.inr ⟨c, List.mem_cons_self _ _, rfl, rfl, rfl, hlt⟩⟩
        intro c1 _
        simp only [h0]
        omega
      · rw [if_neg h0]
        obtain ⟨a1, a2, a3⟩ := ih
          { min_size := candidate_count ext tbt c.2.terrain_types_match,
            min_types := accepted_types ext tbt c.2.terrain_types_match,
            min_constraint := some c }
        simp only at a1
        refine ⟨by omega, ?_, ?_⟩
        · intro c1 hc1
          rcases List.mem_cons.mp hc1 with rfl | hr
          · exact a1
          · exact a2 c1 hr
        · right
          rcases a3 with he | ⟨mc, hmc, b1, b2, b3, b4⟩
          · rw [he]
            exact ⟨c, List.mem_cons_self _ _, rfl, rfl, rfl, hlt⟩
          · exact ⟨mc, List.mem_cons_of_mem _ hmc, b1, b2, b3, by simp only at b4; omega⟩
    · have hge := hs2 (by omega)
      have hnot : ¬ ((matching_scan ext c.2.terrain_types_match st.min_size tbt 0 []).1 <
          st.min_size) := by omega
      simp only [hnot, if_false]
      obtain ⟨a1, a2, a3⟩ := ih st
      refine ⟨a1, ?_, ?_⟩
      · intro c1 hc1
        rcases List.mem_cons.mp hc1 with rfl | hr
        · omega
        · exact a2 c1 hr
      · rcases a3 with he | ⟨mc, hmc, b1, b2, b3, b4⟩
        · exact Or.inl he
        · exact Or.inr ⟨mc, List.mem_cons_of_mem _ hmc, b1, b2, b3, b4⟩

theorem lookup_accepted_empty (ext : externals) (tbt : terrain_by_type_map) (m : t_match)
    (h0 : candidate_count ext tbt m = 0) :
    ∀ t ∈ accepted_types ext tbt m, terrain_by_type_lookup tbt t = [] := by
  intro t ht
  unfold accepted_types at ht
  obtain ⟨e, he, rfl⟩ := List.mem_map.mp ht
  have hmatch : ext.terrain_matches e.1 m = true := (List.mem_filter.mp he).2
  unfold terrain_by_type_lookup
  cases hf : tbt.find? (fun e1 => e1.1 == e.1) with
  | none => rfl
  | some e1 =>
    have hmem : e1 ∈ tbt := List.mem_of_find?_eq_some hf
    have hkey : e1.1 = e.1 := by
      have := List.find?_some hf
      simpa using this
    have hin : e1.2.length ∈
        (tbt.filter (fun e => ext.terrain_matches e.1 m)).map (fun e => e.2.length) :=
      List.mem_map.mpr ⟨e1, List.mem_filter.mpr ⟨hmem, by rw [hkey]; exact hmatch⟩, rfl⟩
    have hz := List.sum_eq_zero_iff.mp h0 _ hin
    exact List.length_eq_zero.mp hz

theorem try_locations_nil (ext : externals) (map : gamemap) (rule : building_rule) (i : Int)
    (mc : map_location × terrain_constraint) (s : tilemap × apply_log) :
    try_locations ext map rule i mc [] s = some s := rfl

/-- C22: for every rule with at least one constraint and every index holding fewer than
`INT_MAX` cells, the search of `build_terrains` selects a constraint of the rule whose
candidate count is `min_size` and is no larger than the candidate count of any
constraint of the rule, and `min_types` is the complete list of the indexed terrain
codes that the selected constraint accepts; the rule is then tried on the locations of
these codes. When some constraint accepts no indexed cell, there is no candidate and
the processing of the rule leaves the state as it is. -/
theorem min_constraint_minimal (ext : externals) (tbt : terrain_by_type_map)
    (rule : building_rule) (hne : rule.constraints ≠ [])
    (hsize : index_size tbt < INT_MAX) :
    ∃ mc ∈ rule.constraints,
      (find_min_constraint ext tbt rule.constraints
        { min_size := INT_MAX, min_types := [], min_constraint := none }).min_constraint =
          some mc ∧
      (find_min_constraint ext tbt rule.constraints
        { min_size := INT_MAX, min_types := [], min_constraint := none }).min_size =
          candidate_count ext tbt mc.2.terrain_types_match ∧
      (∀ c ∈ rule.constraints,
        candidate_count ext tbt mc.2.terrain_types_match ≤
          candidate_count ext tbt c.2.terrain_types_match) ∧
      (find_min_constraint ext tbt rule.constraints
        { min_size := INT_MAX, min_types := [], min_constraint := none }).min_types =
          accepted_types ext tbt mc.2.terrain_types_match ∧
      (∀ (map : gamemap) (i : Int) (s : tilemap × apply_log),
        build_rule ext map tbt rule i s =
          try_types ext map tbt rule i mc
            (accepted_types ext tbt mc.2.terrain_types_match) s) ∧
      ((∃ c ∈ rule.constraints, candidate_count ext tbt c.2.terrain_types_match = 0) →
        candidate_anchors tbt mc (accepted_types ext tbt mc.2.terrain_types_match) = [] ∧
        ∀ (map : gamemap) (i : Int) (s : tilemap × apply_log),
          build_rule ext map tbt rule i s = some s) := by
  obtain ⟨_, a2, a3⟩ := find_min_constraint_spec ext tbt rule.constraints
    { min_size := INT_MAX, min_types := [], min_constraint := none }
  obtain ⟨c0, hc0⟩ := List.exists_mem_of_ne_nil _ hne
  have hlt0 : (find_min_constraint ext tbt rule.constraints
      { min_size := INT_MAX, min_types := [], min_constraint := none }).min_size < INT_MAX := by
    have h1 := a2 c0 hc0
    have h2 := candidate_count_le ext tbt c0.2.terrain_types_match
    omega
  rcases a3 with he | ⟨mc, hmc, b1, b2, b3, _⟩
  · rw [he] at hlt0
    exact absurd hlt0 (lt_irrefl _)
  · have hbuild : ∀ (map : gamemap) (i : Int) (s : tilemap × apply_log),
        build_rule ext map tbt rule i s =
          try_types ext map tbt rule i mc
            (accepted_types ext tbt mc.2.terrain_types_match) s := by
      intro map i s
      simp only [build_rule, b1, b3]
    refine ⟨mc, hmc, b1, b2, ?_, b3, hbuild, ?_⟩
    · intro c hc
      rw [← b2]
      exact a2 c hc
    · rintro ⟨c, hc, hzero⟩
      have hmc0 : candidate_count ext tbt mc.2.terrain_types_match = 0 := by
        have := a2 c hc
        rw [b2] at this
        omega
      have hflat : (accepted_types ext tbt mc.2.terrain_types_match).flatMap
          (terrain_by_type_lookup tbt) = [] := by
        rw [List.flatMap_eq_nil_iff]
        exact lookup_accepted_empty ext tbt _ hmc0
      refine ⟨by simp only [candidate_anchors, hflat, List.map_nil], ?_⟩
      intro map i s
      rw [hbuild, try_types_eq, hflat]
      rfl

/-- C22 witness: the sample rule on the index of the 1x1 sample map, which holds 16
cells; its only constraint is selected, with all 16 cells as candidates. -/
theorem min_constraint_minimal_witness :
    sample_rule.constraints ≠ [] ∧
    index_size (build_terrain_by_type sample_map []) < INT_MAX ∧
    ∃ mc ∈ sample_rule.constraints,
      (find_min_constraint sample_externals (build_terrain_by_type sample_map [])
        sample_rule.constraints
        { min_size := INT_MAX, min_types := [], min_constraint := none }).min_constraint =
          some mc ∧
      (find_min_constraint sample_externals (build_terrain_by_type sample_map [])
        sample_rule.constraints
        { min_size := INT_MAX, min_types := [], min_constraint := none }).min_size = 16 := by
  obtain ⟨mc, hmc, h1, h2, _⟩ := min_constraint_minimal sample_externals
    (build_terrain_by_type sample_map []) sample_rule (by decide) (by decide)
  refine ⟨by decide, by decide, mc, hmc, h1, ?_⟩
  decide

/-! ### Rotation keeps the number of constraints -/

theorem mem_keys_assign (cs : constraint_set) (key : map_location) (value : terrain_constraint)
    (k : map_location) :
    k ∈ (constraint_set_assign cs key value).map Prod.fst ↔ k = key ∨ k ∈ cs.map Prod.fst := by
  induction cs with
  | nil => simp [constraint_set_assign]
  | cons e rest ih =>
    obtain ⟨k0, v0⟩ := e
    rw [constraint_set_assign]
    by_cases h1 : key = k0
    · rw [if_pos h1]
      subst h1
      simp
    · rw [if_neg h1]
      by_cases h2 : key.lt k0 = true
      · rw [if_pos h2]
        simp
      · rw [if_neg h2]
        simp only [List.map_cons, List.mem_cons, ih]
        tauto

theorem assign_length (cs : constraint_set) (key : map_location) (value : terrain_constraint)
    (hk : key ∉ cs.map Prod.fst) :
    (constraint_set_assign cs key value).length = cs.length + 1 := by
  induction cs with
  | nil => rfl
  | cons e rest ih =>
    obtain ⟨k0, v0⟩ := e
    simp only [List.map_cons, List.mem_cons, not_or] at hk
    rw [constraint_set_assign, if_neg hk.1]
    by_cases h2 : key.lt k0 = true
    · rw [if_pos h2]
      rfl
    · rw [if_neg h2]
      simp only [List.length_cons, ih hk.2]

theorem assign_nodup (cs : constraint_set) (key : map_location) (value : terrain_constraint)
    (hk : key ∉ cs.map Prod.fst) (hn : (cs.map Prod.fst).Nodup) :
    ((constraint_set_assign cs key value).map Prod.fst).Nodup := by
  induction cs with
  | nil => simp [constraint_set_assign]
  | cons e rest ih =>
    obtain ⟨k0, v0⟩ := e
    have hk' := hk
    simp only [List.map_cons, List.mem_cons, not_or] at hk'
    have hn' := hn
    simp only [List.map_cons, List.nodup_cons] at hn'
    rw [constraint_set_assign, if_neg hk'.1]
    by_cases h2 : key.lt k0 = true
    · rw [if_pos h2]
      exact List.nodup_cons.mpr ⟨hk, hn⟩
    · rw [if_neg h2]
      simp only [List.map_cons, List.nodup_cons]
      refine ⟨?_, ih hk'.2 hn'.2⟩
      intro hmem
      rcases (mem_keys_assign rest key value k0).mp hmem with h | h
      · exact hk'.1 h.symm
      · exact hn'.1 h

theorem foldl_assign_length (key : map_location × terrain_constraint → map_location)
    (value : map_location × terrain_constraint → terrain_constraint) :
    ∀ (l : List (map_location × terrain_constraint)) (acc : constraint_set),
      (acc.map Prod.fst).Nodup → (l.map key).Nodup → (∀ c ∈ l, key c ∉ acc.map Prod.fst) →
      (l.foldl (fun a c => constraint_set_assign a (key c) (value c)) acc).length =
        acc.length + l.length ∧
      ((l.foldl (fun a c => constraint_set_assign a (key c) (value c)) acc).map
        Prod.fst).Nodup := by
  intro l
  induction l with
  | nil => intro acc hn _ _; exact ⟨rfl, hn⟩
  | cons c rest ih =>
    intro acc hn hl hnew
    simp only [List.map_cons, List.nodup_cons] at hl
    have hc : key c ∉ acc.map Prod.fst := hnew c (List.mem_cons_self _ _)
    obtain ⟨h1, h2⟩ := ih (constraint_set_assign acc (key c) (value c))
      (assign_nodup acc (key c) (value c) hc hn) hl.2
      (by
        intro c1 hc1 hmem
        rcases (mem_keys_assign acc (key c) (value c) (key c1)).mp hmem with h | h
        · exact hl.1 (by rw [← h]; exact List.mem_map.mpr ⟨c1, hc1, rfl⟩)
        · exact hnew c1 (List.mem_cons_of_mem _ hc1) h)
    refine ⟨?_, h2⟩
    rw [List.foldl_cons, h1, assign_length acc (key c) (value c) hc, List.length_cons]
    omega

theorem rotate_loc_injective (angle : Nat) (l1 l2 : map_location)
    (h : rotate_loc angle l1 = rotate_loc angle l2) : l1 = l2 := by
  obtain ⟨x1, y1⟩ := l1
  obtain ⟨x2, y2⟩ := l2
  have hm : rotations angle = (1, 0, 0, 1) ∨ rotations angle = (1, 1, -1, 0) ∨
      rotations angle = (0, 1, -1, -1) ∨ rotations angle = (-1, 0, 0, -1) ∨
      rotations angle = (-1, -1, 1, 0) ∨ rotations angle = (0, -1, 1, 1) := by
    unfold rotations
    split <;> simp
  have hg : ∀ a b : Int, a = b →
      (if a ≥ 0 then Int.tdiv a 2 else Int.tdiv (a - 1) 2) =
        (if b ≥ 0 then Int.tdiv b 2 else Int.tdiv (b - 1) 2) := by
    intro a b hab
    rw [hab]
  simp only [rotate_loc, map_location.mk.injEq] at h
  obtain ⟨hj, hi⟩ := h
  have hgi := hg _ _ hj
  generalize hv1 : y1 - Int.tdiv x1 2 = v1 at hj hi hgi
  generalize hv2 : y2 - Int.tdiv x2 2 = v2 at hj hi hgi
  have hlin : v1 = v2 ∧ x1 = x2 := by
    rcases hm with hm | hm | hm | hm | hm | hm <;> rw [hm] at hj hi hgi <;>
      simp only at hj hi hgi <;>
      generalize (if _ ≥ 0 then Int.tdiv _ 2 else Int.tdiv (_ - 1) 2) = g1 at hi hgi <;>
      generalize (if _ ≥ 0 then Int.tdiv _ 2 else Int.tdiv (_ - 1) 2) = g2 at hi hgi <;>
      omega
  obtain ⟨hv, hx⟩ := hlin
  subst hx
  rw [← hv1, ← hv2] at hv
  simp only [map_location.mk.injEq, true_and]
  omega

theorem rotate_rule_constraints_count (ext : externals) (rule : building_rule) (angle : Nat)
    (hkeys : (rule.constraints.map (fun c => c.2.loc)).Nodup) :
    (rotate_rule_constraints ext rule angle).constraints.length = rule.constraints.length ∧
    ((rotate_rule_constraints ext rule angle).constraints.map Prod.fst).Nodup ∧
    ∀ e ∈ (rotate_rule_constraints ext rule angle).constraints, e.1 = e.2.loc := by
  have hk1 : (rule.constraints.map (fun c => (rotate ext c.2 angle).loc)).Nodup := by
    have hmm : rule.constraints.map (fun c => (rotate ext c.2 angle).loc) =
        (rule.constraints.map (fun c => c.2.loc)).map (rotate_loc (angle % 6)) := by
      rw [List.map_map]
      rfl
    rw [hmm]
    exact List.Nodup.map (fun a b h => rotate_loc_injective _ a b h) hkeys
  obtain ⟨hlen1, hnd1⟩ := foldl_assign_length
    (fun c => (rotate ext c.2 angle).loc) (fun c => rotate ext c.2 angle)
    rule.constraints [] (by simp) hk1 (by simp)
  have htmp : (rule.constraints.foldl (fun a c =>
      constraint_set_assign a (rotate ext c.2 angle).loc (rotate ext c.2 angle)) []) =
      rotate_constraints ext angle rule.constraints := rfl
  rw [htmp] at hlen1 hnd1
  have hloc1 : ∀ e ∈ rotate_constraints ext angle rule.constraints, e.2.loc = e.1 := by
    intro e he
    obtain ⟨c, _, hc⟩ := (rotate_constraints_spec ext angle rule.constraints).1 e he
    rw [hc]
  generalize hv : (⟨-(min_coordinates (rotate_constraints ext angle rule.constraints)).1,
      -(Int.tdiv (adjust_miny (min_coordinates (rotate_constraints ext angle
        rule.constraints)).1 (min_coordinates (rotate_constraints ext angle
        rule.constraints)).2 - 1) 2)⟩ : map_location) = v
  have hk2 : ((rotate_constraints ext angle rule.constraints).map
      (fun e => e.2.loc.legacy_sum v)).Nodup := by
    have hmm : (rotate_constraints ext angle rule.constraints).map
        (fun e => e.2.loc.legacy_sum v) =
        ((rotate_constraints ext angle rule.constraints).map Prod.fst).map
          (fun l => l.legacy_sum v) := by
      rw [List.map_map]
      apply List.map_congr_left
      intro e he
      simp only [Function.comp_apply]
      rw [hloc1 e he]
    rw [hmm]
    exact List.Nodup.map (fun a b h => legacy_sum_left_inj a b v h) hnd1
  obtain ⟨hlen2, hnd2⟩ := foldl_assign_length
    (fun e => e.2.loc.legacy_sum v) (fun e => { e.2 with loc := e.2.loc.legacy_sum v })
    (rotate_constraints ext angle rule.constraints) [] (by simp) hk2 (by simp)
  have hret : ((rotate_constraints ext angle rule.constraints).foldl (fun a e =>
      constraint_set_assign a (e.2.loc.legacy_sum v)
        { e.2 with loc := e.2.loc.legacy_sum v }) []) =
      (rotate_rule_constraints ext rule angle).constraints := by
    rw [← hv]
    rfl
  rw [hret] at hlen2 hnd2
  refine ⟨by rw [hlen2, hlen1]; simp, hnd2, ?_⟩
  intro e he
  obtain ⟨_, _, _, h2⟩ := (normalize_constraints_spec _ _ _).1 e he
  exact h2

/-- C28: for every rule whose constraints have pairwise distinct offsets (as in every
constraint set the code builds, where a constraint is stored under its own offset),
every angle and every list of six rotation names, `rotate_rule` returns when no name
contains `@` (the strings of the rule having at most `fuel` characters `@`), and
whenever it returns, the result has exactly as many constraints as the input rule:
the rotation of the offsets and the normalising translation are injective, so no two
constraints are stored under the same offset. The constraints of the result are again
stored under their own, pairwise distinct, offsets. -/
theorem rotate_rule_keeps_count (ext : externals) (fuel : Nat) (rule : building_rule)
    (angle : Nat) (rot : List String) (hrot : rot.length = 6)
    (hkeys : (rule.constraints.map (fun c => c.2.loc)).Nodup) :
    ((∀ name ∈ rot, '@' ∉ name.toList) → strings_within fuel rule.constraints →
      ∃ ret, rotate_rule ext fuel rule angle rot = some ret) ∧
    ∀ ret, rotate_rule ext fuel rule angle rot = some ret →
      ret.constraints.length = rule.constraints.length ∧
      (ret.constraints.map (fun c => c.2.loc)).Nodup ∧
      (∀ c ∈ ret.constraints, c.1 = c.2.loc) ∧
      (∀ l1 l2 : map_location, rotate_loc (angle % 6) l1 = rotate_loc (angle % 6) l2 →
        l1 = l2) := by
  constructor
  · intro hnames hs
    obtain ⟨ret, h, _⟩ := rotate_rule_terminates ext fuel rule angle rot hnames hs
    exact ⟨ret, h⟩
  · intro ret h
    obtain ⟨hoff, _, _, _⟩ := rotate_rule_offsets ext fuel rule ret angle rot hrot h
    obtain ⟨hlen, hnd, hkey⟩ := rotate_rule_constraints_count ext rule angle hkeys
    have hfst : ret.constraints.map Prod.fst =
        (rotate_rule_constraints ext rule angle).constraints.map Prod.fst := by
      have := congrArg (List.map Prod.fst) hoff
      simpa [constraint_offsets, List.map_map, Function.comp_def] using this
    have hsnd : ret.constraints.map (fun c => c.2.loc) =
        (rotate_rule_constraints ext rule angle).constraints.map (fun c => c.2.loc) := by
      have := congrArg (List.map Prod.snd) hoff
      simpa [constraint_offsets, List.map_map, Function.comp_def] using this
    have hsame : (rotate_rule_constraints ext rule angle).constraints.map (fun c => c.2.loc) =
        (rotate_rule_constraints ext rule angle).constraints.map Prod.fst := by
      apply List.map_congr_left
      intro e he
      exact (hkey e he).symm
    refine ⟨?_, ?_, ?_, fun l1 l2 hl => rotate_loc_injective _ l1 l2 hl⟩
    · have := congrArg List.length hoff
      simp only [constraint_offsets, List.length_map] at this
      rw [this, hlen]
    · rw [hsnd, hsame]
      exact hnd
    · intro c hc
      obtain ⟨c2, hc2, h1, h2⟩ := offsets_mem ret.constraints
        (rotate_rule_constraints ext rule angle).constraints hoff c hc
      rw [← h1, ← h2]
      exact hkey c2 hc2

/-- C28 witness: the rule with the three offsets `(0, 0)`, `(0, 1)` and `(1, 0)` rotated
by the angle 2 has three constraints again. -/
theorem rotate_rule_keeps_count_witness :
    sample_rotations.length = 6 ∧
    (sample_rule_three.constraints.map (fun c => c.2.loc)).Nodup ∧
    ∃ ret, rotate_rule sample_externals 1 sample_rule_three 2 sample_rotations = some ret ∧
      ret.constraints.length = 3 := by
  have hthm := rotate_rule_keeps_count sample_externals 1 sample_rule_three 2
    sample_rotations rfl (by decide)
  obtain ⟨ret, h⟩ := hthm.1 (by decide) (by
    intro c hc
    simp only [sample_rule_three, List.mem_cons, List.mem_singleton, List.not_mem_nil,
      or_false] at hc
    rcases hc with rfl | rfl | rfl <;> (refine ⟨?_, ?_, ?_, ?_⟩ <;> decide))
  exact ⟨rfl, by decide, ret, h, (hthm.2 ret h).1⟩

/-! ### Mutual exclusion by a flag -/

theorem apply_rule_loop_flags (a : map_location) (seed : Nat) (cs : constraint_set) :
    ∀ (tm tm1 : tilemap), tm.wf → (∀ c ∈ cs, tm.on_map (a.legacy_sum c.2.loc) = true) →
      apply_rule_loop a seed cs tm = some tm1 →
      ∀ L t0, tm.at L = some t0 →
        ∃ t1, tm1.at L = some t1 ∧ (∀ f ∈ t0.flags, f ∈ t1.flags) ∧
          ∀ c ∈ cs, a.legacy_sum c.2.loc = L → ∀ f ∈ c.2.set_flag, f ∈ t1.flags := by
  induction cs with
  | nil =>
    intro tm tm1 _ _ h L t0 ht0
    rw [apply_rule_loop] at h
    cases h
    exact ⟨t0, ht0, fun f hf => hf, fun c hc => by cases hc⟩
  | cons c rest ih =>
    intro tm tm1 hwf hon h L t0 ht0
    rw [apply_rule_loop] at h
    have honc : tm.on_map (a.legacy_sum c.2.loc) = true := hon c (List.mem_cons_self _ _)
    simp only [honc, Bool.not_true, Bool.false_eq_true, if_false] at h
    obtain ⟨bt, hbt⟩ := at_some_of_on_map tm hwf _ honc
    rw [hbt] at h
    simp only at h
    have hspec := (apply_constraint_spec bt c.2 seed).2.1
    have hon' : ∀ c1 ∈ rest,
        (tm.set (a.legacy_sum c.2.loc) (apply_constraint bt c.2 seed)).on_map
          (a.legacy_sum c1.2.loc) = true := by
      intro c1 hc1
      rw [set_on_map]
      exact hon c1 (List.mem_cons_of_mem _ hc1)
    by_cases hL : L = a.legacy_sum c.2.loc
    · subst hL
      have hbe : bt = t0 := by
        rw [hbt] at ht0
        exact Option.some.inj ht0
      subst hbe
      obtain ⟨t1, h1, h2, h3⟩ := ih _ tm1 (set_wf tm hwf _ _) hon' h _ _
        (at_set_same tm hwf _ (apply_constraint bt c.2 seed) honc)
      refine ⟨t1, h1, fun f hf => h2 f ((hspec f).mpr (Or.inl hf)), ?_⟩
      intro c1 hc1 hl f hf
      rcases List.mem_cons.mp hc1 with rfl | hr
      · exact h2 f ((hspec f).mpr (Or.inr hf))
      · exact h3 c1 hr hl f hf
    · obtain ⟨t1, h1, h2, h3⟩ := ih _ tm1 (set_wf tm hwf _ _) hon' h L t0
        (by rw [at_set_other tm _ _ L honc hL]; exact ht0)
      refine ⟨t1, h1, h2, ?_⟩
      intro c1 hc1 hl f hf
      rcases List.mem_cons.mp hc1 with rfl | hr
      · exact absurd hl.symm hL
      · exact h3 c1 hr hl f hf

/-- The invariant of a pass for the flag `F` at the location `L`: at most one recorded
application satisfies `P`, one does only if the tile of `L` carries `F`, and none does
if the tile carried `F` before the pass (`F0`). -/
theorem flag_step (ext : externals) (map : gamemap) (rule : building_rule) (i : Int)
    (L : map_location) (F : String) (P : Int × map_location → Bool) (F0 : Prop)
    (hP : ∀ a, P (i, a) = rule_lands rule L F a)
    (s : tilemap × apply_log) (a : map_location) (k : Option map_location) (tm1 : tilemap)
    (hwf : s.1.wf)
    (hI : s.2.countP P ≤ 1 ∧ (s.2.countP P = 1 → ∃ t, s.1.at L = some t ∧ F ∈ t.flags) ∧
      (F0 → (∃ t, s.1.at L = some t ∧ F ∈ t.flags) ∧ s.2.countP P = 0))
    (hm : rule_matches ext map s.1 rule a i k = some true)
    (ha : apply_rule s.1 rule a i = some tm1) :
    (s.2 ++ [(i, a)]).countP P ≤ 1 ∧
      ((s.2 ++ [(i, a)]).countP P = 1 → ∃ t, tm1.at L = some t ∧ F ∈ t.flags) ∧
      (F0 → (∃ t, tm1.at L = some t ∧ F ∈ t.flags) ∧ (s.2 ++ [(i, a)]).countP P = 0) := by
  obtain ⟨hle, hone, hinit⟩ := hI
  have honmap := rule_matches_on_map ext map s.1 hwf rule a i k hm
  have hok := rule_matches_constraint_ok ext map s.1 hwf rule a i k hm
  have hmono : (∃ t, s.1.at L = some t ∧ F ∈ t.flags) →
      ∃ t, tm1.at L = some t ∧ F ∈ t.flags := by
    rintro ⟨t, ht, hF⟩
    obtain ⟨t1, h1, h2, _⟩ := apply_rule_loop_flags a (get_noise a (to_unsigned i))
      rule.constraints s.1 tm1 hwf honmap ha L t ht
    exact ⟨t1, h1, h2 F hF⟩
  rw [List.countP_append, List.countP_singleton]
  cases hland : P (i, a) with
  | false =>
    simp only [Bool.false_eq_true, if_false, Nat.add_zero]
    exact ⟨hle, fun h => hmono (hone h), fun h0 => ⟨hmono (hinit h0).1, (hinit h0).2⟩⟩
  | true =>
    simp only [if_true]
    rw [hP a] at hland
    unfold rule_lands at hland
    obtain ⟨c, hc, hcond⟩ := List.any_eq_true.mp hland
    simp only [Bool.and_eq_true, decide_eq_true_eq, List.contains_eq_any_beq, List.any_eq_true,
      beq_iff_eq, exists_eq_right] at hcond
    obtain ⟨⟨hloc, ⟨x1, hx1, rfl⟩⟩, ⟨x2, hx2, hx2e⟩⟩ := hcond
    have hno : F ∈ c.2.no_flag := hx1
    have hset : F ∈ c.2.set_flag := by rw [hx2e]; exact hx2
    obtain ⟨_, _, t, ht, hnone, _⟩ := hok c hc
    rw [hloc] at ht
    have hnot : ¬ ∃ t, s.1.at L = some t ∧ F ∈ t.flags := by
      rintro ⟨t', ht', hF⟩
      rw [ht] at ht'
      cases ht'
      exact hnone F hno hF
    have hzero : s.2.countP P = 0 := by
      by_contra hne
      have h1 : s.2.countP P = 1 := by omega
      exact hnot (hone h1)
    obtain ⟨t1, h1, _, h3⟩ := apply_rule_loop_flags a (get_noise a (to_unsigned i))
      rule.constraints s.1 tm1 hwf honmap ha L t ht
    refine ⟨by omega, fun _ => ⟨t1, h1, h3 c hc hloc F hset⟩, ?_⟩
    intro h0
    exact absurd (hinit h0).1 hnot

theorem build_rules_flag (ext : externals) (map : gamemap) (tbt : terrain_by_type_map)
    (L : map_location) (F : String) (P : Int × map_location → Bool) (F0 : Prop) :
    ∀ (rs : building_ruleset) (n : Int) (s : tilemap × apply_log),
      (∀ (j : Nat) r, rs[j]? = some r → ∀ a, P (n + (j : Int), a) = rule_lands r.2 L F a) →
      s.1.wf →
      (s.2.countP P ≤ 1 ∧ (s.2.countP P = 1 → ∃ t, s.1.at L = some t ∧ F ∈ t.flags) ∧
        (F0 → (∃ t, s.1.at L = some t ∧ F ∈ t.flags) ∧ s.2.countP P = 0)) →
      ∃ s1, build_rules ext map tbt rs n s = some s1 ∧ s1.1.wf ∧
        (s1.2.countP P ≤ 1 ∧ (s1.2.countP P = 1 → ∃ t, s1.1.at L = some t ∧ F ∈ t.flags) ∧
          (F0 → (∃ t, s1.1.at L = some t ∧ F ∈ t.flags) ∧ s1.2.countP P = 0)) := by
  intro rs
  induction rs with
  | nil => intro n s _ hwf hI; exact ⟨s, rfl, hwf, hI⟩
  | cons r rest ih =>
    intro n s hP hwf hI
    have hP0 : ∀ a, P (n, a) = rule_lands r.2 L F a := by
      intro a
      have := hP 0 r (by simp) a
      simpa using this
    obtain ⟨s1, h1, hwf1, hI1⟩ := build_rule_inv ext map tbt r.2 n
      (fun s' => s'.2.countP P ≤ 1 ∧
        (s'.2.countP P = 1 → ∃ t, s'.1.at L = some t ∧ F ∈ t.flags) ∧
        (F0 → (∃ t, s'.1.at L = some t ∧ F ∈ t.flags) ∧ s'.2.countP P = 0))
      (fun s' a k tm1 hw hI' hm ha =>
        flag_step ext map r.2 n L F P F0 hP0 s' a k tm1 hw hI' hm ha)
      s hwf hI
    obtain ⟨s2, h2, hwf2, hI2⟩ := ih (n + 1) s1
      (by
        intro j r1 hr1 a
        have := hP (j + 1) r1 (by simpa using hr1) a
        rw [← this]
        congr 2
        push_cast
        ring)
      hwf1 hI1
    refine ⟨s2, ?_, hwf2, hI2⟩
    rw [build_rules]
    simp only [h1]
    exact h2

/-- C26: for every builder whose tile map has its size invariant, every location `L`
and every flag `F`, `build_terrains` returns, and among the rule applications it makes
(in the state its tile map had when the pass began) at most one lands on `L` a
constraint that lists `F` both in its `no_flag` and in its `set_flag` list; if the tile
of `L` carries `F` before the pass, no application does. -/
theorem flag_mutual_exclusion (ext : externals) (b : builder) (hwf : b.tile_map_.wf)
    (L : map_location) (F : String) :
    ∃ r, build_terrains_log ext b = some r ∧
      r.2.countP (lands_flag b.building_rules_ L F) ≤ 1 ∧
      ((∃ t, b.tile_map_.at L = some t ∧ F ∈ t.flags) →
        r.2.countP (lands_flag b.building_rules_ L F) = 0) := by
  obtain ⟨s1, h1, _, hle, _, hinit⟩ := build_rules_flag ext b.map_
    (build_terrain_by_type b.map_ b.terrain_by_type_) L F
    (lands_flag b.building_rules_ L F) (∃ t, b.tile_map_.at L = some t ∧ F ∈ t.flags)
    b.building_rules_ 0 (b.tile_map_, [])
    (by
      intro j r hr a
      have hnn : ¬ ((0 : Int) + (j : Int) < 0) := by omega
      have hj : ((0 : Int) + (j : Int)).toNat = j := by omega
      simp only [lands_flag, hnn, if_false, hj, hr])
    hwf
    ⟨by simp, by simp, fun h0 => ⟨h0, by simp⟩⟩
  refine ⟨({ b with
      terrain_by_type_ := build_terrain_by_type b.map_ b.terrain_by_type_,
      tile_map_ := s1.1 }, s1.2), ?_, hle, fun h0 => (hinit h0).2⟩
  simp only [build_terrains_log, h1]

/-- C26 witness: the 1x1 sample builder, whose rule lists the flag `base` in `no_flag`
and in `set_flag`; exactly one application lands such a constraint on `(0, 0)`, and on
the result of that pass, where `(0, 0)` carries `base`, a further pass makes none. -/
theorem flag_mutual_exclusion_witness :
    sample_builder.tile_map_.wf ∧
    (build_terrains_log sample_externals sample_builder).map
      (fun r => r.2.countP (lands_flag sample_builder.building_rules_ ⟨0, 0⟩ "base")) =
      some 1 ∧
    ((build_terrains_log sample_externals sample_builder).bind
      (fun r => build_terrains_log sample_externals r.1)).map
      (fun r => r.2.countP (lands_flag sample_builder.building_rules_ ⟨0, 0⟩ "base")) =
      some 0 ∧
    ∃ r, build_terrains_log sample_externals sample_builder = some r ∧
      r.2.countP (lands_flag sample_builder.building_rules_ ⟨0, 0⟩ "base") ≤ 1 :=
  ⟨by decide, by decide, by decide,
    (flag_mutual_exclusion sample_externals sample_builder (by decide) ⟨0, 0⟩ "base").imp
      (fun _ h => ⟨h.1, h.2.1⟩)⟩

/-! ### The sort mark in reachable states -/

theorem set_tiles_mem (tm : tilemap) (loc : map_location) (t1 t : tile)
    (h : t ∈ (tm.set loc t1).tiles_) : t ∈ tm.tiles_ ∨ t = t1 :=
  List.mem_or_eq_of_mem_set h

theorem apply_rule_loop_pred (P : tile → Prop)
    (hP : ∀ t c seed, P t → P (apply_constraint t c seed))
    (a : map_location) (seed : Nat) (cs : constraint_set) :
    ∀ (tm tm1 : tilemap), (∀ t ∈ tm.tiles_, P t) →
      apply_rule_loop a seed cs tm = some tm1 → ∀ t ∈ tm1.tiles_, P t := by
  induction cs with
  | nil =>
    intro tm tm1 hall h
    rw [apply_rule_loop] at h
    cases h
    exact hall
  | cons c rest ih =>
    intro tm tm1 hall h
    rw [apply_rule_loop] at h
    by_cases hon : tm.on_map (a.legacy_sum c.2.loc) = true
    · simp only [hon, Bool.not_true, Bool.false_eq_true, if_false] at h
      cases hbt : tm.at (a.legacy_sum c.2.loc) with
      | none => rw [hbt] at h; cases h
      | some bt =>
        rw [hbt] at h
        simp only at h
        apply ih _ tm1 _ h
        intro t ht
        rcases set_tiles_mem tm _ _ t ht with h1 | h1
        · exact hall t h1
        · rw [h1]
          exact hP bt c.2 seed (hall bt (at_mem_tiles tm _ bt hbt))
    · have hoff : tm.on_map (a.legacy_sum c.2.loc) = false := by simpa using hon
      simp only [hoff, Bool.not_false, if_true] at h
      cases h
      exact hall

theorem build_rules_pred (ext : externals) (map : gamemap) (tbt : terrain_by_type_map)
    (P : tile → Prop) (hP : ∀ t c seed, P t → P (apply_constraint t c seed))
    (rules : building_ruleset) :
    ∀ (i : Int) (s : tilemap × apply_log), s.1.wf → (∀ t ∈ s.1.tiles_, P t) →
      ∃ s1, build_rules ext map tbt rules i s = some s1 ∧ s1.1.wf ∧
        ∀ t ∈ s1.1.tiles_, P t := by
  induction rules with
  | nil => intro i s hwf hall; exact ⟨s, rfl, hwf, hall⟩
  | cons r rest ih =>
    intro i s hwf hall
    obtain ⟨s1, h1, hwf1, hall1⟩ := build_rule_inv ext map tbt r.2 i
      (fun s' => ∀ t ∈ s'.1.tiles_, P t)
      (fun s' a _ tm1 _ hI _ ha =>
        apply_rule_loop_pred P hP a (get_noise a (to_unsigned i)) r.2.constraints s'.1 tm1
          hI ha)
      s hwf hall
    obtain ⟨s2, h2, hwf2, hall2⟩ := ih (i + 1) s1 hwf1 hall1
    refine ⟨s2, ?_, hwf2, hall2⟩
    rw [build_rules]
    simp only [h1]
    exact h2

/-- A pass of `build_terrains` that starts on a tile map none of whose tiles is marked
sorted ends on such a tile map. -/
theorem build_terrains_unsorted (ext : externals) (b b1 : builder) (hwf : b.tile_map_.wf)
    (hall : ∀ t ∈ b.tile_map_.tiles_, t.sorted_images = false)
    (h : build_terrains ext b = some b1) :
    b1.tile_map_.wf ∧ ∀ t ∈ b1.tile_map_.tiles_, t.sorted_images = false := by
  obtain ⟨s1, h1, hwf1, hall1⟩ := build_rules_pred ext b.map_
    (build_terrain_by_type b.map_ b.terrain_by_type_)
    (fun t => t.sorted_images = false)
    (fun t c seed ht => ((apply_constraint_spec t c seed).2.2.2.2.2).trans ht)
    b.building_rules_ 0 (b.tile_map_, []) hwf hall
  simp only [build_terrains, build_terrains_log, h1, Option.map_some', Option.some.injEq] at h
  subst h
  exact ⟨hwf1, hall1⟩

theorem unsorted_ok (tm : tilemap) (hall : ∀ t ∈ tm.tiles_, t.sorted_images = false) :
    sorted_mark_ok tm := by
  intro t ht hs
  rw [hall t ht] at hs
  cases hs

theorem reset_unsorted (tm : tilemap) : ∀ t ∈ tm.reset.tiles_, t.sorted_images = false := by
  intro t ht
  simp only [tilemap.reset, List.mem_map] at ht
  obtain ⟨u, _, rfl⟩ := ht
  rfl

theorem rebuild_cache_mark (ext : externals) (t t1 : tile) (tod : String)
    (hinv : t.sorted_images = true → List.Sorted rule_image_rand.le t.images)
    (h : t.rebuild_cache ext tod = some t1) :
    t1.sorted_images = true ∧ List.Sorted rule_image_rand.le t1.images := by
  unfold tile.rebuild_cache at h
  obtain ⟨h1, h2, _, _⟩ := rebuild_cache_loop_images ext tod _ _ _ h
  obtain ⟨_, hs, hm, _⟩ := sort_images_spec t hinv
  exact ⟨by rw [h2]; exact hm, by rw [h1]; exact hs⟩

theorem set_ok (tm : tilemap) (loc : map_location) (t1 : tile) (hok : sorted_mark_ok tm)
    (h1 : t1.sorted_images = true → List.Sorted rule_image_rand.le t1.images) :
    sorted_mark_ok (tm.set loc t1) := by
  intro t ht
  rcases set_tiles_mem tm loc t1 t ht with h | h
  · exact hok t h
  · rw [h]
    exact h1

theorem get_terrain_at_ok (ext : externals) (b : builder) (loc : map_location) (tod : String)
    (terrain_type : TERRAIN_TYPE) (r : Option (List animated)) (b1 : builder)
    (hwf : b.tile_map_.wf) (hok : sorted_mark_ok b.tile_map_)
    (h : get_terrain_at ext b loc tod terrain_type = some (r, b1)) :
    b1.tile_map_.wf ∧ sorted_mark_ok b1.tile_map_ := by
  unfold get_terrain_at at h
  by_cases hon : b.tile_map_.on_map loc = true
  · simp only [hon, Bool.not_true, Bool.false_eq_true, if_false] at h
    cases hat : b.tile_map_.at loc with
    | none => rw [hat] at h; cases h
    | some t =>
      rw [hat] at h
      simp only at h
      have htile : t.sorted_images = true → List.Sorted rule_image_rand.le t.images :=
        hok t (at_mem_tiles _ _ t hat)
      by_cases htod : (tod != t.last_tod) = true
      · simp only [htod, if_true] at h
        cases hrc : t.rebuild_cache ext tod with
        | none => rw [hrc] at h; cases h
        | some t1 =>
          rw [hrc] at h
          simp only [Option.map_some'] at h
          obtain ⟨hm, hs⟩ := rebuild_cache_mark ext t t1 tod htile hrc
          have hb1 : b1.tile_map_ = b.tile_map_.set loc { t1 with last_tod := tod } := by
            split_ifs at h <;>
              (simp only [Option.some.injEq, Prod.mk.injEq] at h
               rw [← h.2])
          rw [hb1]
          exact ⟨set_wf _ hwf _ _, set_ok _ _ _ hok (fun _ => hs)⟩
      · simp only [htod, Bool.false_eq_true, if_false] at h
        have hb1 : b1.tile_map_ = b.tile_map_.set loc t := by
          split_ifs at h <;>
            (simp only [Option.some.injEq, Prod.mk.injEq] at h
             rw [← h.2])
        rw [hb1]
        exact ⟨set_wf _ hwf _ _, set_ok _ _ _ hok htile⟩
  · have hoff : b.tile_map_.on_map loc = false := by simpa using hon
    simp only [hoff, Bool.not_false, if_true, Option.some.injEq, Prod.mk.injEq] at h
    rw [← h.2]
    exact ⟨hwf, hok⟩

theorem rebuild_terrain_ok (b : builder) (loc : map_location) (b1 : builder)
    (hwf : b.tile_map_.wf) (hok : sorted_mark_ok b.tile_map_)
    (h : rebuild_terrain b loc = some b1) :
    b1.tile_map_.wf ∧ sorted_mark_ok b1.tile_map_ := by
  unfold rebuild_terrain at h
  by_cases hon : b.tile_map_.on_map loc = true
  · simp only [hon, if_true] at h
    cases hat : b.tile_map_.at loc with
    | none => rw [hat] at h; cases h
    | some t =>
      rw [hat] at h
      simp only [Option.some.injEq] at h
      have htile : t.sorted_images = true → List.Sorted rule_image_rand.le t.images :=
        hok t (at_mem_tiles _ _ t hat)
      rw [← h]
      refine ⟨set_wf _ hwf _ _, set_ok _ _ _ hok ?_⟩
      split_ifs <;> exact htile
  · simp only [hon, Bool.false_eq_true, if_false, Option.some.injEq] at h
    rw [← h]
    exact ⟨hwf, hok⟩

theorem update_animation_ok (ext : externals) (b : builder) (loc : map_location) (r : Bool)
    (b1 : builder) (hwf : b.tile_map_.wf) (hok : sorted_mark_ok b.tile_map_)
    (h : update_animation ext b loc = some (r, b1)) :
    b1.tile_map_.wf ∧ sorted_mark_ok b1.tile_map_ := by
  unfold update_animation at h
  by_cases hon : b.tile_map_.on_map loc = true
  · simp only [hon, Bool.not_true, Bool.false_eq_true, if_false] at h
    cases hat : b.tile_map_.at loc with
    | none => rw [hat] at h; cases h
    | some t =>
      rw [hat] at h
      simp only [Option.some.injEq, Prod.mk.injEq] at h
      have htile : t.sorted_images = true → List.Sorted rule_image_rand.le t.images :=
        hok t (at_mem_tiles _ _ t hat)
      rw [← h.2]
      exact ⟨set_wf _ hwf _ _, set_ok _ _ _ hok htile⟩
  · have hoff : b.tile_map_.on_map loc = false := by simpa using hon
    simp only [hoff, Bool.not_false, if_true, Option.some.injEq, Prod.mk.injEq] at h
    rw [← h.2]
    exact ⟨hwf, hok⟩

theorem mk0_unsorted (x y : Int) :
    (tilemap.mk0 x y).wf ∧ ∀ t ∈ (tilemap.mk0 x y).tiles_, t.sorted_images = false := by
  constructor
  · simp [tilemap.wf, tilemap.mk0]
  · intro t ht
    simp only [tilemap.mk0] at ht
    rw [(List.mem_replicate.mp ht).2]
    rfl

/-- The invariant of the reachable builder states: the tile map has its size invariant
and the sort mark of every tile tells the truth. -/
theorem reachable_inv (ext : externals) (b : builder) (h : reachable ext b) :
    b.tile_map_.wf ∧ sorted_mark_ok b.tile_map_ := by
  induction h with
  | construct m rules b hb =>
    obtain ⟨hwf, hall⟩ := build_terrains_unsorted ext _ b (mk0_unsorted m.w m.h).1
      (mk0_unsorted m.w m.h).2 hb
    exact ⟨hwf, unsorted_ok _ hall⟩
  | reload_map b b1 _ hb _ =>
    obtain ⟨hwf, hall⟩ := build_terrains_unsorted ext _ b1
      (reload_wf b.tile_map_ b.map_.w b.map_.h) (reset_unsorted _) hb
    exact ⟨hwf, unsorted_ok _ hall⟩
  | change_map b m b1 _ hb _ =>
    obtain ⟨hwf, hall⟩ := build_terrains_unsorted ext _ b1
      (reload_wf b.tile_map_ m.w m.h) (reset_unsorted _) hb
    exact ⟨hwf, unsorted_ok _ hall⟩
  | rebuild_all b b1 _ hb ih =>
    obtain ⟨hwf, hall⟩ := build_terrains_unsorted ext _ b1
      (reset_wf b.tile_map_ ih.1).1 (reset_unsorted _) hb
    exact ⟨hwf, unsorted_ok _ hall⟩
  | get_terrain_at b loc tod tt r b1 _ hb ih =>
    exact get_terrain_at_ok ext b loc tod tt r b1 ih.1 ih.2 hb
  | rebuild_terrain b loc b1 _ hb ih =>
    exact rebuild_terrain_ok b loc b1 ih.1 ih.2 hb
  | update_animation b loc r b1 _ hb ih =>
    exact update_animation_ok ext b loc r b1 ih.1 ih.2 hb

/-- C29: in every builder state reachable from construction through `reload_map`,
`change_map`, `rebuild_all`, `get_terrain_at`, `rebuild_terrain` and
`update_animation`, the tile map has its size invariant and every tile whose sorted
flag is set has a raw image list in non-decreasing order of `(layer, base-y)`: a pass
of `build_terrains`, the only code that appends to raw lists, always starts on tiles
whose mark was cleared by `reset`, `reload` or construction and never sets the mark,
and `get_terrain_at` sets it only after sorting. -/
theorem reachable_sorted_mark (ext : externals) (b : builder) (h : reachable ext b) :
    b.tile_map_.wf ∧ sorted_mark_ok b.tile_map_ ∧
    ∀ loc t, b.tile_map_.at loc = some t → t.sorted_images = true →
      List.Sorted rule_image_rand.le t.images := by
  have key := reachable_inv ext b h
  exact ⟨key.1, key.2, fun loc t hat => key.2 t (at_mem_tiles _ _ t hat)⟩

/-- C29 witness: the builder constructed on the 1x1 sample map with two rules that each
place an image on `(0, 0)`, then queried at `(0, 0)`: the tile is marked sorted, holds
two raw entries, and they are in order. -/
theorem reachable_sorted_mark_witness :
    ∃ b1 r b2,
      construct sample_externals sample_map [(0, sample_rule_plain 0), (1, sample_rule)] =
        some b1 ∧
      get_terrain_at sample_externals b1 ⟨0, 0⟩ "dawn" TERRAIN_TYPE.FOREGROUND =
        some (r, b2) ∧
      reachable sample_externals b2 ∧
      ∃ t, b2.tile_map_.at ⟨0, 0⟩ = some t ∧ t.sorted_images = true ∧
        t.images.length = 2 ∧ List.Sorted rule_image_rand.le t.images := by
  have h1 : (construct sample_externals sample_map
      [(0, sample_rule_plain 0), (1, sample_rule)]).isSome = true := by decide
  obtain ⟨b1, hb1⟩ := Option.isSome_iff_exists.mp h1
  have h2 : ((construct sample_externals sample_map
      [(0, sample_rule_plain 0), (1, sample_rule)]).bind
      (fun b => get_terrain_at sample_externals b ⟨0, 0⟩ "dawn"
        TERRAIN_TYPE.FOREGROUND)).isSome = true := by decide
  rw [hb1] at h2
  obtain ⟨x, hx⟩ := Option.isSome_iff_exists.mp h2
  have hx' : get_terrain_at sample_externals b1 ⟨0, 0⟩ "dawn" TERRAIN_TYPE.FOREGROUND =
      some (x.1, x.2) := hx
  have h3 : ((construct sample_externals sample_map
      [(0, sample_rule_plain 0), (1, sample_rule)]).bind
      (fun b => (get_terrain_at sample_externals b ⟨0, 0⟩ "dawn"
        TERRAIN_TYPE.FOREGROUND).bind (fun y => y.2.tile_map_.at ⟨0, 0⟩))).map
      (fun t => (t.sorted_images, t.images.length)) = some (true, 2) := by decide
  rw [hb1] at h3
  simp only [Option.some_bind, hx'] at h3
  have hreach : reachable sample_externals x.2 :=
    reachable.get_terrain_at b1 ⟨0, 0⟩ "dawn" TERRAIN_TYPE.FOREGROUND x.1 x.2
      (reachable.construct sample_map _ b1 hb1) hx'
  cases hat : x.2.tile_map_.at ⟨0, 0⟩ with
  | none => rw [hat] at h3; cases h3
  | some t =>
    rw [hat] at h3
    simp only [Option.map_some', Option.some.injEq, Prod.mk.injEq] at h3
    exact ⟨b1, x.1, x.2, hb1, hx', hreach, t, hat, h3.1, h3.2,
      (reachable_sorted_mark sample_externals x.2 hreach).2.2 ⟨0, 0⟩ t hat h3.1⟩

/-! ### The raw list of a tile after `rebuild_cache` -/

/-- C7: for every tile of a builder state reachable from construction through the
public operations (the tiles that the program holds) and every time of day,
`tile::rebuild_cache` returns provided no variant of the raw entries has a zero
animation duration, and whenever it returns, the raw image list is a permutation of
the raw list before the call, ordered non-decreasingly by `(layer, base-y)`, marked
sorted, with the entries of every given layer and base-y in their order of insertion;
hence two entries `a`, `b` of equal layer and base-y that were inserted in the order
`a`, `b` (by a rule and then by a later rule) are still in that order. -/
theorem rebuild_cache_sorts (ext : externals) (b : builder) (h : reachable ext b)
    (loc : map_location) (t : tile) (hat : b.tile_map_.at loc = some t) (tod : String) :
    ((∀ e ∈ t.images, ∀ v ∈ e.ri.variants, to_unsigned v.image.get_animation_duration ≠ 0) →
      ∃ t1, t.rebuild_cache ext tod = some t1) ∧
    ∀ t1, t.rebuild_cache ext tod = some t1 →
      t1.images.Perm t.images ∧
      List.Sorted rule_image_rand.le t1.images ∧
      t1.sorted_images = true ∧
      (∀ layer basey : Int,
        t1.images.filter (fun e => decide (e.ri.layer = layer ∧ e.ri.basey = basey)) =
          t.images.filter (fun e => decide (e.ri.layer = layer ∧ e.ri.basey = basey))) ∧
      (∀ a b : rule_image_rand, a.ri.layer = b.ri.layer → a.ri.basey = b.ri.basey →
        [a, b].Sublist t.images → [a, b].Sublist t1.images) :=
  rebuild_cache_spec ext t tod
    ((reachable_inv ext b h).2 t (at_mem_tiles _ _ t hat))

/-- C7 witness: the builder constructed on the 1x1 sample map with a rule that places
an image of layer 1 on `(0, 0)` and a later rule that places an image of layer 0
there: the raw list of the tile holds the layers 1, 0 in this order, `rebuild_cache`
returns, and the raw list then holds the layers 0, 1 and is in order. -/
theorem rebuild_cache_sorts_witness :
    ∃ b t t1,
      construct sample_externals sample_map
        [(0, sample_rule_plain 1), (1, sample_rule_plain 0)] = some b ∧
      reachable sample_externals b ∧
      b.tile_map_.at ⟨0, 0⟩ = some t ∧
      t.images.map (fun e => e.ri.layer) = [1, 0] ∧
      t.rebuild_cache sample_externals "dawn" = some t1 ∧
      t1.images.map (fun e => e.ri.layer) = [0, 1] ∧
      t1.images.Perm t.images ∧
      List.Sorted rule_image_rand.le t1.images := by
  have h1 : (construct sample_externals sample_map
      [(0, sample_rule_plain 1), (1, sample_rule_plain 0)]).isSome = true := by decide
  obtain ⟨b, hb⟩ := Option.isSome_iff_exists.mp h1
  have hreach : reachable sample_externals b := reachable.construct sample_map _ b hb
  have h2 : ((construct sample_externals sample_map
      [(0, sample_rule_plain 1), (1, sample_rule_plain 0)]).bind
      (fun b => b.tile_map_.at ⟨0, 0⟩)).map
      (fun t => (t.images.map (fun e => e.ri.layer),
        (t.rebuild_cache sample_externals "dawn").map
          (fun t1 => t1.images.map (fun e => e.ri.layer)))) =
      some ([1, 0], some [0, 1]) := by decide
  rw [hb] at h2
  simp only [Option.some_bind] at h2
  cases hat : b.tile_map_.at ⟨0, 0⟩ with
  | none => rw [hat] at h2; cases h2
  | some t =>
    rw [hat] at h2
    simp only [Option.map_some', Option.some.injEq, Prod.mk.injEq] at h2
    obtain ⟨h3, h4⟩ := h2
    cases hrc : t.rebuild_cache sample_externals "dawn" with
    | none => rw [hrc] at h4; cases h4
    | some t1 =>
      rw [hrc] at h4
      simp only [Option.map_some', Option.some.injEq] at h4
      have hthm := (rebuild_cache_sorts sample_externals b hreach ⟨0, 0⟩ t hat "dawn").2 t1 hrc
      exact ⟨b, t, t1, hb, hreach, hat, h3, hrc, h4, hthm.1, hthm.2.1⟩

/-! ### Tile entries that refer to an undefined anchor -/

theorem add_images_from_config_congr (ext : externals) (images : List rule_image)
    (cfg1 cfg2 : config) (global : Bool) (dx dy : Int)
    (h : cfg1.child_range "image" = cfg2.child_range "image") :
    add_images_from_config ext images cfg1 global dx dy =
      add_images_from_config ext images cfg2 global dx dy := by
  unfold add_images_from_config
  rw [h]

theorem add_constraints_congr (ext : externals) (constraints : constraint_set)
    (loc : map_location) (cfg br1 br2 : config)
    (h : br1.child_range "image" = br2.child_range "image") :
    add_constraints ext constraints loc cfg br1 = add_constraints ext constraints loc cfg br2 := by
  unfold add_constraints add_constraints_match
  simp only [add_images_from_config_congr ext _ br1 br2 true _ _ h]

theorem parse_tile_congr (ext : externals) (anchors : anchormap) (br1 br2 : config)
    (h : br1.child_range "image" = br2.child_range "image")
    (constraints : constraint_set) (tc : config) :
    parse_tile ext anchors br1 constraints tc = parse_tile ext anchors br2 constraints tc := by
  unfold parse_tile
  have hfun : (fun cs loc1 => add_constraints ext cs loc1 tc br1) =
      (fun cs loc1 => add_constraints ext cs loc1 tc br2) := by
    funext cs loc1
    exact add_constraints_congr ext cs loc1 tc br1 br2 h
  simp only [add_constraints_congr ext constraints _ tc br1 br2 h, hfun]

theorem child_range_remove (values : List (String × String)) (pre post : List (String × config))
    (tc : config) :
    (config.mk values (pre ++ ("tile", tc) :: post)).child_range "image" =
      (config.mk values (pre ++ post)).child_range "image" ∧
    (config.mk values (pre ++ ("tile", tc) :: post)).child_range "tile" =
      (config.mk values pre).child_range "tile" ++ tc ::
        (config.mk values post).child_range "tile" ∧
    (config.mk values (pre ++ post)).child_range "tile" =
      (config.mk values pre).child_range "tile" ++ (config.mk values post).child_range "tile" := by
  have h1 : (("tile" : String) == "image") = false := by decide
  have h2 : (("tile" : String) == "tile") = true := by decide
  refine ⟨?_, ?_, ?_⟩
  · simp [config.child_range, config.children, List.filter_append, List.filter_cons, h1]
  · simp [config.child_range, config.children, List.filter_append, List.filter_cons, h2]
  · simp [config.child_range, config.children, List.filter_append]

/-- C21 (amended): for a `tile` node whose `pos` attribute names an anchor index that
the anchor map does not hold, the tile loop of `parse_config` adds for the `pos` part
nothing: the node contributes exactly what its own location (attributes `x`, `y`,
`loc`) contributes when that location is valid, and nothing at all when it is not. In
the second case the node is skipped as a whole, and the constraint set obtained from
the rule description is the one obtained from the description with that node
removed. -/
theorem undefined_anchor_tile (ext : externals) (anchors : anchormap) (tc : config)
    (hpos : (tc.get "pos").isEmpty = false)
    (hundef : ∀ e ∈ anchors, e.1 ≠ ext.to_int (tc.get "pos") 0) :
    (∀ (br : config) (cs : constraint_set),
      parse_tile ext anchors br cs tc =
        if ext.valid (tile_location ext tc) = true then
          add_constraints ext cs (tile_location ext tc) tc br
        else cs) ∧
    (ext.valid (tile_location ext tc) = false →
      (∀ (br : config) (cs : constraint_set), parse_tile ext anchors br cs tc = cs) ∧
      ∀ (values : List (String × String)) (pre post : List (String × config))
        (cs : constraint_set),
        parse_tiles ext anchors (.mk values (pre ++ ("tile", tc) :: post)) cs =
          parse_tiles ext anchors (.mk values (pre ++ post)) cs) := by
  have hany : anchors.any (fun e => e.1 == ext.to_int (tc.get "pos") 0) = false := by
    rw [List.any_eq_false]
    intro e he
    simpa using hundef e he
  have hstep : ∀ (br : config) (cs : constraint_set),
      parse_tile ext anchors br cs tc =
        if ext.valid (tile_location ext tc) = true then
          add_constraints ext cs (tile_location ext tc) tc br
        else cs := by
    intro br cs
    simp only [parse_tile, hpos, hany, Bool.not_false, if_true]
  refine ⟨hstep, ?_⟩
  intro hinv
  have hskip : ∀ (br : config) (cs : constraint_set), parse_tile ext anchors br cs tc = cs := by
    intro br cs
    rw [hstep, hinv]
    simp
  refine ⟨hskip, ?_⟩
  intro values pre post cs
  obtain ⟨himg, ht1, ht2⟩ := child_range_remove values pre post tc
  unfold parse_tiles
  rw [ht1, ht2, List.foldl_append, List.foldl_append, List.foldl_cons, hskip]
  have hfun : parse_tile ext anchors (.mk values (pre ++ ("tile", tc) :: post)) =
      parse_tile ext anchors (.mk values (pre ++ post)) := by
    funext c t
    exact parse_tile_congr ext anchors _ _ himg c t
  rw [hfun]

/-- C21 witness: a rule description with the single tile node that names the anchor 5
and gives no location, and an empty anchor map: no constraint is built. -/
theorem undefined_anchor_tile_witness :
    (sample_tile_pos.get "pos").isEmpty = false ∧
    sample_externals.valid (tile_location sample_externals sample_tile_pos) = false ∧
    parse_tiles sample_externals [] (.mk [] ([] ++ ("tile", sample_tile_pos) :: [])) [] =
      parse_tiles sample_externals [] (.mk [] ([] ++ [])) [] ∧
    parse_tiles sample_externals [] (.mk [] [("tile", sample_tile_pos)]) [] = [] :=
  ⟨by decide, by decide,
    ((undefined_anchor_tile sample_externals [] sample_tile_pos (by decide)
      (by intro e he; cases he)).2 (by decide)).2 [] [] [] [],
    by decide⟩

/-- C21 counterexample: the tile node that names the undefined anchor 5 and also gives
the location `(80, 80)`: the loop adds a constraint at `(80, 80)` with the flag and the
image of the node, so the result differs from that of the description without the
node, which has no constraint. -/
theorem undefined_anchor_tile_adds :
    (sample_tile_pos_xy.get "pos").isEmpty = false ∧
    (parse_tiles sample_externals [] (.mk [] [("tile", sample_tile_pos_xy)]) []).map
      (fun c => (c.1, c.2.set_flag.contains "f", c.2.images.length)) =
      [(⟨80, 80⟩, true, 1)] ∧
    parse_tiles sample_externals [] (.mk [] []) [] = [] := by
  refine ⟨by decide, by decide, by decide⟩

end terrain_builder
